import Mathlib

/-!
Verification development for the package-info-cache repository: a shallow
embedding of the cache/resolver engine (PackageInfoCache, PackageInfo,
NodeModulesList and the utility functions) together with theorems about the
behaviour claimed in its specification.

Modelling conventions:
* JavaScript strings are modelled as lists of characters (Str).
* Absolute filesystem paths are modelled as the list of their path segments
  (the filesystem root is the empty list); paths are kept in normalized form,
  so path.normalize is the identity on this representation.
* JavaScript object identity is modelled with an id-indexed store: the cache
  owns a store mapping numeric EntryId values to the mutable object data, and
  object references are ids.  Two references are identical exactly when the
  ids are equal.
* Mutable methods are state-passing functions in the monad M below; a thrown
  JavaScript exception is an error value that carries the cache state at the
  point of the throw (mutations made before a throw persist, as in JS).
* File-system primitives (fs-extra, resolve-package-path) are an explicit FS
  record of oracles, matching the interface the source consumes.
-/

/-- A JavaScript string, modelled as its list of characters. -/
abbrev Str : Type := List Char

/-- Conversion from Lean string literals to the model representation. -/
def strOf (s : String) : Str := s.toList

/-- Model of JavaScript String.prototype.split with a single-character
separator: splits the character list at every occurrence of the separator,
keeping empty components, and always returns at least one component. -/
def jsSplit (c : Char) : Str → List Str
  | [] => [[]]
  | x :: xs =>
    if x = c then [] :: jsSplit c xs
    else
      match jsSplit c xs with
      | [] => [[x]]
      | h :: t => (x :: h) :: t

/-- Model of String.prototype.startsWith for a single-character argument. -/
def startsWithChar (c : Char) : Str → Bool
  | [] => false
  | x :: _ => x = c

/-- Model of String.prototype.localeCompare, abstracted to code-point
lexicographic comparison (negative, zero or positive). -/
def localeCompare : Str → Str → Int
  | [], [] => 0
  | [], _ :: _ => -1
  | _ :: _, [] => 1
  | a :: as, b :: bs =>
    if a = b then localeCompare as bs
    else if a.toNat < b.toNat then -1 else 1


/-- Parsed JSON values (the result of reading a package descriptor file). -/
inductive Json : Type where
  | null : Json
  | bool (b : Bool) : Json
  | num (n : Int) : Json
  | str (s : Str) : Json
  | arr (elems : List Json) : Json
  | obj (fields : List (Str × Json)) : Json

/-- JavaScript truthiness of a JSON value. -/
def truthy : Json → Bool
  | .null => false
  | .bool b => b
  | .num n => n ≠ 0
  | .str s => s ≠ []
  | .arr _ => true
  | .obj _ => true

/-- Truthiness of a possibly-undefined value (none models undefined). -/
def truthyOpt : Option Json → Bool
  | none => false
  | some j => truthy j

/-- Model of the JavaScript typeof operator on a defined JSON value. -/
def jsTypeof : Json → Str
  | .null => strOf "object"
  | .bool _ => strOf "boolean"
  | .num _ => strOf "number"
  | .str _ => strOf "string"
  | .arr _ => strOf "object"
  | .obj _ => strOf "object"

/-- Association-list lookup by key, first match wins. -/
def alGet {κ ν : Type} [DecidableEq κ] : List (κ × ν) → κ → Option ν
  | [], _ => none
  | (k, v) :: rest, key => if k = key then some v else alGet rest key

/-- Association-list update: replaces the first binding of the key in place
(keeping its position, like JavaScript Map.set) or appends a new binding. -/
def alSet {κ ν : Type} [DecidableEq κ] : List (κ × ν) → κ → ν → List (κ × ν)
  | [], key, val => [(key, val)]
  | (k, v) :: rest, key, val =>
    if k = key then (key, val) :: rest else (k, v) :: alSet rest key val

/-- Property access on a JSON value (JavaScript obj[key] for a string key);
undefined on non-objects. -/
def jsonField : Json → Str → Option Json
  | .obj fields, key => alGet fields key
  | _, _ => none

/-- Property assignment on a JSON value (JavaScript obj[key] = val); a no-op
on non-objects (assignment to a primitive silently does nothing). -/
def jsonSetField : Json → Str → Json → Json
  | .obj fields, key, val => .obj (alSet fields key val)
  | j, _, _ => j

/-- Model of utils.isObject: a defined, non-null value of typeof object. -/
def isObjectJs : Option Json → Bool
  | some (.obj _) => true
  | some (.arr _) => true
  | _ => false

/-- Model of utils.getObjectProperty: walks a dot-separated property path,
requiring every intermediate value to be an object, and returns the final
property value (or undefined). -/
def getObjectPropertyAux : Option Json → List Str → Option Json
  | v, [] => v
  | v, p :: ps =>
    match v with
    | some j =>
      let val := jsonField j p
      match ps with
      | [] => val
      | _ :: _ => if isObjectJs val then getObjectPropertyAux val ps else none
    | none => none

/-- Model of utils.getObjectProperty on a possibly-undefined value and a
dotted property string. -/
def getObjectProperty (o : Option Json) (prop : Str) : Option Json :=
  if isObjectJs o then getObjectPropertyAux o (jsSplit '.' prop) else none

/-- Model of utils.isStringArray: an array whose items are all strings. -/
def isStringArray : Option Json → Bool
  | some (.arr elems) => elems.all fun j => match j with | .str _ => true | _ => false
  | _ => false

/-- The strings of a JSON string array (meaningful when isStringArray). -/
def stringArrayItems : Json → List Str
  | .arr elems => elems.filterMap fun j => match j with | .str s => some s | _ => none
  | _ => []

/-- Model of Array.prototype.includes against a string literal. -/
def jsIncludesStr (elems : List Json) (target : Str) : Bool :=
  elems.any fun j => match j with | .str s => s = target | _ => false

/-- Model of Object.keys: the own enumerable keys of an object value, in
insertion order; other JSON values contribute no keys here. -/
def jsObjectKeys : Json → List Str
  | .obj fields => fields.map Prod.fst
  | _ => []

/-- Model of utils.hasItemInList: the dotted property exists (not undefined). -/
def hasItemInList (list : Option Json) (propName : Str) : Bool :=
  (getObjectProperty list propName).isSome

/-- Model of utils.hasDependency. -/
def hasDependency (o : Option Json) (dependency : Str) : Bool :=
  hasItemInList o (strOf "dependencies." ++ dependency)

/-- Model of utils.hasDevDependency. -/
def hasDevDependency (o : Option Json) (dependency : Str) : Bool :=
  hasItemInList o (strOf "devDependencies." ++ dependency)

/-- An absolute, normalized filesystem path: the list of its segments from
the filesystem root (the root itself is the empty list). -/
abbrev FsPath : Type := List Str

/-- Model of path.basename on an absolute path (empty for the root). -/
def pathBasename (p : FsPath) : Str := p.getLastD []

/-- Model of path.dirname on an absolute path (the root is its own parent). -/
def pathDirname (p : FsPath) : FsPath := p.dropLast

/-- Model of path.join of an absolute base with a relative path string:
split the relative part on slashes and resolve dot and dot-dot segments. -/
def joinRel (base : FsPath) (rel : Str) : FsPath :=
  (jsSplit '/' rel).foldl
    (fun acc seg =>
      if seg = strOf ".." then acc.dropLast
      else if seg = strOf "." ∨ seg = [] then acc
      else acc ++ [seg])
    base

/-- Rendering of a path as the string the source would carry around. -/
def pathToStr (p : FsPath) : Str :=
  p.foldl (fun acc seg => acc ++ '/' :: seg) []

/-- The node_modules path segment. -/
def nmSeg : Str := strOf "node_modules"

/-- The package.json file name segment. -/
def packageJsonSeg : Str := strOf "package.json"

/-- Model of path.extname restricted to what the addon constructor needs:
the extension of the final path segment, empty when the segment has no dot
or only a leading dot. -/
def extnameJs (s : Str) : Str :=
  let bn := (jsSplit '/' s).getLastD []
  let afterLastDot := bn.reverse.takeWhile (fun ch => ch ≠ '.')
  if afterLastDot.length = bn.length then []
  else if bn.length - afterLastDot.length - 1 = 0 then []
  else '.' :: afterLastDot.reverse

/-- Payload of an error-ledger entry (errorData in the source, which is an
arbitrary value; these are the shapes the source actually stores). -/
inductive ErrData : Type where
  | path (p : FsPath) : ErrData
  | names (ns : List Str) : ErrData
  | name (n : Str) : ErrData
  | undef : ErrData
deriving DecidableEq

/-- Modelled from the spec: the ErrorEntry record (its source file is not in
the repository snapshot; per the spec an Error Ledger entry is a pair of an
enumerated kind tag and an opaque payload, and error-list.ts constructs it as
new ErrorEntry(errorType, errorData)). -/
structure ErrorEntry : Type where
  type : Str
  data : ErrData
deriving DecidableEq

/-- The ERRORS constants from errors.ts. -/
def ERROR_PACKAGE_DIR_MISSING : Str := strOf "packageDirectoryMissing"

/-- ERRORS.ERROR_PACKAGE_JSON_MISSING. -/
def ERROR_PACKAGE_JSON_MISSING : Str := strOf "packageJsonMissing"

/-- ERRORS.ERROR_PACKAGE_JSON_PARSE. -/
def ERROR_PACKAGE_JSON_PARSE : Str := strOf "packageJsonParse"

/-- ERRORS.ERROR_EMBER_ADDON_MAIN_MISSING. -/
def ERROR_EMBER_ADDON_MAIN_MISSING : Str := strOf "emberAddonMainMissing"

/-- ERRORS.ERROR_DEPENDENCIES_MISSING. -/
def ERROR_DEPENDENCIES_MISSING : Str := strOf "dependenciesMissing"

/-- ERRORS.ERROR_DEVDEPENDENCIES_MISSING. -/
def ERROR_DEVDEPENDENCIES_MISSING : Str := strOf "devDependenciesMissing"

/-- ERRORS.ERROR_NODEMODULES_ENTRY_MISSING. -/
def ERROR_NODEMODULES_ENTRY_MISSING : Str := strOf "modulesEntryMissing"

/-- The ad-hoc error type string used by readPackage for a paths entry that
is not an addon (the source interpolates the entry into the message; the
payload position is undefined there). -/
def inRepoAddonNotAddonError : Str :=
  strOf "The addon paths entry is not an addon"

/-- Model of isEmberPackageJson: the ember.edition property is the string
classic or the string octane. -/
def isEmberPackageJson (o : Option Json) : Bool :=
  match getObjectProperty o (strOf "ember.edition") with
  | some (.str s) => s = strOf "classic" ∨ s = strOf "octane"
  | _ => false

/-- Model of isEmberAddonPackageJson: an ember package whose keywords array
contains ember-addon and whose ember-addon block, if present, has typeof
object. -/
def isEmberAddonPackageJson (o : Option Json) : Bool :=
  if ¬ isEmberPackageJson o then false
  else
    let keywords := getObjectProperty o (strOf "keywords")
    match keywords with
    | some (.arr elems) =>
      if ¬ jsIncludesStr elems (strOf "ember-addon") then false
      else
        match getObjectProperty o (strOf "ember-addon") with
        | none => true
        | some block => jsTypeof block = strOf "object"
    | _ => false

/-- Model of isEmberEnginePackageJson: an ember addon whose keywords array
also contains ember-engine. -/
def isEmberEnginePackageJson (o : Option Json) : Bool :=
  if ¬ isEmberAddonPackageJson o then false
  else
    match o with
    | some j =>
      match jsonField j (strOf "keywords") with
      | some (.arr elems) => jsIncludesStr elems (strOf "ember-engine")
      | _ => false
    | none => false

/-- Model of isEmberAppPackageJson: an ember package without the ember-addon
keyword that depends on ember-cli in dependencies or devDependencies. -/
def isEmberAppPackageJson (o : Option Json) : Bool :=
  if ¬ isEmberPackageJson o then false
  else
    let keywords := getObjectProperty o (strOf "keywords")
    match keywords with
    | some (.arr elems) =>
      if jsIncludesStr elems (strOf "ember-addon") then false
      else hasDependency o (strOf "ember-cli") || hasDevDependency o (strOf "ember-cli")
    | _ => hasDependency o (strOf "ember-cli") || hasDevDependency o (strOf "ember-cli")

/-- The PackageInfo subclass chosen by PackageInfoFactory.create for a given
parsed descriptor (most specific guard first, as in the source). -/
inductive PkgKind : Type where
  | emberEngine : PkgKind
  | emberAddon : PkgKind
  | emberApp : PkgKind
  | emberPackage : PkgKind
  | plain : PkgKind
deriving DecidableEq

/-- Model of PackageInfoFactory.create restricted to choosing the subclass. -/
def classifyPackageJson (j : Json) : PkgKind :=
  if isEmberEnginePackageJson (some j) then .emberEngine
  else if isEmberAddonPackageJson (some j) then .emberAddon
  else if isEmberAppPackageJson (some j) then .emberApp
  else if isEmberPackageJson (some j) then .emberPackage
  else .plain

/-- Cache entry ids: the model of JavaScript object identity for the nodes
owned by a PackageInfoCache (two references are identical iff ids agree). -/
abbrev EntryId : Type := Nat

/-- A reference held in a PackageInfo.nodeModules field: either the shared
frozen NodeModulesList.nullInstance or a table-owned listing object. -/
inductive NmlRef : Type where
  | nullInstance : NmlRef
  | listId (i : EntryId) : NmlRef
deriving DecidableEq

/-- The mutable state of one PackageInfo object (package-info.ts), as stored
in the cache's object store.  The packageJson, realPath, isRoot and kind
fields are fixed at construction; the rest are mutated by the cache. -/
structure PackageInfo : Type where
  packageJson : Json
  realPath : FsPath
  isRoot : Bool
  kind : PkgKind
  errors : List ErrorEntry
  dependenciesPackages : Option (List (Str × EntryId))
  devDependenciesPackages : Option (List (Str × EntryId))
  nodeModules : Option NmlRef
  inRepoAddons : Option (List EntryId)
  addonMainPath : Option FsPath
  processed : Bool
  valid : Bool

/-- The mutable state of one NodeModulesList object (node-modules-list.ts). -/
structure NodeModulesList : Type where
  realPath : FsPath
  hasEntries : Bool
  entries : List (Str × EntryId)
  errors : List ErrorEntry

/-- NodeModulesList.addEntry: records an entry and flips hasEntries. -/
def NodeModulesList.addEntry (l : NodeModulesList) (entryName : Str)
    (entryVal : EntryId) : NodeModulesList :=
  { l with hasEntries := true, entries := alSet l.entries entryName entryVal }

/-- NodeModulesList.addError: appends to the error ledger. -/
def NodeModulesList.addError (l : NodeModulesList) (errorType : Str)
    (errorData : ErrData) : NodeModulesList :=
  { l with errors := l.errors ++ [⟨errorType, errorData⟩] }

/-- The shared frozen NodeModulesList.nullInstance (an empty listing; its
realPath is the dev null placeholder the source uses). -/
def NodeModulesList.nullInstance : NodeModulesList :=
  { realPath := [strOf "dev", strOf "null"], hasEntries := false,
    entries := [], errors := [] }

/-- A cache table entry: a PackageInfo or a NodeModulesList object. -/
inductive PackageInfoCacheEntry : Type where
  | pkg (d : PackageInfo) : PackageInfoCacheEntry
  | nml (d : NodeModulesList) : PackageInfoCacheEntry

/-- The PackageInfoCache state: the path-keyed entries table (values are
object ids), the object store realizing JavaScript object identity, the
fresh-id counter, and the rootPackage field. -/
structure PackageInfoCache : Type where
  entries : List (FsPath × EntryId)
  store : List (EntryId × PackageInfoCacheEntry)
  nextId : EntryId
  rootPackage : Option EntryId

/-- A freshly constructed PackageInfoCache (the constructor). -/
def PackageInfoCache.empty : PackageInfoCache :=
  { entries := [], store := [], nextId := 0, rootPackage := none }

/-- PackageInfoCache.getEntry: the table lookup. -/
def PackageInfoCache.getEntry (s : PackageInfoCache) (absolutePath : FsPath) :
    Option EntryId :=
  alGet s.entries absolutePath

/-- PackageInfoCache.contains. -/
def PackageInfoCache.contains (s : PackageInfoCache) (absolutePath : FsPath) :
    Bool :=
  (s.getEntry absolutePath).isSome

/-- Dereference an object id in the store. -/
def PackageInfoCache.getData (s : PackageInfoCache) (i : EntryId) :
    Option PackageInfoCacheEntry :=
  alGet s.store i

/-- The PackageInfo data of an id, when the id denotes a PackageInfo. -/
def PackageInfoCache.pkgData (s : PackageInfoCache) (i : EntryId) :
    Option PackageInfo :=
  match s.getData i with
  | some (.pkg d) => some d
  | _ => none

/-- The NodeModulesList data of an id, when the id denotes a listing. -/
def PackageInfoCache.nmlData (s : PackageInfoCache) (i : EntryId) :
    Option NodeModulesList :=
  match s.getData i with
  | some (.nml d) => some d
  | _ => none

/-- PackageInfoCache.addEntry (private in the source): bind a path key. -/
def PackageInfoCache.addEntry (s : PackageInfoCache) (absolutePath : FsPath)
    (i : EntryId) : PackageInfoCache :=
  { s with entries := alSet s.entries absolutePath i }

/-- Allocate a fresh object in the store, returning its id. -/
def PackageInfoCache.allocate (s : PackageInfoCache)
    (d : PackageInfoCacheEntry) : EntryId × PackageInfoCache :=
  (s.nextId,
   { s with store := alSet s.store s.nextId d, nextId := s.nextId + 1 })

/-- Overwrite the stored data of an existing object id (a field mutation on
the JavaScript object). -/
def PackageInfoCache.setData (s : PackageInfoCache) (i : EntryId)
    (d : PackageInfoCacheEntry) : PackageInfoCache :=
  { s with store := alSet s.store i d }

/-- Resolve a nodeModules reference to listing data (the nullInstance is a
shared constant outside the table). -/
def derefNml (s : PackageInfoCache) : NmlRef → Option NodeModulesList
  | .nullInstance => some NodeModulesList.nullInstance
  | .listId i => s.nmlData i

/-- The JavaScript exceptions the engine can raise, plus fuel exhaustion of
the model (the source recursion is bounded by the finite filesystem; the
model makes the bound an explicit fuel argument). -/
inductive JsErr : Type where
  | wrongKindPkg (p : FsPath) : JsErr
  | wrongKindPkgReal (p : FsPath) : JsErr
  | wrongKindNml (p : FsPath) : JsErr
  | wrongKindNmlReal (p : FsPath) : JsErr
  | typeError : JsErr
  | outOfFuel : JsErr
deriving DecidableEq

/-- The filesystem and JSON oracles the engine consumes (fs-extra and
resolve-package-path): canonical directory resolution, canonical file
resolution, directory enumeration, JSON file reading (none is the null that
readJsonSync with throws false yields on a parse failure), and existsSync. -/
structure FS : Type where
  realDir : FsPath → Option FsPath
  realFile : FsPath → Option FsPath
  readdir : FsPath → List Str
  readJson : FsPath → Option Json
  fsExists : FsPath → Bool

/-- A coherent canonicalization oracle: canonical paths are fixed points. -/
def FS.RealIdem (fs : FS) : Prop :=
  ∀ p r, fs.realDir p = some r → fs.realDir r = some r

/-- The effect monad of the engine: state passing over the cache with
JavaScript exceptions; a raised error preserves the mutations made before
the throw, exactly as exceptions interact with in-place mutation in JS. -/
def M (α : Type) : Type := PackageInfoCache → Except JsErr α × PackageInfoCache

/-- Monad unit for M. -/
def M.pure {α : Type} (a : α) : M α := fun s => (.ok a, s)

/-- Monad bind for M. -/
def M.bind {α β : Type} (x : M α) (f : α → M β) : M β := fun s =>
  match x s with
  | (.ok a, s1) => f a s1
  | (.error e, s1) => (.error e, s1)

instance : Monad M where
  pure := M.pure
  bind := M.bind

/-- Read the current cache state. -/
def getC : M PackageInfoCache := fun s => (.ok s, s)

/-- Replace the cache state. -/
def setC (s1 : PackageInfoCache) : M Unit := fun _ => (.ok (), s1)

/-- Apply a state transformation. -/
def modifyC (f : PackageInfoCache → PackageInfoCache) : M Unit :=
  fun s => (.ok (), f s)

/-- Throw a JavaScript exception. -/
def throwM {α : Type} (e : JsErr) : M α := fun s => (.error e, s)

/-- Lift an exception-or-value into M. -/
def liftEx {α : Type} : Except JsErr α → M α
  | .ok a => M.pure a
  | .error e => throwM e

/-- Mutate the PackageInfo data stored at an id (no-op when the id does not
denote a PackageInfo, which is unreachable for the ids the engine uses). -/
def modifyPkg (i : EntryId) (f : PackageInfo → PackageInfo) : M Unit :=
  fun s =>
    match s.pkgData i with
    | some d => (.ok (), s.setData i (.pkg (f d)))
    | none => (.ok (), s)

/-- PackageInfo.addError: append an entry to the error ledger. -/
def PackageInfo.addError (d : PackageInfo) (errorType : Str)
    (errorData : ErrData) : PackageInfo :=
  { d with errors := d.errors ++ [⟨errorType, errorData⟩] }

/-- PackageInfo.hasErrors. -/
def PackageInfo.hasErrors (d : PackageInfo) : Bool := d.errors ≠ []

/-- NodeModulesList.hasErrors. -/
def NodeModulesList.hasErrors (l : NodeModulesList) : Bool := l.errors ≠ []

/-- Measure for the scoped-name recursion of NodeModulesList.findPackage:
the recursive call receives the component after the first slash, which
contains strictly fewer slashes. -/
def findPackageMeasure : Option Str → Nat
  | none => 0
  | some s => s.count '/' + 1


/-- NodeModulesList.findPackage (node-modules-list.ts, lines 87 to 108),
with the recursion driven by a structural counter (findPackageGo); the
wrapper below instantiates the counter with findPackageMeasure of the name,
which is always sufficient because the recursive call receives the component
after the first slash, with strictly fewer slashes (see
findPackageGo_measure_le below).  The packageName argument is optional
because the recursive call passes parts 1 of the split, which is undefined
for a scoped name without a slash; invoking startsWith on that undefined
value is the modelled typeError.  The final branch returns whatever id is
stored under the name (the source casts the entry to PackageInfo without
checking). -/
def NodeModulesList.findPackageGo (store : List (EntryId × PackageInfoCacheEntry))
    (fuelN : Nat) (l : NodeModulesList) (packageName : Option Str) :
    Except JsErr (Option EntryId) :=
  if l.hasEntries = false then .ok none
  else
    match packageName with
    | none => .error .typeError
    | some name =>
      if startsWithChar '@' name then
        let parts := jsSplit '/' name
        match alGet l.entries (parts.headD []) with
        | some i =>
          match alGet store i with
          | some (.nml nested) =>
            match fuelN with
            | 0 => .error .outOfFuel
            | n + 1 => NodeModulesList.findPackageGo store n nested (parts.get? 1)
          | _ => .ok none
        | none => .ok none
      else .ok (alGet l.entries name)

/-- NodeModulesList.findPackage: the wrapper supplying the always-sufficient
structural counter. -/
def NodeModulesList.findPackage (store : List (EntryId × PackageInfoCacheEntry))
    (l : NodeModulesList) (packageName : Option Str) :
    Except JsErr (Option EntryId) :=
  NodeModulesList.findPackageGo store (findPackageMeasure packageName) l packageName


/-- The EmberAddonPackageInfo constructor (ember-addon-package-info.ts):
computes the addon main file name (ember-addon.main over main, defaulting to
index.js, appending .js when there is no extension), stores it back into
packageJson.main, and records an error and invalidates the node when the
resolved main file does not exist.  Returns the updated descriptor, the
addonMainPath, the constructor errors and the valid flag. -/
def emberAddonCtor (fs : FS) (packageJson : Json) (realPath : FsPath) :
    Json × Option FsPath × List ErrorEntry × Bool :=
  let emberAddonMain := getObjectProperty (some packageJson) (strOf "ember-addon.main")
  let main : Option Json :=
    if truthyOpt emberAddonMain then emberAddonMain
    else jsonField packageJson (strOf "main")
  let mainFile : Str :=
    match main with
    | some (.str s) =>
      if s = [] ∨ s = strOf "." ∨ s = strOf "./" then strOf "index.js"
      else if extnameJs s = [] then s ++ strOf ".js"
      else s
    | _ => strOf "index.js"
  let packageJson1 := jsonSetField packageJson (strOf "main") (.str mainFile)
  let mainPath := joinRel realPath mainFile
  match fs.realFile mainPath with
  | some mainRealPath => (packageJson1, some mainRealPath, [], true)
  | none =>
    (packageJson1, none, [⟨ERROR_EMBER_ADDON_MAIN_MISSING, .path mainPath⟩], false)

/-- PackageInfoFactory.create: classifies the descriptor and constructs the
matching PackageInfo object (only the addon and engine constructors have
extra behaviour beyond the base constructor). -/
def PackageInfoFactory.create (fs : FS) (packageJson : Json) (realPath : FsPath)
    (isRoot : Bool) : PackageInfo :=
  let kind := classifyPackageJson packageJson
  match kind with
  | .emberEngine | .emberAddon =>
    let r := emberAddonCtor fs packageJson realPath
    { packageJson := r.1, realPath := realPath, isRoot := isRoot, kind := kind,
      errors := r.2.2.1, dependenciesPackages := none,
      devDependenciesPackages := none, nodeModules := none,
      inRepoAddons := none, addonMainPath := r.2.1,
      processed := false, valid := r.2.2.2 }
  | _ =>
    { packageJson := packageJson, realPath := realPath, isRoot := isRoot,
      kind := kind, errors := [], dependenciesPackages := none,
      devDependenciesPackages := none, nodeModules := none,
      inRepoAddons := none, addonMainPath := none,
      processed := false, valid := true }

/-- Model of the cast-and-call newPackageInfo.addInRepoAddon(addonPkgInfo)
in readPackage: the method exists on the addon, engine and app classes; on
the remaining classes the cast hides a missing method and the call raises a
TypeError at runtime. -/
def addInRepoAddonM (selfId addonId : EntryId) : M Unit := fun s =>
  match s.pkgData selfId with
  | some d =>
    match d.kind with
    | .emberAddon | .emberEngine | .emberApp =>
      (.ok (),
       s.setData selfId
         (.pkg { d with inRepoAddons := some (d.inRepoAddons.getD [] ++ [addonId]) }))
    | _ => (.error .typeError, s)
  | none => (.ok (), s)

/-- The per-path body of the in-repo addon forEach in readPackage (part_002
lines 800 to 837): read the addon package and either link it as an in-repo
addon (when its class turned out addon or engine) or record the
not-an-addon error on the enclosing node and invalidate it. -/
def PackageInfoCache.inRepoStep (fs : FS) (rp : FsPath → Bool → M EntryId)
    (selfId : EntryId) (realPath : FsPath) (p : Str) : M Unit := do
  let addonPath := joinRel realPath p
  let addonPkgInfo ← rp addonPath false
  let s3 ← getC
  match s3.pkgData addonPkgInfo with
  | some ad =>
    if ad.kind = .emberAddon ∨ ad.kind = .emberEngine then
      addInRepoAddonM selfId addonPkgInfo
    else
      modifyPkg selfId (fun d =>
        { d.addError inRepoAddonNotAddonError .undef with valid := false })
  | none => M.pure ()

/-- The ember-addon.paths processing phase of readPackage: when the
descriptor carries a string array there, process each path. -/
def PackageInfoCache.inRepoPhase (fs : FS) (rp : FsPath → Bool → M EntryId)
    (selfId : EntryId) (realPath : FsPath) (np : PackageInfo) : M Unit :=
  let paths := getObjectProperty (some np.packageJson) (strOf "ember-addon.paths")
  if isStringArray paths then
    match paths with
    | some pathsJson =>
      (stringArrayItems pathsJson).forM
        (PackageInfoCache.inRepoStep fs rp selfId realPath)
    | none => M.pure ()
  else M.pure ()

/-- The node_modules attachment phase of readPackage: classes that allow
dependents read the node_modules listing under the node; the others receive
the shared null instance. -/
def PackageInfoCache.nmPhase (fs : FS) (rnml : FsPath → M (Option EntryId))
    (selfId : EntryId) (realPath : FsPath) (np : PackageInfo) : M Unit :=
  if np.kind = .emberAddon ∨ np.kind = .emberEngine ∨ np.kind = .emberApp then do
    let nodeModules ← rnml (realPath ++ [nmSeg])
    match nodeModules with
    | some listId =>
      modifyPkg selfId (fun d => { d with nodeModules := some (.listId listId) })
    | none => M.pure ()
  else
    modifyPkg selfId (fun d => { d with nodeModules := some .nullInstance })

/-- The stateful tail of readPackageNew, from the point where the node has
been constructed: allocate it, register it in the table before recursing,
process in-repo addon paths, and attach the node_modules listing (the shared
null instance for classes that do not allow dependents). -/
def PackageInfoCache.readPackageTail (fs : FS) (rp : FsPath → Bool → M EntryId)
    (rnml : FsPath → M (Option EntryId)) (realPath : FsPath)
    (newPackageInfo : PackageInfo) : M EntryId := do
  let s1 ← getC
  let alloc := s1.allocate (.pkg newPackageInfo)
  setC ((alloc.2).addEntry realPath alloc.1)
  let selfId := alloc.1
  PackageInfoCache.inRepoPhase fs rp selfId realPath newPackageInfo
  PackageInfoCache.nmPhase fs rnml selfId realPath newPackageInfo
  M.pure selfId

/-- The node-construction tail of readPackage (part_002 lines 759 to 881):
reads and parses package.json (unless the directory was missing),
synthesizes the placeholder descriptor on failure, forces the root property,
constructs the node through the factory, replaces its errors with the setup
errors when any, registers it in the table before recursing, processes
in-repo addon paths, and reads the node_modules listing when the class
allows dependents (otherwise stores the shared null instance).  The rp and
rnml parameters are the recursive readPackage and readNodeModulesList calls
of the enclosing mutual recursion. -/
def PackageInfoCache.readPackageNew (fs : FS) (rp : FsPath → Bool → M EntryId)
    (rnml : FsPath → M (Option EntryId)) (realPath : FsPath) (isRoot : Bool)
    (setupErrors0 : List ErrorEntry) (pathFailed : Bool) : M EntryId := do
  let readResult : Option Json × List ErrorEntry :=
    if pathFailed then (none, setupErrors0)
    else
      let packageJsonPath := realPath ++ [packageJsonSeg]
      match fs.realFile packageJsonPath with
      | some packageDataPath =>
        match fs.readJson packageDataPath with
        | some j =>
          if truthy j then (some j, setupErrors0)
          else (none, setupErrors0 ++ [⟨ERROR_PACKAGE_JSON_PARSE, .path packageDataPath⟩])
        | none =>
          (none, setupErrors0 ++ [⟨ERROR_PACKAGE_JSON_PARSE, .path packageDataPath⟩])
      | none =>
        (none, setupErrors0 ++ [⟨ERROR_PACKAGE_JSON_MISSING, .path packageJsonPath⟩])
  let setupErrors := readResult.2
  let packageJson1 : Json :=
    match readResult.1 with
    | none => Json.obj [(strOf "name", .str (strOf "invalid package.json"))]
    | some j => j
  let packageJson2 := jsonSetField packageJson1 (strOf "root") (.str (pathToStr realPath))
  let created := PackageInfoFactory.create fs packageJson2 realPath isRoot
  let newPackageInfo :=
    if setupErrors ≠ [] then { created with errors := setupErrors, valid := false }
    else created
  PackageInfoCache.readPackageTail fs rp rnml realPath newPackageInfo

/-- The per-entry body of the listing fold in readNodeModulesList (part_002
lines 963 to 1004): skip plain files, recurse into scope directories
(recording a missing-entry error when that comes back absent), and read
every other entry as a package. -/
def PackageInfoCache.nmlStep (fs : FS) (rp : FsPath → Bool → M EntryId)
    (rnml : FsPath → M (Option EntryId)) (realPath : FsPath)
    (acc : NodeModulesList) (entryName : Str) : M NodeModulesList := do
  let entryPath := joinRel realPath entryName
  if (fs.realFile entryPath).isSome then M.pure acc
  else if startsWithChar '@' entryName then do
    let entryVal ← rnml entryPath
    match entryVal with
    | some listId => M.pure (acc.addEntry entryName listId)
    | none => M.pure (acc.addError ERROR_NODEMODULES_ENTRY_MISSING (.name entryName))
  else do
    let entryVal ← rp entryPath false
    M.pure (acc.addEntry entryName entryVal)

/-- The listing-construction tail of readNodeModulesList (part_002 lines 944
to 1015): enumerates the directory, filters dot, underscore and
descriptor-less entries, skips plain files, recurses into scope directories
and packages, and registers the populated listing in the table at the end.
The rp and rnml parameters are the recursive calls of the enclosing mutual
recursion. -/
def PackageInfoCache.readNodeModulesListNew (fs : FS)
    (rp : FsPath → Bool → M EntryId) (rnml : FsPath → M (Option EntryId))
    (realPath : FsPath) : M (Option EntryId) := do
  let entryNames := (fs.readdir realPath).filter (fun fileName =>
      if startsWithChar '.' fileName || startsWithChar '_' fileName then false
      else if startsWithChar '@' fileName then true
      else fs.fsExists (realPath ++ [fileName, packageJsonSeg]))
  let newNodeModulesList ← entryNames.foldlM
    (PackageInfoCache.nmlStep fs rp rnml realPath)
    { realPath := realPath, hasEntries := false, entries := [], errors := [] }
  let s1 ← getC
  let alloc := s1.allocate (.nml newNodeModulesList)
  setC ((alloc.2).addEntry realPath alloc.1)
  M.pure (some alloc.1)

mutual

/-- PackageInfoCache readPackage (part_002 lines 702 to 882): cache hit and
wrong-kind checks on the normalized path, canonical-path resolution with a
second check when it differs, then construction of the new node via
readPackageNew.  The fuel argument makes the finite-filesystem recursion
explicit. -/
def PackageInfoCache.readPackage (fs : FS) : Nat → FsPath → Bool → M EntryId
  | 0, _, _ => throwM .outOfFuel
  | fuel' + 1, packageDir, isRoot => do
    let normalizedPackageDir := packageDir
    let s0 ← getC
    match s0.getEntry normalizedPackageDir with
    | some i =>
      match s0.getData i with
      | some (.pkg _) => M.pure i
      | _ => throwM (.wrongKindPkg normalizedPackageDir)
    | none =>
      match fs.realDir normalizedPackageDir with
      | none =>
        PackageInfoCache.readPackageNew fs (PackageInfoCache.readPackage fs fuel')
          (PackageInfoCache.readNodeModulesList fs fuel') normalizedPackageDir isRoot
          [⟨ERROR_PACKAGE_DIR_MISSING, .path normalizedPackageDir⟩] true
      | some realPath =>
        if realPath = normalizedPackageDir then
          PackageInfoCache.readPackageNew fs (PackageInfoCache.readPackage fs fuel')
            (PackageInfoCache.readNodeModulesList fs fuel') realPath isRoot [] false
        else
          match s0.getEntry realPath with
          | some i =>
            match s0.getData i with
            | some (.pkg _) => M.pure i
            | _ => throwM (.wrongKindPkgReal realPath)
          | none =>
            PackageInfoCache.readPackageNew fs (PackageInfoCache.readPackage fs fuel')
              (PackageInfoCache.readNodeModulesList fs fuel') realPath isRoot [] false
termination_by structural fuel => fuel

/-- PackageInfoCache readNodeModulesList (part_002 lines 898 to 1016): cache
hit and wrong-kind checks, absent-directory handling (returns undefined with
no error), then construction of a new listing via readNodeModulesListNew. -/
def PackageInfoCache.readNodeModulesList (fs : FS) :
    Nat → FsPath → M (Option EntryId)
  | 0, _ => throwM .outOfFuel
  | fuel' + 1, nodeModulesDir => do
    let normalizedNodeModulesDir := nodeModulesDir
    let s0 ← getC
    match s0.getEntry normalizedNodeModulesDir with
    | some i =>
      match s0.getData i with
      | some (.nml _) => M.pure (some i)
      | _ => throwM (.wrongKindNml normalizedNodeModulesDir)
    | none =>
      match fs.realDir normalizedNodeModulesDir with
      | none => M.pure none
      | some realPath =>
        if realPath = normalizedNodeModulesDir then
          PackageInfoCache.readNodeModulesListNew fs
            (PackageInfoCache.readPackage fs fuel')
            (PackageInfoCache.readNodeModulesList fs fuel') realPath
        else
          match s0.getEntry realPath with
          | some i =>
            match s0.getData i with
            | some (.nml _) => M.pure (some i)
            | some (.pkg _) => throwM (.wrongKindNmlReal realPath)
            | none =>
              PackageInfoCache.readNodeModulesListNew fs
                (PackageInfoCache.readPackage fs fuel')
                (PackageInfoCache.readNodeModulesList fs fuel') realPath
          | none =>
            PackageInfoCache.readNodeModulesListNew fs
              (PackageInfoCache.readPackage fs fuel')
              (PackageInfoCache.readNodeModulesList fs fuel') realPath
termination_by structural fuel => fuel

end

/-- The while loop of PackageInfoCache.findPackage (part_002 lines 462 to
489), driven by a structural counter that the wrapper instantiates with the
length of the start path (the loop runs once per chain directory, and moving
to the parent shortens the path by one segment, so the counter never runs
out): at each chain directory, probe the node_modules listing rooted there
(the directory itself when it is already named node_modules), consult it,
and otherwise continue from the parent; reaching the filesystem root returns
absent. -/
def PackageInfoCache.findPackageGo (fs : FS) (fuel : Nat) (packageName : Str) :
    Nat → FsPath → M (Option EntryId)
  | _, [] => M.pure none
  | 0, _ :: _ => M.pure none
  | n + 1, seg :: rest => do
    let endsWithNodeModules := pathBasename (seg :: rest) = nmSeg
    let nodeModulesPath :=
      if endsWithNodeModules then seg :: rest else (seg :: rest) ++ [nmSeg]
    let nodeModulesList ← PackageInfoCache.readNodeModulesList fs fuel nodeModulesPath
    match nodeModulesList with
    | some listId => do
      let s ← getC
      match s.nmlData listId with
      | some l =>
        match NodeModulesList.findPackage s.store l (some packageName) with
        | .error e => throwM e
        | .ok (some pkg) => M.pure (some pkg)
        | .ok none =>
          PackageInfoCache.findPackageGo fs fuel packageName n (pathDirname (seg :: rest))
      | none =>
        PackageInfoCache.findPackageGo fs fuel packageName n (pathDirname (seg :: rest))
    | none =>
      PackageInfoCache.findPackageGo fs fuel packageName n (pathDirname (seg :: rest))

/-- PackageInfoCache.findPackage: the node-resolution search from a start
directory (the loop runs while the current path differs from the filesystem
root). -/
def PackageInfoCache.findPackage (fs : FS) (fuel : Nat) (packageName : Str)
    (startPath : FsPath) : M (Option EntryId) :=
  PackageInfoCache.findPackageGo fs fuel packageName startPath.length startPath

/-- The per-name body of the forEach in PackageInfo.doAddDependencies
(package-info.ts lines 149 to 180): check the node's own node_modules
listing first, and only when that finds nothing fall back to the cache's
upward search starting at the node's parent directory. -/
def PackageInfo.resolveDependencyName (fs : FS) (fuel : Nat)
    (selfId : EntryId) (dependencyName : Str) : M (Option EntryId) := do
  let s ← getC
  match s.pkgData selfId with
  | none => M.pure none
  | some d =>
    let ownHit ←
      match d.nodeModules with
      | some r =>
        match derefNml s r with
        | some l => liftEx (NodeModulesList.findPackage s.store l (some dependencyName))
        | none => M.pure none
      | none => M.pure none
    match ownHit with
    | some dependencyPackage => M.pure (some dependencyPackage)
    | none => PackageInfoCache.findPackage fs fuel dependencyName (pathDirname d.realPath)

/-- One iteration of the forEach in PackageInfo.doAddDependencies: resolve
the name and place it in the hit map or on the missing list. -/
def PackageInfo.resolveOneDep (fs : FS) (fuel : Nat) (selfId : EntryId)
    (acc : List (Str × EntryId) × List Str) (dependencyName : Str) :
    M (List (Str × EntryId) × List Str) := do
  let found ← PackageInfo.resolveDependencyName fs fuel selfId dependencyName
  match found with
  | some dependencyPackage =>
    M.pure (alSet acc.1 dependencyName dependencyPackage, acc.2)
  | none => M.pure (acc.1, acc.2 ++ [dependencyName])

/-- PackageInfo.doAddDependencies (package-info.ts lines 130 to 187):
resolve every declared dependency name, collecting hits into a name-to-node
map and misses into a list, and record the misses as one combined ledger
entry of the given error type. -/
def PackageInfo.doAddDependencies (fs : FS) (fuel : Nat) (selfId : EntryId)
    (dependenciesObj : Option Json) (errorType : Str) :
    M (Option (List (Str × EntryId))) :=
  match dependenciesObj with
  | none => M.pure none
  | some dj =>
    if ¬ truthy dj then M.pure none
    else
      let dependencyNames := jsObjectKeys dj
      if dependencyNames = [] then M.pure none
      else do
        let acc ← dependencyNames.foldlM
          (PackageInfo.resolveOneDep fs fuel selfId) ([], [])
        (if acc.2 ≠ [] then
          modifyPkg selfId (fun d => d.addError errorType (.names acc.2))
         else M.pure ())
        M.pure (some acc.1)

/-- PackageInfo.addDependencies. -/
def PackageInfo.addDependencies (fs : FS) (fuel : Nat) (selfId : EntryId)
    (dependencies : Option Json) : M (Option (List (Str × EntryId))) :=
  PackageInfo.doAddDependencies fs fuel selfId dependencies ERROR_DEPENDENCIES_MISSING

/-- PackageInfo.addDevDependencies. -/
def PackageInfo.addDevDependencies (fs : FS) (fuel : Nat) (selfId : EntryId)
    (dependencies : Option Json) : M (Option (List (Str × EntryId))) :=
  PackageInfo.doAddDependencies fs fuel selfId dependencies ERROR_DEVDEPENDENCIES_MISSING

/-- PackageInfoCache getPackageInfos: the PackageInfo entries of the table,
in table order. -/
def PackageInfoCache.getPackageInfos (s : PackageInfoCache) : List EntryId :=
  (s.entries.map Prod.snd).filter (fun i => (s.pkgData i).isSome)

/-- The per-node body of the forEach in resolveDependencies (part_002 lines
633 to 652): skip already-processed nodes; otherwise resolve the declared
dependencies, additionally the devDependencies when the node is the root,
and finally mark the node processed. -/
def PackageInfoCache.resolveStep (fs : FS) (fuel : Nat)
    (packageInfo : EntryId) : M Unit := do
  let s1 ← getC
  match s1.pkgData packageInfo with
  | none => M.pure ()
  | some d =>
    if d.processed then M.pure ()
    else do
      let pkgs ← PackageInfo.addDependencies fs fuel packageInfo
        (jsonField d.packageJson (strOf "dependencies"))
      modifyPkg packageInfo (fun d2 => { d2 with dependenciesPackages := pkgs })
      (if d.isRoot then do
        let devPkgs ← PackageInfo.addDevDependencies fs fuel packageInfo
          (jsonField d.packageJson (strOf "devDependencies"))
        modifyPkg packageInfo (fun d2 => { d2 with devDependenciesPackages := devPkgs })
       else M.pure ())
      modifyPkg packageInfo (fun d2 => { d2 with processed := true })

/-- PackageInfoCache resolveDependencies (part_002 lines 628 to 653): one
pass over the currently known PackageInfo nodes, running the resolution
step on each. -/
def PackageInfoCache.resolveDependencies (fs : FS) (fuel : Nat) : M Unit := do
  let s ← getC
  let packageInfos := s.getPackageInfos
  packageInfos.forM (PackageInfoCache.resolveStep fs fuel)

/-- PackageInfoCache.loadApp (part_002 lines 367 to 388): read the package,
return it unchanged when it has already been processed, and otherwise, when
loading as the root, record it as the rootPackage and run the resolution
pass. -/
def PackageInfoCache.loadApp (fs : FS) (fuel : Nat) (appRootDir : FsPath)
    (isRoot : Bool) : M EntryId := do
  let pkgInfo ← PackageInfoCache.readPackage fs fuel appRootDir isRoot
  let s ← getC
  match s.pkgData pkgInfo with
  | some d =>
    if d.processed then M.pure pkgInfo
    else do
      (if isRoot then do
        modifyC (fun s2 => { s2 with rootPackage := some pkgInfo })
        PackageInfoCache.resolveDependencies fs fuel
       else M.pure ())
      M.pure pkgInfo
  | none => M.pure pkgInfo

/-- Model of utils.pushUnique: when the entry is already in the array it is
removed from its old position (indexOf plus splice removes the first
occurrence) and then appended; otherwise it is just appended. -/
def pushUnique {T : Type} [DecidableEq T] (array : List T) (entry : T) : List T :=
  if entry ∈ array then array.erase entry ++ [entry]
  else array ++ [entry]

/-- Model of utils.lexicographically on nodes identified by id, reading the
optional name through the given projection (the name getter returns the
packageJson.name field, which need not be a string at runtime). -/
def lexicographically (nameOf : EntryId → Option Json) (a b : EntryId) : Int :=
  let an := nameOf a
  let bn := nameOf b
  let aIsString : Bool := match an with | some (.str _) => true | _ => false
  let bIsString : Bool := match bn with | some (.str _) => true | _ => false
  if truthyOpt an ∧ truthyOpt bn ∧ aIsString ∧ bIsString then
    match an, bn with
    | some (.str sa), some (.str sb) => localeCompare sa sb
    | _, _ => 0
  else if aIsString then -1
  else if bIsString then 1
  else 0

/-- Stable insertion used by jsSort: the new element goes after every
already-placed element that compares less-or-equal to it. -/
def jsSortInsert {T : Type} (le : T → T → Bool) (x : T) : List T → List T
  | [] => [x]
  | y :: ys => if le y x then y :: jsSortInsert le x ys else x :: y :: ys

/-- Model of Array.prototype.sort with a comparator: a stable sort (inserting
the elements in order, each after its less-or-equal predecessors). -/
def jsSort {T : Type} (le : T → T → Bool) (l : List T) : List T :=
  l.foldl (fun acc x => jsSortInsert le x acc) []

/-- The candidate filter of addPackages: a candidate is kept when there is
no exclude function or the exclude function rejects excluding it. -/
def excludeFilter (excludeFn : Option (EntryId → Bool)) : EntryId → Bool :=
  fun value =>
    match excludeFn with
    | none => true
    | some f => ¬ f value

/-- PackageInfo.addPackages (package-info.ts lines 219 to 245): filter the
candidates through the optional exclude function, sort them with
lexicographically (Array.prototype.sort is stable; modelled by the stable
jsSort over the comparator), push each into the packageList with pushUnique,
and return the sorted candidate array together with the updated
packageList. -/
def PackageInfo.addPackages (nameOf : EntryId → Option Json)
    (packageList : List EntryId) (packageInfos : List EntryId)
    (excludeFn : Option (EntryId → Bool)) : List EntryId × List EntryId :=
  let result := packageInfos.filter (excludeFilter excludeFn)
  let sorted := jsSort (fun a b => lexicographically nameOf a b ≤ 0) result
  (sorted, sorted.foldl (fun pl pkgInfo => pushUnique pl pkgInfo) packageList)

/-- PackageInfo.getValidPackages. -/
def PackageInfo.getValidPackages (s : PackageInfoCache)
    (packageList : List EntryId) : List EntryId :=
  packageList.filter (fun i =>
    match s.pkgData i with
    | some d => d.valid
    | none => false)

/-- Whether a node has a string name under the given name projection (the
comparator treats exactly these as named). -/
def hasStrName (nameOf : EntryId → Option Json) (i : EntryId) : Bool :=
  match nameOf i with
  | some (.str _) => true
  | _ => false

/-- The node_modules path probed by one iteration of the findPackage loop:
the chain directory itself when it is already named node_modules, otherwise
its node_modules child. -/
def nmProbe (p : FsPath) : FsPath :=
  if pathBasename p = nmSeg then p else p ++ [nmSeg]

/-- The probes of the findPackage loop all miss: walking the chain from the
given directory to the filesystem root, each probe either finds no listing
or finds a listing whose lookup of the name returns absent without
throwing (the states are threaded exactly as the loop threads them). -/
inductive MissesAll (fs : FS) (fuel : Nat) (packageName : Str) :
    FsPath → PackageInfoCache → Prop where
  | root (s : PackageInfoCache) : MissesAll fs fuel packageName [] s
  | step (p : FsPath) (s : PackageInfoCache) (res : Option EntryId)
      (s1 : PackageInfoCache) (hne : p ≠ [])
      (hprobe : PackageInfoCache.readNodeModulesList fs fuel (nmProbe p) s = (.ok res, s1))
      (hmiss : ∀ listId l, res = some listId → s1.nmlData listId = some l →
        NodeModulesList.findPackage s1.store l (some packageName) = .ok none)
      (hrec : MissesAll fs fuel packageName (pathDirname p) s1) :
      MissesAll fs fuel packageName p s

deriving instance DecidableEq for Except

/-- Fixture for the upward-search counterexample: a filesystem in which the
package foo inside the node_modules of directory b declares an in-repo addon
path that escapes into the node_modules directory of the outer directory a
(which exists but holds no descriptor), so reading it caches a PackageInfo
at that node_modules path. -/
def fooJson : Json :=
  .obj [(strOf "name", .str (strOf "foo")),
        (strOf "ember-addon",
         .obj [(strOf "paths", .arr [.str (strOf "../../../node_modules")])])]

/-- The directory a of the fixture. -/
def fixA : FsPath := [strOf "a"]

/-- The directory a/b of the fixture (the search start). -/
def fixAB : FsPath := [strOf "a", strOf "b"]

/-- The directory a/b/node_modules of the fixture. -/
def fixABnm : FsPath := [strOf "a", strOf "b", nmSeg]

/-- The package directory a/b/node_modules/foo of the fixture. -/
def fixFoo : FsPath := fixABnm ++ [strOf "foo"]

/-- The directory a/node_modules of the fixture. -/
def fixAnm : FsPath := [strOf "a", nmSeg]

/-- The counterexample filesystem. -/
def fsPoison : FS :=
  { realDir := fun p =>
      if p = fixA ∨ p = fixAB ∨ p = fixABnm ∨ p = fixFoo ∨ p = fixAnm
      then some p else none
    realFile := fun p => if p = fixFoo ++ [packageJsonSeg] then some p else none
    readdir := fun p => if p = fixABnm then [strOf "foo"] else []
    readJson := fun p => if p = fixFoo ++ [packageJsonSeg] then some fooJson else none
    fsExists := fun p => p = fixFoo ++ [packageJsonSeg] }

/-- Fixture for the descriptor-missing scenario and the load-idempotence
witness: one root directory that exists and contains nothing. -/
def fsBare : FS :=
  { realDir := fun p => if p = [strOf "proj"] then some p else none
    realFile := fun _ => none
    readdir := fun _ => []
    readJson := fun _ => none
    fsExists := fun _ => false }

/-- A nested scope listing holding one entry named pkg (id 7). -/
def nestedFixture : NodeModulesList :=
  { realPath := [], hasEntries := true, entries := [(strOf "pkg", 7)], errors := [] }

/-- An outer listing whose entry named at-scope is the nested listing
(id 5 in the fixture store). -/
def outerFixture : NodeModulesList :=
  { realPath := [], hasEntries := true, entries := [(strOf "@scope", 5)], errors := [] }

/-- The fixture store binding id 5 to the nested listing and id 7 to a
package node. -/
def storeFixture : List (EntryId × PackageInfoCacheEntry) :=
  [(5, .nml nestedFixture),
   (7, .pkg { packageJson := .obj [], realPath := [], isRoot := false,
              kind := .plain, errors := [], dependenciesPackages := none,
              devDependenciesPackages := none, nodeModules := none,
              inRepoAddons := none, addonMainPath := none,
              processed := false, valid := true })]

/-- Innermost listing of the nested-scope fixture (non-empty, so the
undefined-name call does not take the hasEntries early return). -/
def atbInner : NodeModulesList :=
  { realPath := [], hasEntries := true, entries := [(strOf "x", 7)], errors := [] }

/-- Middle listing of the nested-scope fixture: its entry named at-b is the
innermost listing (id 9), the layout a nested scope directory
node_modules/at-a/at-b produces. -/
def atbMid : NodeModulesList :=
  { realPath := [], hasEntries := true, entries := [(strOf "@b", 9)], errors := [] }

/-- Outer listing of the nested-scope fixture: its entry named at-a is the
middle listing (id 8). -/
def atbOuter : NodeModulesList :=
  { realPath := [], hasEntries := true, entries := [(strOf "@a", 8)], errors := [] }

/-- The store of the nested-scope fixture. -/
def atbStore : List (EntryId × PackageInfoCacheEntry) :=
  [(8, .nml atbMid), (9, .nml atbInner)]

/-- A name projection for the sorting fixtures: node 1 is named x and every
other node has no name. -/
def nameOfFixture : EntryId → Option Json :=
  fun i => if i = 1 then some (.str (strOf "x")) else none

/-- An outer listing whose at-scope entry is a package node (id 7), for the
wrong-kind scoped-lookup scenario. -/
def outerPkgFixture : NodeModulesList :=
  { realPath := [], hasEntries := true, entries := [(strOf "@scope", 7)],
    errors := [] }

/-- A plain placeholder PackageInfo used by several fixtures. -/
def plainPkgFixture : PackageInfo :=
  { packageJson := .obj [], realPath := [strOf "y"], isRoot := false,
    kind := .plain, errors := [], dependenciesPackages := none,
    devDependenciesPackages := none, nodeModules := none,
    inRepoAddons := none, addonMainPath := none,
    processed := false, valid := true }

/-- A cache with a listing cached at x (id 0) and a package cached at y
(id 1), for the wrong-kind scenarios. -/
def wrongKindCache : PackageInfoCache :=
  { entries := [([strOf "x"], 0), ([strOf "y"], 1)],
    store := [(0, .nml NodeModulesList.nullInstance), (1, .pkg plainPkgFixture)],
    nextId := 2, rootPackage := none }

/-- A filesystem in which xs is a symlink to x and ys a symlink to y. -/
def fsLink : FS :=
  { realDir := fun p =>
      if p = [strOf "xs"] then some [strOf "x"]
      else if p = [strOf "ys"] then some [strOf "y"]
      else none
    realFile := fun _ => none
    readdir := fun _ => []
    readJson := fun _ => none
    fsExists := fun _ => false }

/-- The app node of the fast-path fixture: it owns listing 1. -/
def fastPathSelf : PackageInfo :=
  { packageJson := .obj [], realPath := [strOf "app"], isRoot := true,
    kind := .plain, errors := [], dependenciesPackages := none,
    devDependenciesPackages := none, nodeModules := some (.listId 1),
    inRepoAddons := none, addonMainPath := none, processed := false,
    valid := true }

/-- The own listing of the fast-path fixture: it holds dep (id 2). -/
def fastPathList : NodeModulesList :=
  { realPath := [strOf "app", nmSeg], hasEntries := true,
    entries := [(strOf "dep", 2)], errors := [] }

/-- Fixture for the fast-path scenario: node 0 owns listing 1, which holds
the package dep (id 2). -/
def fastPathCache : PackageInfoCache :=
  { entries := [([strOf "app"], 0), ([strOf "app", nmSeg], 1)],
    store := [(0, .pkg fastPathSelf), (1, .nml fastPathList),
              (2, .pkg plainPkgFixture)],
    nextId := 3, rootPackage := some 0 }

/-- Well-formedness of the cache keys: every table key is a fixed point of
directory canonicalization or a path whose canonicalization failed (the two
shapes of key the engine ever inserts). -/
def GoodKeys (fs : FS) (s : PackageInfoCache) : Prop :=
  ∀ k i, alGet s.entries k = some i → fs.realDir k = some k ∨ fs.realDir k = none

/-- Freshness of the id counter: no id at or above nextId is in the store. -/
def FreshOk (s : PackageInfoCache) : Prop :=
  ∀ i, s.nextId ≤ i → alGet s.store i = none

/-- The table has at most one entry per path (unique keys). -/
def KeysNodup (s : PackageInfoCache) : Prop := (s.entries.map Prod.fst).Nodup

/-- The cache well-formedness invariant maintained by every engine
operation. -/
def CacheWF (fs : FS) (s : PackageInfoCache) : Prop :=
  GoodKeys fs s ∧ FreshOk s ∧ KeysNodup s

/-- What one engine operation preserves, relative to a baseline id bound n0:
well-formedness, the stored data of every object allocated before the
baseline, every table binding that points at a live stored object, the
domain of the store, and monotonicity of the id counter. -/
structure CachePres (fs : FS) (n0 : Nat) (s t : PackageInfoCache) : Prop where
  wf : CacheWF fs s → CacheWF fs t
  store : CacheWF fs s → ∀ i e, i < n0 → alGet s.store i = some e →
    alGet t.store i = some e
  sbind : CacheWF fs s → ∀ k i e, alGet s.entries k = some i →
    alGet s.store i = some e → alGet t.entries k = some i
  dom : ∀ i, (alGet s.store i).isSome → (alGet t.store i).isSome
  mono : s.nextId ≤ t.nextId

/-- What the resolution pass preserves: it mutates existing PackageInfo
objects (so stored data is not preserved verbatim), but it keeps
well-formedness, package bindings, the package-kind of every stored object,
and the processed flag once set. -/
structure ResolvePres (fs : FS) (s t : PackageInfoCache) : Prop where
  wf : CacheWF fs s → CacheWF fs t
  sbind : CacheWF fs s → ∀ k i e, alGet s.entries k = some i →
    alGet s.store i = some e → alGet t.entries k = some i
  dom : ∀ i, (alGet s.store i).isSome → (alGet t.store i).isSome
  kindP : CacheWF fs s → ∀ i d, alGet s.store i = some (.pkg d) →
    ∃ d2, alGet t.store i = some (.pkg d2) ∧ (d.processed = true → d2.processed = true)
  mono : s.nextId ≤ t.nextId

/-- A plain non-root package node that declares devDependencies but no
dependencies, used to exercise the resolution pass. -/
def c6pkg : PackageInfo :=
  { packageJson := Json.obj [(strOf "name", .str (strOf "a")),
      (strOf "devDependencies", Json.obj [(strOf "x", .str (strOf "1"))])],
    realPath := [strOf "proj"], isRoot := false, kind := .plain,
    errors := [], dependenciesPackages := none, devDependenciesPackages := none,
    nodeModules := none, inRepoAddons := none, addonMainPath := none,
    processed := false, valid := true }

/-- A one-node cache holding c6pkg at its real path. -/
def c6cache : PackageInfoCache :=
  { entries := [([strOf "proj"], 0)], store := [(0, .pkg c6pkg)],
    nextId := 1, rootPackage := none }

/-- The c6pkg node after the resolution pass. -/
def c6pkgDone : PackageInfo :=
  { c6pkg with dependenciesPackages := none, processed := true }

/-- The c6cache state after the resolution pass. -/
def c6done : PackageInfoCache :=
  { entries := [([strOf "proj"], 0)], store := [(0, .pkg c6pkgDone)],
    nextId := 1, rootPackage := none }

/-- The concrete dependencies object of the c2self fixture: two declared
names, x and y. -/
def c2depJson : Json :=
  Json.obj [(strOf "x", .str (strOf "1")), (strOf "y", .str (strOf "1"))]

/-- A plain dependency node named x living in the node_modules of the c2self
fixture. -/
def c2dep : PackageInfo :=
  { packageJson := Json.obj [(strOf "name", .str (strOf "x"))],
    realPath := [strOf "proj", nmSeg, strOf "x"], isRoot := false, kind := .plain,
    errors := [], dependenciesPackages := none, devDependenciesPackages := none,
    nodeModules := none, inRepoAddons := none, addonMainPath := none,
    processed := false, valid := true }

/-- The node_modules listing of the c2self fixture, holding the single entry
x (id 2). -/
def c2nml : NodeModulesList :=
  { realPath := [strOf "proj", nmSeg], hasEntries := true,
    entries := [(strOf "x", 2)], errors := [] }

/-- A node declaring dependencies x (present in its own node_modules) and y
(missing everywhere). -/
def c2self : PackageInfo :=
  { packageJson := Json.obj [(strOf "name", .str (strOf "a")),
      (strOf "dependencies", c2depJson)],
    realPath := [strOf "proj"], isRoot := false, kind := .plain,
    errors := [], dependenciesPackages := none, devDependenciesPackages := none,
    nodeModules := some (.listId 1), inRepoAddons := none, addonMainPath := none,
    processed := false, valid := true }

/-- The cache holding the c2self fixture, its listing and its dependency. -/
def c2cache : PackageInfoCache :=
  { entries := [([strOf "proj"], 0)],
    store := [(0, .pkg c2self), (1, .nml c2nml), (2, .pkg c2dep)],
    nextId := 3, rootPackage := none }

/-- The c2self node after dependency resolution: one combined
dependencies-missing ledger entry naming y. -/
def c2selfDone : PackageInfo :=
  c2self.addError ERROR_DEPENDENCIES_MISSING (.names [strOf "y"])

/-- The c2cache state after dependency resolution of node 0. -/
def c2done : PackageInfoCache :=
  { entries := [([strOf "proj"], 0)],
    store := [(0, .pkg c2selfDone), (1, .nml c2nml), (2, .pkg c2dep)],
    nextId := 3, rootPackage := none }

/-- The placeholder node produced by loading the bare project directory. -/
def c1pkg : PackageInfo :=
  { packageJson := Json.obj [(strOf "name", Json.str (strOf "invalid package.json")),
      (strOf "root", Json.str (pathToStr [strOf "proj"]))],
    realPath := [strOf "proj"], isRoot := true, kind := .plain,
    errors := [⟨ERROR_PACKAGE_JSON_MISSING, .path ([strOf "proj"] ++ [packageJsonSeg])⟩],
    dependenciesPackages := none, devDependenciesPackages := none,
    nodeModules := some .nullInstance, inRepoAddons := none,
    addonMainPath := none, processed := true, valid := false }

/-- The cache state after loading the bare project directory as root. -/
def c1state : PackageInfoCache :=
  { entries := [([strOf "proj"], 0)], store := [(0, .pkg c1pkg)],
    nextId := 1, rootPackage := some 0 }


theorem jsSplit_ne_nil (c : Char) (s : Str) : jsSplit c s ≠ [] := by
  cases s with
  | nil => simp [jsSplit]
  | cons x xs =>
    by_cases hx : x = c
    · simp [jsSplit, hx]
    · simp only [jsSplit, if_neg hx]
      cases h : jsSplit c xs <;> simp

theorem jsSplit_length (c : Char) (s : Str) :
    (jsSplit c s).length = s.count c + 1 := by
  induction s with
  | nil => simp [jsSplit]
  | cons x xs ih =>
    by_cases hx : x = c
    · subst hx
      simp [jsSplit, List.count_cons, ih]
    · simp only [jsSplit, if_neg hx]
      cases h : jsSplit c xs with
      | nil => exact absurd h (jsSplit_ne_nil c xs)
      | cons hd tl =>
        rw [h] at ih
        simp only [List.length_cons] at ih ⊢
        have hcnt : (x :: xs).count c = xs.count c := by
          simp [List.count_cons, hx]
        rw [hcnt]
        exact ih

theorem count_eq_zero_of_mem_jsSplit (c : Char) (s t : Str)
    (h : t ∈ jsSplit c s) : t.count c = 0 := by
  induction s generalizing t with
  | nil =>
    simp [jsSplit] at h
    simp [h]
  | cons x xs ih =>
    by_cases hx : x = c
    · simp only [jsSplit, if_pos hx] at h
      rcases List.mem_cons.mp h with h | h
      · simp [h]
      · exact ih t h
    · simp only [jsSplit, if_neg hx] at h
      cases hsp : jsSplit c xs with
      | nil => exact absurd hsp (jsSplit_ne_nil c xs)
      | cons hd tl =>
        rw [hsp] at h
        rcases List.mem_cons.mp h with h | h
        · subst h
          have hhd : hd.count c = 0 := ih hd (hsp ▸ List.mem_cons_self hd tl)
          simp [List.count_cons, hhd, hx]
        · exact ih t (hsp ▸ List.mem_cons_of_mem hd h)

theorem findPackageMeasure_get1_lt (name : Str) :
    findPackageMeasure ((jsSplit '/' name).get? 1) < findPackageMeasure (some name) := by
  rcases hg : (jsSplit '/' name).get? 1 with _ | t
  · simp [findPackageMeasure]
  · simp only [findPackageMeasure]
    have ht : t ∈ jsSplit '/' name := List.get?_mem hg
    have htc : t.count '/' = 0 := count_eq_zero_of_mem_jsSplit '/' name t ht
    have hlen : 2 ≤ (jsSplit '/' name).length := by
      by_contra hcon
      push_neg at hcon
      have hnone := List.get?_eq_none.mpr (by omega : (jsSplit '/' name).length ≤ 1)
      rw [hnone] at hg
      exact Option.noConfusion hg
    have hcnt : 1 ≤ name.count '/' := by
      have := jsSplit_length '/' name
      omega
    omega

theorem findPackageGo_fuel_irrelevant
    (store : List (EntryId × PackageInfoCacheEntry)) (n1 n2 : Nat)
    (l : NodeModulesList) (pn : Option Str)
    (h1 : findPackageMeasure pn ≤ n1) (h2 : findPackageMeasure pn ≤ n2) :
    NodeModulesList.findPackageGo store n1 l pn =
      NodeModulesList.findPackageGo store n2 l pn := by
  induction n1 using Nat.strong_induction_on generalizing n2 l pn with
  | _ n1 ih =>
    rcases pn with _ | name
    · unfold NodeModulesList.findPackageGo
      by_cases hE : l.hasEntries = false
      · simp [hE]
      · simp only [if_neg hE]
    · simp only [findPackageMeasure] at h1 h2
      unfold NodeModulesList.findPackageGo
      by_cases hE : l.hasEntries = false
      · simp [hE]
      · simp only [if_neg hE]
        by_cases hAt : startsWithChar '@' name = true
        · simp only [hAt, if_true]
          rcases hget : alGet l.entries ((jsSplit '/' name).headD []) with _ | i
          · rfl
          · rcases hst : alGet store i with _ | e
            · simp [hst]
            · rcases e with d | nested
              · simp [hst]
              · simp only [hst]
                have hm := findPackageMeasure_get1_lt name
                rw [show findPackageMeasure (some name) = name.count '/' + 1 from rfl] at hm
                rcases n1 with _ | n1p
                · omega
                · rcases n2 with _ | n2p
                  · omega
                  · have h1p : findPackageMeasure ((jsSplit '/' name).get? 1) ≤ n1p := by
                      omega
                    have h2p : findPackageMeasure ((jsSplit '/' name).get? 1) ≤ n2p := by
                      omega
                    exact ih n1p (by omega) n2p nested ((jsSplit '/' name).get? 1) h1p h2p
        · simp [hAt, hE]

theorem M_bind_eq {α β : Type} (x : M α) (f : α → M β) : x >>= f = M.bind x f := rfl

theorem M_pure_eq {α : Type} (a : α) : (pure a : M α) = M.pure a := rfl

theorem M_bind_apply {α β : Type} (x : M α) (f : α → M β) (s : PackageInfoCache) :
    M.bind x f s =
      match x s with
      | (.ok a, s1) => f a s1
      | (.error e, s1) => (.error e, s1) := rfl

theorem M_pure_apply {α : Type} (a : α) (s : PackageInfoCache) :
    M.pure a s = (.ok a, s) := rfl

theorem getC_apply (s : PackageInfoCache) : getC s = (.ok s, s) := rfl

theorem setC_apply (s1 s : PackageInfoCache) : setC s1 s = (.ok (), s1) := rfl

theorem modifyC_apply (f : PackageInfoCache → PackageInfoCache)
    (s : PackageInfoCache) : modifyC f s = (.ok (), f s) := rfl

theorem throwM_apply {α : Type} (e : JsErr) (s : PackageInfoCache) :
    (throwM e : M α) s = (.error e, s) := rfl

theorem alGet_alSet_self {κ ν : Type} [DecidableEq κ] (m : List (κ × ν))
    (k : κ) (v : ν) : alGet (alSet m k v) k = some v := by
  induction m with
  | nil => simp [alGet, alSet]
  | cons h t ih =>
    obtain ⟨hk, hv⟩ := h
    by_cases hkk : hk = k
    · simp [alGet, alSet, hkk]
    · simp [alGet, alSet, hkk, ih]

theorem alGet_alSet_ne {κ ν : Type} [DecidableEq κ] (m : List (κ × ν))
    (k k' : κ) (v : ν) (h : k' ≠ k) :
    alGet (alSet m k v) k' = alGet m k' := by
  induction m with
  | nil => simp [alGet, alSet, Ne.symm h]
  | cons hd t ih =>
    obtain ⟨hk, hv⟩ := hd
    by_cases hkk : hk = k
    · subst hkk
      simp [alGet, alSet, Ne.symm h]
    · simp [alGet, alSet, hkk, ih]

theorem alGet_none_iff {κ ν : Type} [DecidableEq κ] (m : List (κ × ν)) (k : κ) :
    alGet m k = none ↔ k ∉ m.map Prod.fst := by
  induction m with
  | nil => simp [alGet]
  | cons hd t ih =>
    obtain ⟨hk, hv⟩ := hd
    by_cases hkk : hk = k
    · simp [alGet, hkk]
    · simp [alGet, hkk, ih, Ne.symm hkk]

theorem alGet_isSome_iff {κ ν : Type} [DecidableEq κ] (m : List (κ × ν)) (k : κ) :
    (alGet m k).isSome ↔ k ∈ m.map Prod.fst := by
  rcases h : alGet m k with _ | v
  · rw [alGet_none_iff] at h
    simp [h]
  · have : ¬ alGet m k = none := by simp [h]
    rw [alGet_none_iff] at this
    simp only [Option.isSome_some, true_iff]
    exact not_not.mp this

theorem alSet_fresh {κ ν : Type} [DecidableEq κ] (m : List (κ × ν)) (k : κ)
    (v : ν) (h : alGet m k = none) : alSet m k v = m ++ [(k, v)] := by
  induction m with
  | nil => simp [alSet]
  | cons hd t ih =>
    obtain ⟨hk, hv⟩ := hd
    simp only [alGet] at h
    by_cases hkk : hk = k
    · simp [hkk] at h
    · simp only [alSet, if_neg hkk, List.cons_append, List.cons.injEq, true_and]
      exact ih (by simpa [hkk] using h)

theorem alSet_keys_subset {κ ν : Type} [DecidableEq κ] (m : List (κ × ν))
    (k k' : κ) (v : ν) (h : k' ∈ (alSet m k v).map Prod.fst) :
    k' ∈ m.map Prod.fst ∨ k' = k := by
  induction m with
  | nil => simpa [alSet] using h
  | cons hd t ih =>
    obtain ⟨hk, hv⟩ := hd
    by_cases hkk : hk = k
    · subst hkk
      simp only [alSet, if_pos rfl, List.map_cons] at h
      rcases List.mem_cons.mp h with h | h
      · right; exact h
      · left; simp [h]
    · simp only [alSet, if_neg hkk, List.map_cons] at h
      rcases List.mem_cons.mp h with h | h
      · left; simp [h]
      · rcases ih h with h | h
        · left; simp [h]
        · right; exact h

theorem alSet_keys_nodup {κ ν : Type} [DecidableEq κ] (m : List (κ × ν))
    (k : κ) (v : ν) (h : (m.map Prod.fst).Nodup) :
    ((alSet m k v).map Prod.fst).Nodup := by
  induction m with
  | nil => simp [alSet]
  | cons hd t ih =>
    obtain ⟨hk, hv⟩ := hd
    simp only [List.map_cons, List.nodup_cons] at h
    by_cases hkk : hk = k
    · subst hkk
      have hn := List.nodup_cons.mpr h
      simpa [alSet] using hn
    · simp only [alSet, if_neg hkk, List.map_cons, List.nodup_cons]
      constructor
      · intro hmem
        rcases alSet_keys_subset t k hk v hmem with hm | hm
        · exact h.1 hm
        · exact hkk hm
      · exact ih h.2

/-- C4: Directory-listing lookup understands scoped names: in a listing
whose at-scope entry maps to a nested listing containing pkg, findPackage of
scope-slash-pkg returns that nested package entry; findPackage of
scope-slash-missing and of missing-scope-slash-pkg both return absent; and a
scoped lookup whose first segment maps to something other than a nested
listing also returns absent. -/
theorem nml_findPackage_scoped
    (store : List (EntryId × PackageInfoCacheEntry)) (l : NodeModulesList)
    (hl : l.hasEntries = true) :
    (∀ nested scopeId, alGet l.entries (strOf "@scope") = some scopeId →
      alGet store scopeId = some (.nml nested) → nested.hasEntries = true →
      (∀ pkgId, alGet nested.entries (strOf "pkg") = some pkgId →
        NodeModulesList.findPackage store l (some (strOf "@scope/pkg")) = .ok (some pkgId))
      ∧ (alGet nested.entries (strOf "missing") = none →
        NodeModulesList.findPackage store l (some (strOf "@scope/missing")) = .ok none))
    ∧ (alGet l.entries (strOf "@missing") = none →
      NodeModulesList.findPackage store l (some (strOf "@missing/pkg")) = .ok none)
    ∧ (∀ scopeId d, alGet l.entries (strOf "@scope") = some scopeId →
      alGet store scopeId = some (.pkg d) →
      NodeModulesList.findPackage store l (some (strOf "@scope/pkg")) = .ok none) := by
  refine ⟨?_, ?_, ?_⟩
  · intro nested scopeId hscope hstore hnE
    constructor
    · intro pkgId hpkg
      show NodeModulesList.findPackageGo store
        (findPackageMeasure (some (strOf "@scope/pkg"))) l (some (strOf "@scope/pkg")) = _
      rw [show findPackageMeasure (some (strOf "@scope/pkg")) = 2 from by decide]
      unfold NodeModulesList.findPackageGo
      rw [hl]
      simp only [show startsWithChar '@' (strOf "@scope/pkg") = true from by decide,
        show jsSplit '/' (strOf "@scope/pkg") = [strOf "@scope", strOf "pkg"] from by decide,
        if_true]
      simp only [List.headD, hscope, hstore]
      simp only [List.get?]
      unfold NodeModulesList.findPackageGo
      rw [hnE]
      simp only [show startsWithChar '@' (strOf "pkg") = false from by decide]
      simp [hpkg]
    · intro hmiss
      show NodeModulesList.findPackageGo store
        (findPackageMeasure (some (strOf "@scope/missing"))) l (some (strOf "@scope/missing")) = _
      rw [show findPackageMeasure (some (strOf "@scope/missing")) = 2 from by decide]
      unfold NodeModulesList.findPackageGo
      rw [hl]
      simp only [show startsWithChar '@' (strOf "@scope/missing") = true from by decide,
        show jsSplit '/' (strOf "@scope/missing") = [strOf "@scope", strOf "missing"] from by decide,
        if_true]
      simp only [List.headD, hscope, hstore]
      simp only [List.get?]
      unfold NodeModulesList.findPackageGo
      rw [hnE]
      simp only [show startsWithChar '@' (strOf "missing") = false from by decide]
      simp [hmiss]
  · intro hmiss
    show NodeModulesList.findPackageGo store
      (findPackageMeasure (some (strOf "@missing/pkg"))) l (some (strOf "@missing/pkg")) = _
    rw [show findPackageMeasure (some (strOf "@missing/pkg")) = 2 from by decide]
    unfold NodeModulesList.findPackageGo
    rw [hl]
    simp only [show startsWithChar '@' (strOf "@missing/pkg") = true from by decide,
      show jsSplit '/' (strOf "@missing/pkg") = [strOf "@missing", strOf "pkg"] from by decide,
      if_true]
    simp [List.headD, hmiss]
  · intro scopeId d hscope hstore
    show NodeModulesList.findPackageGo store
      (findPackageMeasure (some (strOf "@scope/pkg"))) l (some (strOf "@scope/pkg")) = _
    rw [show findPackageMeasure (some (strOf "@scope/pkg")) = 2 from by decide]
    unfold NodeModulesList.findPackageGo
    rw [hl]
    simp only [show startsWithChar '@' (strOf "@scope/pkg") = true from by decide,
      show jsSplit '/' (strOf "@scope/pkg") = [strOf "@scope", strOf "pkg"] from by decide,
      if_true]
    simp [List.headD, hscope, hstore]

theorem nml_findPackage_scoped_witness :
    NodeModulesList.findPackage storeFixture outerFixture (some (strOf "@scope/pkg")) = .ok (some 7)
    ∧ NodeModulesList.findPackage storeFixture outerFixture (some (strOf "@scope/missing")) = .ok none
    ∧ NodeModulesList.findPackage storeFixture outerFixture (some (strOf "@missing/pkg")) = .ok none
    ∧ NodeModulesList.findPackage storeFixture outerPkgFixture (some (strOf "@scope/pkg")) = .ok none := by
  have h := nml_findPackage_scoped storeFixture outerFixture (by decide)
  have h2 := nml_findPackage_scoped storeFixture outerPkgFixture (by decide)
  refine ⟨(h.1 nestedFixture 5 (by decide) rfl (by decide)).1 7 (by decide),
    (h.1 nestedFixture 5 (by decide) rfl (by decide)).2 (by decide),
    h.2.1 (by decide), ?_⟩
  exact h2.2.2 7
    { packageJson := .obj [], realPath := [], isRoot := false, kind := .plain,
      errors := [], dependenciesPackages := none, devDependenciesPackages := none,
      nodeModules := none, inRepoAddons := none, addonMainPath := none,
      processed := false, valid := true }
    (by decide) rfl

theorem findPackageGo_ne_outOfFuel
    (store : List (EntryId × PackageInfoCacheEntry)) (n : Nat)
    (l : NodeModulesList) (pn : Option Str)
    (h : findPackageMeasure pn ≤ n) :
    NodeModulesList.findPackageGo store n l pn ≠ .error .outOfFuel := by
  induction n using Nat.strong_induction_on generalizing l pn with
  | _ n ih =>
    rcases pn with _ | name
    · unfold NodeModulesList.findPackageGo
      by_cases hE : l.hasEntries = false
      · simp [hE]
      · simp [if_neg hE]
    · simp only [findPackageMeasure] at h
      unfold NodeModulesList.findPackageGo
      by_cases hE : l.hasEntries = false
      · simp [hE]
      · simp only [if_neg hE]
        by_cases hAt : startsWithChar '@' name = true
        · simp only [hAt, if_true]
          rcases hget : alGet l.entries ((jsSplit '/' name).headD []) with _ | i
          · simp
          · rcases hst : alGet store i with _ | e
            · simp [hst]
            · rcases e with d | nested
              · simp [hst]
              · simp only [hst]
                have hm := findPackageMeasure_get1_lt name
                rw [show findPackageMeasure (some name) = name.count '/' + 1 from rfl] at hm
                rcases hn : n with _ | np
                · omega
                · have hp : findPackageMeasure ((jsSplit '/' name).get? 1) ≤ np := by omega
                  simpa using ih np (by omega) nested ((jsSplit '/' name).get? 1) hp
        · simp [hAt]

/-- C10 (amended): NodeModulesList.findPackage is a total function of the
model (the structural counter never runs out, which is the model's rendering
of termination), and it returns a package or absent, without raising, for
every name that does not start with an at sign and for every scoped name
whose second slash-separated component exists and does not itself start with
an at sign.  It is not total at its interface in general: a scoped name with
no slash (or whose second component is again a slash-free scoped name) makes
the recursive call receive an undefined name, and invoking startsWith on it
raises a TypeError when the scope entry is a nonempty nested listing (see
the counterexample). -/
theorem nml_findPackage_total :
    (∀ store (l : NodeModulesList) (name : Str),
      NodeModulesList.findPackage store l (some name) ≠ .error .outOfFuel)
    ∧ (∀ store (l : NodeModulesList) (name : Str),
      (startsWithChar '@' name = false ∨
        (∃ t, (jsSplit '/' name).get? 1 = some t ∧ startsWithChar '@' t = false)) →
      (NodeModulesList.findPackage store l (some name)).isOk = true) := by
  constructor
  · intro store l name
    exact findPackageGo_ne_outOfFuel store (findPackageMeasure (some name)) l
      (some name) (le_refl _)
  · intro store l name hcond
    show (NodeModulesList.findPackageGo store
      (findPackageMeasure (some name)) l (some name)).isOk = true
    rw [show findPackageMeasure (some name) = name.count '/' + 1 from rfl]
    unfold NodeModulesList.findPackageGo
    by_cases hE : l.hasEntries = false
    · simp [hE, Except.isOk, Except.toBool]
    · simp only [if_neg hE]
      rcases hcond with hno | ⟨t, hget1, hnt⟩
      · simp [hno, Except.isOk, Except.toBool]
      · by_cases hAt : startsWithChar '@' name = true
        · simp only [hAt, if_true]
          rcases hget : alGet l.entries ((jsSplit '/' name).headD []) with _ | i
          · simp [Except.isOk, Except.toBool]
          · rcases hst : alGet store i with _ | e
            · simp [hst, Except.isOk, Except.toBool]
            · rcases e with d | nested
              · simp [hst, Except.isOk, Except.toBool]
              · simp only [hst]
                rw [hget1]
                unfold NodeModulesList.findPackageGo
                by_cases hnE : nested.hasEntries = false
                · simp [hnE, Except.isOk, Except.toBool]
                · simp [if_neg hnE, hnt, Except.isOk, Except.toBool]
        · simp [hAt, Except.isOk, Except.toBool]

/-- C10 counterexample: the lookup is not total at its public interface.
Looking up the slash-free scoped name in a listing whose entry for that name
is a nonempty nested listing raises a TypeError (the recursive call receives
undefined and invokes startsWith on it); and the same happens one level down
for a scoped name whose second component is itself a slash-free scoped name,
as the nested scope directory layout node_modules/at-a/at-b produces. -/
theorem nml_findPackage_scope_only_throws :
    NodeModulesList.findPackage storeFixture outerFixture
      (some (strOf "@scope")) = .error .typeError ∧
    NodeModulesList.findPackage atbStore atbOuter
      (some (strOf "@a/@b")) = .error .typeError := by decide

theorem nml_findPackage_total_witness :
    (NodeModulesList.findPackage storeFixture outerFixture
      (some (strOf "@scope/pkg"))).isOk = true :=
  nml_findPackage_total.2 storeFixture outerFixture (strOf "@scope/pkg")
    (Or.inr ⟨strOf "pkg", by decide, by decide⟩)

theorem localeCompare_neg (a b : Str) : localeCompare a b = - localeCompare b a := by
  induction a generalizing b with
  | nil => cases b <;> simp [localeCompare]
  | cons x xs ih =>
    cases b with
    | nil => simp [localeCompare]
    | cons y ys =>
      by_cases hxy : x = y
      · subst hxy
        simp [localeCompare, ih ys]
      · have hne : x.toNat ≠ y.toNat := by
          intro hc
          exact hxy (Char.eq_of_val_eq (UInt32.ext hc))
        rcases Nat.lt_or_ge x.toNat y.toNat with hlt | hge
        · simp [localeCompare, hxy, Ne.symm hxy, hlt, Nat.not_lt.mpr (Nat.le_of_lt hlt)]
        · have hgt : y.toNat < x.toNat := Nat.lt_of_le_of_ne hge (Ne.symm hne)
          simp [localeCompare, hxy, Ne.symm hxy, hgt, Nat.not_lt.mpr (Nat.le_of_lt hgt)]

theorem localeCompare_trans (a b c : Str) (hab : localeCompare a b ≤ 0)
    (hbc : localeCompare b c ≤ 0) : localeCompare a c ≤ 0 := by
  induction a generalizing b c with
  | nil => cases c <;> simp [localeCompare]
  | cons x xs ih =>
    cases b with
    | nil => simp [localeCompare] at hab
    | cons y ys =>
      cases c with
      | nil => simp [localeCompare] at hbc
      | cons z zs =>
        by_cases hxy : x = y
        · subst hxy
          simp only [localeCompare, if_pos rfl] at hab
          by_cases hyz : x = z
          · subst hyz
            simp only [localeCompare, if_pos rfl] at hbc
            simp only [localeCompare, if_pos rfl]
            exact ih ys zs hab hbc
          · simp only [localeCompare, if_neg hyz] at hbc
            simp only [localeCompare, if_neg hyz]
            exact hbc
        · simp only [localeCompare, if_neg hxy] at hab
          by_cases hlt : x.toNat < y.toNat
          · by_cases hyz : y = z
            · subst hyz
              simp [localeCompare, hxy, hlt]
            · simp only [localeCompare, if_neg hyz] at hbc
              by_cases hlt2 : y.toNat < z.toNat
              · have hxz : ¬ x = z := by
                  intro hc
                  subst hc
                  omega
                have hxzlt : x.toNat < z.toNat := by omega
                simp [localeCompare, hxz, hxzlt]
              · simp [hlt2] at hbc
          · simp [hlt] at hab

theorem jsSortInsert_perm {T : Type} (le : T → T → Bool) (x : T) (l : List T) :
    (jsSortInsert le x l).Perm (x :: l) := by
  induction l with
  | nil => simp [jsSortInsert]
  | cons y ys ih =>
    by_cases h : le y x = true
    · simp only [jsSortInsert, h, if_true]
      exact (ih.cons y).trans (List.Perm.swap x y ys)
    · simp [jsSortInsert, h]

theorem jsSort_perm_aux {T : Type} (le : T → T → Bool) (l acc : List T) :
    (l.foldl (fun a x => jsSortInsert le x a) acc).Perm (acc ++ l) := by
  induction l generalizing acc with
  | nil => simp
  | cons x xs ih =>
    simp only [List.foldl_cons]
    have h1 := ih (jsSortInsert le x acc)
    have h2 : (jsSortInsert le x acc ++ xs).Perm ((x :: acc) ++ xs) :=
      (jsSortInsert_perm le x acc).append_right xs
    have h3 : ((x :: acc) ++ xs).Perm (acc ++ x :: xs) := by
      simp only [List.cons_append]
      exact (List.perm_middle).symm
    exact (h1.trans h2).trans h3

theorem jsSort_perm {T : Type} (le : T → T → Bool) (l : List T) :
    (jsSort le l).Perm l := by
  simpa using jsSort_perm_aux le l []

theorem jsSortInsert_pairwise {T : Type} (le : T → T → Bool)
    (htrans : ∀ a b c, le a b = true → le b c = true → le a c = true)
    (htotal : ∀ a b, le a b = true ∨ le b a = true)
    (x : T) (l : List T) (h : l.Pairwise (fun a b => le a b = true)) :
    (jsSortInsert le x l).Pairwise (fun a b => le a b = true) := by
  induction l with
  | nil => simp [jsSortInsert]
  | cons y ys ih =>
    rcases List.pairwise_cons.mp h with ⟨hy, hys⟩
    by_cases hle : le y x = true
    · simp only [jsSortInsert, hle, if_true]
      refine List.pairwise_cons.mpr ⟨?_, ih hys⟩
      intro b hb
      have hb2 : b ∈ x :: ys := (jsSortInsert_perm le x ys).mem_iff.mp hb
      rcases List.mem_cons.mp hb2 with hb2 | hb2
      · subst hb2
        exact hle
      · exact hy b hb2
    · simp only [jsSortInsert, hle, if_false]
      refine List.pairwise_cons.mpr ⟨?_, h⟩
      intro b hb
      have hxy : le x y = true := by
        rcases htotal x y with hh | hh
        · exact hh
        · exact absurd hh hle
      rcases List.mem_cons.mp hb with hb | hb
      · subst hb
        exact hxy
      · exact htrans x y b hxy (hy b hb)

theorem jsSort_pairwise {T : Type} (le : T → T → Bool)
    (htrans : ∀ a b c, le a b = true → le b c = true → le a c = true)
    (htotal : ∀ a b, le a b = true ∨ le b a = true) (l : List T) :
    (jsSort le l).Pairwise (fun a b => le a b = true) := by
  have haux : ∀ (l acc : List T), acc.Pairwise (fun a b => le a b = true) →
      (l.foldl (fun a x => jsSortInsert le x a) acc).Pairwise
        (fun a b => le a b = true) := by
    intro l
    induction l with
    | nil => intro acc h; simpa using h
    | cons x xs ih =>
      intro acc h
      simp only [List.foldl_cons]
      exact ih (jsSortInsert le x acc) (jsSortInsert_pairwise le htrans htotal x acc h)
  exact haux l [] (by simp)

theorem lex_eval (nameOf : EntryId → Option Json)
    (hg : ∀ i, nameOf i = none ∨ ∃ s, nameOf i = some (.str s) ∧ s ≠ [])
    (a b : EntryId) :
    lexicographically nameOf a b =
      match nameOf a, nameOf b with
      | some (.str sa), some (.str sb) => localeCompare sa sb
      | some (.str _), _ => -1
      | _, some (.str _) => 1
      | _, _ => 0 := by
  rcases hg a with ha | ⟨sa, ha, hsa⟩
  · rcases hg b with hb | ⟨sb, hb, hsb⟩
    · simp [lexicographically, ha, hb, truthyOpt, truthy]
    · simp [lexicographically, ha, hb, truthyOpt, truthy, hsb]
  · rcases hg b with hb | ⟨sb, hb, hsb⟩
    · simp [lexicographically, ha, hb, truthyOpt, truthy, hsa]
    · simp [lexicographically, ha, hb, truthyOpt, truthy, hsa, hsb]

theorem lex_trans (nameOf : EntryId → Option Json)
    (hg : ∀ i, nameOf i = none ∨ ∃ s, nameOf i = some (.str s) ∧ s ≠ [])
    (a b c : EntryId) (hab : lexicographically nameOf a b ≤ 0)
    (hbc : lexicographically nameOf b c ≤ 0) :
    lexicographically nameOf a c ≤ 0 := by
  rw [lex_eval nameOf hg] at hab hbc ⊢
  rcases hg a with ha | ⟨sa, ha, hsa⟩ <;> rcases hg b with hb | ⟨sb, hb, hsb⟩ <;>
    rcases hg c with hc | ⟨sc, hc, hsc⟩ <;>
    simp [ha, hb, hc] at hab hbc ⊢
  exact localeCompare_trans sa sb sc hab hbc

theorem lex_total (nameOf : EntryId → Option Json)
    (hg : ∀ i, nameOf i = none ∨ ∃ s, nameOf i = some (.str s) ∧ s ≠ [])
    (a b : EntryId) :
    lexicographically nameOf a b ≤ 0 ∨ lexicographically nameOf b a ≤ 0 := by
  rw [lex_eval nameOf hg, lex_eval nameOf hg]
  rcases hg a with ha | ⟨sa, ha, hsa⟩ <;> rcases hg b with hb | ⟨sb, hb, hsb⟩ <;>
    simp [ha, hb]
  have hneg := localeCompare_neg sa sb
  omega

theorem pushUnique_eq {T : Type} [DecidableEq T] (l : List T) (x : T) :
    pushUnique l x = l.erase x ++ [x] := by
  unfold pushUnique
  by_cases h : x ∈ l
  · simp [h]
  · simp [h, List.erase_of_not_mem h]

theorem mem_pushUnique {T : Type} [DecidableEq T] (l : List T) (x y : T) :
    y ∈ pushUnique l x ↔ y ∈ l ∨ y = x := by
  rw [pushUnique_eq]
  simp only [List.mem_append, List.mem_singleton]
  constructor
  · intro h
    rcases h with h | h
    · exact Or.inl (List.erase_subset x l h)
    · exact Or.inr h
  · intro h
    rcases h with h | h
    · by_cases hyx : y = x
      · exact Or.inr hyx
      · exact Or.inl (List.mem_erase_of_ne hyx |>.mpr h)
    · exact Or.inr h

theorem nodup_pushUnique {T : Type} [DecidableEq T] (l : List T) (x : T)
    (h : l.Nodup) : (pushUnique l x).Nodup := by
  rw [pushUnique_eq]
  refine List.Nodup.append (h.erase x) (List.nodup_singleton x) ?_
  intro a ha hb
  rw [List.mem_singleton] at hb
  subst hb
  exact (List.Nodup.mem_erase_iff h).mp ha |>.1 rfl

theorem foldl_pushUnique_mem {T : Type} [DecidableEq T] (res : List T) :
    ∀ (init : List T) (x : T),
      x ∈ res.foldl pushUnique init ↔ x ∈ init ∨ x ∈ res := by
  induction res with
  | nil => intro init x; simp
  | cons y ys ih =>
    intro init x
    simp only [List.foldl_cons]
    rw [ih (pushUnique init y) x]
    rw [mem_pushUnique]
    constructor
    · intro h
      rcases h with (h | h) | h
      · exact Or.inl h
      · exact Or.inr (by simp [h])
      · exact Or.inr (by simp [h])
    · intro h
      rcases h with h | h
      · exact Or.inl (Or.inl h)
      · rcases List.mem_cons.mp h with h | h
        · exact Or.inl (Or.inr h)
        · exact Or.inr h

theorem foldl_pushUnique_nodup {T : Type} [DecidableEq T] (res : List T) :
    ∀ (init : List T), init.Nodup → (res.foldl pushUnique init).Nodup := by
  induction res with
  | nil => intro init h; simpa using h
  | cons y ys ih =>
    intro init h
    simp only [List.foldl_cons]
    exact ih (pushUnique init y) (nodup_pushUnique init y h)

/-- C9 (amended): addPackages appends the candidate nodes (after the
optional exclude filter) into the combined child list sorted by package
name, with nodes lacking a name sorting AFTER named ones (the source
comparator returns 1 when only the second node has a string name, so named
nodes come first — the opposite of the original claim); appending an entry
already present in the list removes it from its old position and pushes it
at the end (pushUnique equals erase-then-append, last write wins), and when
the starting child list has no duplicates every node occurs at most once in
the resulting list.  The name-shape hypothesis rules out the empty-string
names on which the source comparator is not even transitive. -/
theorem addPackages_props (nameOf : EntryId → Option Json)
    (packageList packageInfos : List EntryId) (excludeFn : Option (EntryId → Bool))
    (hg : ∀ i, nameOf i = none ∨ ∃ s, nameOf i = some (.str s) ∧ s ≠ [])
    (hnd : packageList.Nodup) :
    (∀ (l : List EntryId) (x : EntryId), pushUnique l x = l.erase x ++ [x])
    ∧ (PackageInfo.addPackages nameOf packageList packageInfos excludeFn).1.Perm
        (packageInfos.filter (excludeFilter excludeFn))
    ∧ (PackageInfo.addPackages nameOf packageList packageInfos excludeFn).1.Pairwise
        (fun a b => lexicographically nameOf a b ≤ 0)
    ∧ (PackageInfo.addPackages nameOf packageList packageInfos excludeFn).1.Pairwise
        (fun a b => hasStrName nameOf b = true → hasStrName nameOf a = true)
    ∧ (PackageInfo.addPackages nameOf packageList packageInfos excludeFn).2.Nodup
    ∧ (∀ x, x ∈ (PackageInfo.addPackages nameOf packageList packageInfos excludeFn).2 ↔
        x ∈ packageList ∨
          x ∈ (PackageInfo.addPackages nameOf packageList packageInfos excludeFn).1) := by
  have hle_trans : ∀ a b c : EntryId,
      decide (lexicographically nameOf a b ≤ 0) = true →
      decide (lexicographically nameOf b c ≤ 0) = true →
      decide (lexicographically nameOf a c ≤ 0) = true := by
    intro a b c hab hbc
    rw [decide_eq_true_eq] at hab hbc ⊢
    exact lex_trans nameOf hg a b c hab hbc
  have hle_total : ∀ a b : EntryId,
      (decide (lexicographically nameOf a b ≤ 0) ||
        decide (lexicographically nameOf b a ≤ 0)) = true := by
    intro a b
    rcases lex_total nameOf hg a b with h | h <;> simp [h]
  have hpair := jsSort_pairwise (fun a b => decide (lexicographically nameOf a b ≤ 0))
    hle_trans (fun a b => by
      have := hle_total a b
      rcases Bool.or_eq_true_iff.mp this with h | h
      · exact Or.inl h
      · exact Or.inr h)
    (packageInfos.filter (excludeFilter excludeFn))
  have hperm := jsSort_perm (fun a b => decide (lexicographically nameOf a b ≤ 0))
    (packageInfos.filter (excludeFilter excludeFn))
  refine ⟨fun l x => pushUnique_eq l x, ?_, ?_, ?_, ?_, ?_⟩
  · simpa [PackageInfo.addPackages] using hperm
  · have := hpair.imp (fun hab => decide_eq_true_eq.mp hab)
    simpa [PackageInfo.addPackages] using this
  · have himp : ∀ {a b : EntryId},
        decide (lexicographically nameOf a b ≤ 0) = true →
        (hasStrName nameOf b = true → hasStrName nameOf a = true) := by
      intro a b hab hb
      have hab2 : lexicographically nameOf a b ≤ 0 := decide_eq_true_eq.mp hab
      rw [lex_eval nameOf hg] at hab2
      rcases hg a with ha | ⟨sa, ha, hsa⟩
      · rcases hg b with hbn | ⟨sb, hbn, hsb⟩
        · simp [hasStrName, hbn] at hb
        · simp [ha, hbn] at hab2
      · simp [hasStrName, ha]
    have hp2 := hpair.imp himp
    simpa [PackageInfo.addPackages] using hp2
  · have hn := foldl_pushUnique_nodup
      (jsSort (fun a b => decide (lexicographically nameOf a b ≤ 0))
        (packageInfos.filter (excludeFilter excludeFn))) packageList hnd
    simpa [PackageInfo.addPackages] using hn
  · intro x
    have hm := foldl_pushUnique_mem
      (jsSort (fun a b => decide (lexicographically nameOf a b ≤ 0))
        (packageInfos.filter (excludeFilter excludeFn))) packageList x
    simpa [PackageInfo.addPackages] using hm

/-- C9 counterexample: with one node lacking a name (id 0) and one named
node (id 1), addPackages sorts the named node first, so nodes lacking a name
sort after named ones, contradicting the claimed order. -/
theorem addPackages_named_sort_first :
    PackageInfo.addPackages nameOfFixture [] [0, 1] none = ([1, 0], [1, 0]) := by
  decide

theorem addPackages_props_witness :
    (pushUnique [0, 1] 0 = [1, 0])
    ∧ (PackageInfo.addPackages nameOfFixture [] [0, 1] none).1.Pairwise
        (fun a b => lexicographically nameOfFixture a b ≤ 0)
    ∧ (PackageInfo.addPackages nameOfFixture [] [0, 1] none).2.Nodup := by
  have hg : ∀ i, nameOfFixture i = none ∨
      ∃ s, nameOfFixture i = some (.str s) ∧ s ≠ [] := by
    intro i
    by_cases hi : i = 1
    · exact Or.inr ⟨strOf "x", by simp [nameOfFixture, hi], by decide⟩
    · exact Or.inl (by simp [nameOfFixture, hi])
  have h := addPackages_props nameOfFixture [] [0, 1] none hg List.nodup_nil
  exact ⟨by rw [h.1 [0, 1] 0]; decide, h.2.2.1, h.2.2.2.2.1⟩

/-- C8: asking readPackage for a path whose cache entry is a
NodeModulesList, or readNodeModulesList for a path whose cache entry is a
PackageInfo, throws (aborts the operation) and leaves the cache state
untouched, so no ledger entry is recorded; this holds both when the entry
sits at the normalized path itself and when it sits at the differing
symlink-resolved path. -/
theorem wrongKind_throws (fs : FS) (fuel : Nat) (s : PackageInfoCache)
    (p r : FsPath) (i : EntryId) (b : Bool) :
    (∀ dnml : NodeModulesList, s.getEntry p = some i →
      s.getData i = some (.nml dnml) →
      PackageInfoCache.readPackage fs (fuel + 1) p b s = (.error (.wrongKindPkg p), s))
    ∧ (∀ dnml : NodeModulesList, s.getEntry p = none → fs.realDir p = some r →
      r ≠ p → s.getEntry r = some i → s.getData i = some (.nml dnml) →
      PackageInfoCache.readPackage fs (fuel + 1) p b s = (.error (.wrongKindPkgReal r), s))
    ∧ (∀ dpkg : PackageInfo, s.getEntry p = some i →
      s.getData i = some (.pkg dpkg) →
      PackageInfoCache.readNodeModulesList fs (fuel + 1) p s = (.error (.wrongKindNml p), s))
    ∧ (∀ dpkg : PackageInfo, s.getEntry p = none → fs.realDir p = some r →
      r ≠ p → s.getEntry r = some i → s.getData i = some (.pkg dpkg) →
      PackageInfoCache.readNodeModulesList fs (fuel + 1) p s =
        (.error (.wrongKindNmlReal r), s)) := by
  refine ⟨?_, ?_, ?_, ?_⟩
  · intro dnml h1 h2
    simp [PackageInfoCache.readPackage, M_bind_eq, M_bind_apply, getC_apply,
      h1, h2, throwM_apply]
  · intro dnml h1 h2 h3 h4 h5
    simp [PackageInfoCache.readPackage, M_bind_eq, M_bind_apply, getC_apply,
      h1, h2, h3, h4, h5, throwM_apply, Ne.symm h3]
  · intro dpkg h1 h2
    simp [PackageInfoCache.readNodeModulesList, M_bind_eq, M_bind_apply, getC_apply,
      h1, h2, throwM_apply]
  · intro dpkg h1 h2 h3 h4 h5
    simp [PackageInfoCache.readNodeModulesList, M_bind_eq, M_bind_apply, getC_apply,
      h1, h2, h3, h4, h5, throwM_apply, Ne.symm h3]

theorem wrongKind_throws_witness :
    PackageInfoCache.readPackage fsLink 3 [strOf "x"] false wrongKindCache =
      (.error (.wrongKindPkg [strOf "x"]), wrongKindCache)
    ∧ PackageInfoCache.readPackage fsLink 3 [strOf "xs"] false wrongKindCache =
      (.error (.wrongKindPkgReal [strOf "x"]), wrongKindCache)
    ∧ PackageInfoCache.readNodeModulesList fsLink 3 [strOf "y"] wrongKindCache =
      (.error (.wrongKindNml [strOf "y"]), wrongKindCache)
    ∧ PackageInfoCache.readNodeModulesList fsLink 3 [strOf "ys"] wrongKindCache =
      (.error (.wrongKindNmlReal [strOf "y"]), wrongKindCache) := by
  refine ⟨?_, ?_, ?_, ?_⟩
  · exact (wrongKind_throws fsLink 2 wrongKindCache [strOf "x"] [] 0 false).1
      NodeModulesList.nullInstance rfl rfl
  · exact (wrongKind_throws fsLink 2 wrongKindCache [strOf "xs"] [strOf "x"] 0
      false).2.1 NodeModulesList.nullInstance rfl (by decide) (by decide) rfl rfl
  · exact (wrongKind_throws fsLink 2 wrongKindCache [strOf "y"] [] 1 false).2.2.1
      plainPkgFixture rfl rfl
  · exact (wrongKind_throws fsLink 2 wrongKindCache [strOf "ys"] [strOf "y"] 1
      false).2.2.2 plainPkgFixture rfl (by decide) (by decide) rfl rfl

/-- C5: during dependency resolution each declared name is first looked up
in the node's own node_modules listing; a name the own listing resolves is
taken from there with no cache mutation (the upward search is never
consulted for it), and only when the own lookup returns nothing does the
step become exactly the cache's upward findPackage starting from the node's
parent directory. -/
theorem resolveDependencyName_fast_path (fs : FS) (fuel : Nat)
    (s : PackageInfoCache) (selfId : EntryId) (depName : Str)
    (d : PackageInfo) (r : NmlRef) (l : NodeModulesList)
    (h1 : s.pkgData selfId = some d) (h2 : d.nodeModules = some r)
    (h3 : derefNml s r = some l) :
    (∀ p, NodeModulesList.findPackage s.store l (some depName) = .ok (some p) →
      PackageInfo.resolveDependencyName fs fuel selfId depName s = (.ok (some p), s))
    ∧ (NodeModulesList.findPackage s.store l (some depName) = .ok none →
      PackageInfo.resolveDependencyName fs fuel selfId depName s =
        PackageInfoCache.findPackage fs fuel depName (pathDirname d.realPath) s) := by
  constructor
  · intro p hfind
    simp [PackageInfo.resolveDependencyName, M_bind_eq, M_bind_apply, getC_apply,
      h1, h2, h3, hfind, liftEx, M_pure_apply]
  · intro hfind
    simp [PackageInfo.resolveDependencyName, M_bind_eq, M_bind_apply, getC_apply,
      h1, h2, h3, hfind, liftEx, M_pure_apply]

theorem resolveDependencyName_fast_path_witness :
    PackageInfo.resolveDependencyName fsBare 1 0 (strOf "dep") fastPathCache =
      (.ok (some 2), fastPathCache)
    ∧ PackageInfo.resolveDependencyName fsBare 1 0 (strOf "nope") fastPathCache =
      PackageInfoCache.findPackage fsBare 1 (strOf "nope")
        (pathDirname fastPathSelf.realPath) fastPathCache := by
  constructor
  · exact (resolveDependencyName_fast_path fsBare 1 fastPathCache 0 (strOf "dep")
      fastPathSelf (.listId 1) fastPathList rfl rfl rfl).1 2 (by decide)
  · exact (resolveDependencyName_fast_path fsBare 1 fastPathCache 0 (strOf "nope")
      fastPathSelf (.listId 1) fastPathList rfl rfl rfl).2 (by decide)

theorem findPackageGo_misses (fs : FS) (fuel : Nat) (packageName : Str) :
    ∀ (start : FsPath) (s : PackageInfoCache),
      MissesAll fs fuel packageName start s →
      ∃ s2, PackageInfoCache.findPackageGo fs fuel packageName start.length start s =
        (.ok none, s2) := by
  intro start s h
  induction h with
  | root s => exact ⟨s, by simp [PackageInfoCache.findPackageGo, M_pure_apply]⟩
  | step p s res s1 hne hprobe hmiss hrec ih =>
    obtain ⟨seg, rest, rfl⟩ : ∃ seg rest, p = seg :: rest := by
      cases p with
      | nil => exact absurd rfl hne
      | cons a b => exact ⟨a, b, rfl⟩
    obtain ⟨s2, ih2⟩ := ih
    refine ⟨s2, ?_⟩
    have hlen : (pathDirname (seg :: rest)).length = rest.length := by
      simp [pathDirname]
    rw [hlen] at ih2
    show (PackageInfoCache.findPackageGo fs fuel packageName
      (rest.length + 1) (seg :: rest)) s = (.ok none, s2)
    unfold PackageInfoCache.findPackageGo
    simp only [M_bind_eq, M_bind_apply]
    have hprobe2 : PackageInfoCache.readNodeModulesList fs fuel
        (if pathBasename (seg :: rest) = nmSeg then seg :: rest
         else (seg :: rest) ++ [nmSeg]) s = (.ok res, s1) := by
      simpa [nmProbe] using hprobe
    rw [hprobe2]
    rcases res with _ | listId
    · exact ih2
    · simp only [M_bind_eq, M_bind_apply, getC_apply]
      rcases hdata : s1.nmlData listId with _ | l
      · simp only [hdata]
        exact ih2
      · simp only [hdata, hmiss listId l rfl hdata]
        exact ih2

/-- C3 (amended): the upward search always terminates, walking the chain
from the start directory to the filesystem root and probing exactly one
node_modules listing per chain directory (the directory itself when it is
already named node_modules, otherwise its node_modules child, as captured by
nmProbe inside MissesAll); on the filesystem root it returns absent
immediately, and whenever every probe along the chain yields no listing or a
listing in which the name is not found (MissesAll), it returns absent upon
reaching the root without throwing.  Contrary to the original claim this is
conditional: a probe can also abort with a wrong-kind error when a crafted
package — reachable through in-repo addon paths that escape into a
node_modules directory — has poisoned the cache (see the counterexample). -/
theorem findPackage_chain_behaviour (fs : FS) (fuel : Nat) (packageName : Str) :
    (∀ s, PackageInfoCache.findPackage fs fuel packageName [] s = (.ok none, s))
    ∧ (∀ start s, MissesAll fs fuel packageName start s →
        ∃ s2, PackageInfoCache.findPackage fs fuel packageName start s = (.ok none, s2)) := by
  constructor
  · intro s
    simp [PackageInfoCache.findPackage, PackageInfoCache.findPackageGo, M_pure_apply]
  · intro start s h
    exact findPackageGo_misses fs fuel packageName start s h

theorem findPackage_chain_behaviour_witness :
    ∃ s2, PackageInfoCache.findPackage fsBare 2 (strOf "zzz") [strOf "proj"]
      PackageInfoCache.empty = (.ok none, s2) := by
  refine (findPackage_chain_behaviour fsBare 2 (strOf "zzz")).2 [strOf "proj"]
    PackageInfoCache.empty ?_
  refine MissesAll.step [strOf "proj"] PackageInfoCache.empty none
    PackageInfoCache.empty (by simp) ?_ (fun listId l hres hdata => nomatch hres) ?_
  · rfl
  · exact MissesAll.root PackageInfoCache.empty

/-- C3 counterexample: on the poisoned-cache filesystem, searching for a
name that exists nowhere on the chain does not return absent — the second
chain probe finds a PackageInfo cached at the node_modules path (put there
by the escaping in-repo addon path of the first probe) and the search aborts
with a wrong-kind error, starting from a completely fresh cache. -/
theorem findPackage_can_throw :
    (PackageInfoCache.findPackage fsPoison 10 (strOf "bar") fixAB
      PackageInfoCache.empty).1 = .error (.wrongKindNml fixAnm) := by decide

/-- C7: loading a directory that exists but has no package descriptor file,
into a fresh cache, still returns a Package Node rather than raising: the
node is created with the synthesized placeholder descriptor, its valid flag
is false, and its error ledger holds exactly one descriptor-missing entry
(and the resolution pass still completes, marking it processed). -/
theorem loadApp_missing_descriptor (fs : FS) (fuel : Nat) (p r : FsPath)
    (hdir : fs.realDir p = some r)
    (hfile : fs.realFile (r ++ [packageJsonSeg]) = none) :
    PackageInfoCache.loadApp fs (fuel + 1) p true PackageInfoCache.empty =
      (.ok 0,
       { entries := [(r, 0)],
         store := [(0, .pkg
           { packageJson := Json.obj [(strOf "name", Json.str (strOf "invalid package.json")),
               (strOf "root", Json.str (pathToStr r))],
             realPath := r, isRoot := true, kind := .plain,
             errors := [⟨ERROR_PACKAGE_JSON_MISSING, .path (r ++ [packageJsonSeg])⟩],
             dependenciesPackages := none, devDependenciesPackages := none,
             nodeModules := some .nullInstance, inRepoAddons := none,
             addonMainPath := none, processed := true, valid := false })],
         nextId := 1, rootPackage := some 0 }) := by
  have hclass : classifyPackageJson (Json.obj
      [(strOf "name", Json.str (strOf "invalid package.json")),
       (strOf "root", Json.str (pathToStr r))]) = .plain := rfl
  have hpaths : getObjectProperty (some (Json.obj
      [(strOf "name", Json.str (strOf "invalid package.json")),
       (strOf "root", Json.str (pathToStr r))])) (strOf "ember-addon.paths") = none := rfl
  have hdeps : jsonField (Json.obj
      [(strOf "name", Json.str (strOf "invalid package.json")),
       (strOf "root", Json.str (pathToStr r))]) (strOf "dependencies") = none := rfl
  have hdevdeps : jsonField (Json.obj
      [(strOf "name", Json.str (strOf "invalid package.json")),
       (strOf "root", Json.str (pathToStr r))]) (strOf "devDependencies") = none := rfl
  have hset : jsonSetField (Json.obj
      [(strOf "name", Json.str (strOf "invalid package.json"))]) (strOf "root")
      (Json.str (pathToStr r)) =
      Json.obj [(strOf "name", Json.str (strOf "invalid package.json")),
        (strOf "root", Json.str (pathToStr r))] := rfl
  have hnew : PackageInfoCache.readPackageNew fs
      (PackageInfoCache.readPackage fs fuel)
      (PackageInfoCache.readNodeModulesList fs fuel) r true [] false
      PackageInfoCache.empty =
      (.ok 0,
       { entries := [(r, 0)],
         store := [(0, .pkg
           { packageJson := Json.obj [(strOf "name", Json.str (strOf "invalid package.json")),
               (strOf "root", Json.str (pathToStr r))],
             realPath := r, isRoot := true, kind := .plain,
             errors := [⟨ERROR_PACKAGE_JSON_MISSING, .path (r ++ [packageJsonSeg])⟩],
             dependenciesPackages := none, devDependenciesPackages := none,
             nodeModules := some .nullInstance, inRepoAddons := none,
             addonMainPath := none, processed := false, valid := false })],
         nextId := 1, rootPackage := none }) := by
    simp [PackageInfoCache.readPackageNew, PackageInfoCache.readPackageTail,
      PackageInfoCache.inRepoPhase, PackageInfoCache.nmPhase,
      M_bind_eq, M_bind_apply, getC_apply,
      setC_apply, M_pure_apply, hfile, hset, hpaths, hclass,
      PackageInfoFactory.create, PackageInfoCache.empty, PackageInfoCache.allocate,
      PackageInfoCache.addEntry, PackageInfoCache.setData, PackageInfoCache.pkgData,
      PackageInfoCache.getData, modifyPkg, isStringArray, alGet, alSet]
  have hread : PackageInfoCache.readPackage fs (fuel + 1) p true
      PackageInfoCache.empty =
      PackageInfoCache.readPackageNew fs (PackageInfoCache.readPackage fs fuel)
        (PackageInfoCache.readNodeModulesList fs fuel) r true [] false
        PackageInfoCache.empty := by
    by_cases hrp : r = p
    · subst hrp
      simp [PackageInfoCache.readPackage, M_bind_eq, M_bind_apply, getC_apply,
        PackageInfoCache.empty, PackageInfoCache.getEntry, alGet, hdir]
    · simp [PackageInfoCache.readPackage, M_bind_eq, M_bind_apply, getC_apply,
        PackageInfoCache.empty, PackageInfoCache.getEntry, alGet, hdir, hrp]
  simp only [PackageInfoCache.loadApp, M_bind_eq, M_bind_apply, getC_apply,
    M_pure_apply, hread, hnew]
  simp [PackageInfoCache.pkgData, PackageInfoCache.getData, alGet,
    modifyC_apply, PackageInfoCache.resolveDependencies,
    PackageInfoCache.resolveStep, M_bind_eq, M_pure_eq,
    M_bind_apply, getC_apply, M_pure_apply, PackageInfoCache.getPackageInfos,
    List.forM, PackageInfo.addDependencies, PackageInfo.addDevDependencies,
    PackageInfo.doAddDependencies, hdeps, hdevdeps, modifyPkg,
    PackageInfoCache.setData, alSet]

theorem loadApp_missing_descriptor_witness :
    PackageInfoCache.loadApp fsBare 3 [strOf "proj"] true PackageInfoCache.empty =
      (.ok 0,
       { entries := [([strOf "proj"], 0)],
         store := [(0, .pkg
           { packageJson := Json.obj [(strOf "name", Json.str (strOf "invalid package.json")),
               (strOf "root", Json.str (pathToStr [strOf "proj"]))],
             realPath := [strOf "proj"], isRoot := true, kind := .plain,
             errors := [⟨ERROR_PACKAGE_JSON_MISSING,
               .path ([strOf "proj"] ++ [packageJsonSeg])⟩],
             dependenciesPackages := none, devDependenciesPackages := none,
             nodeModules := some .nullInstance, inRepoAddons := none,
             addonMainPath := none, processed := true, valid := false })],
         nextId := 1, rootPackage := some 0 }) :=
  loadApp_missing_descriptor fsBare 2 [strOf "proj"] [strOf "proj"] rfl rfl

theorem CachePres.rfl (fs : FS) (n0 : Nat) (s : PackageInfoCache) :
    CachePres fs n0 s s :=
  ⟨id, fun _ _ _ _ h => h, fun _ _ _ _ h _ => h, fun _ h => h, le_refl _⟩

theorem CachePres.of_eq (fs : FS) (n0 : Nat) (s t : PackageInfoCache)
    (h : t = s) : CachePres fs n0 s t := h ▸ CachePres.rfl fs n0 s

theorem CachePres.trans {fs : FS} {n0 : Nat} {s t u : PackageInfoCache}
    (h1 : CachePres fs n0 s t) (h2 : CachePres fs n0 t u) :
    CachePres fs n0 s u := by
  refine ⟨fun hwf => h2.wf (h1.wf hwf), ?_, ?_, ?_, le_trans h1.mono h2.mono⟩
  · intro hwf i e hi hb
    exact h2.store (h1.wf hwf) i e hi (h1.store hwf i e hi hb)
  · intro hwf k i e hbind hstore
    have hbt := h1.sbind hwf k i e hbind hstore
    have hdt : (alGet t.store i).isSome := h1.dom i (by rw [hstore]; rfl)
    rcases ht : alGet t.store i with _ | e2
    · rw [ht] at hdt; exact absurd hdt (by simp)
    · exact h2.sbind (h1.wf hwf) k i e2 hbt ht
  · intro i hi
    exact h2.dom i (h1.dom i hi)

theorem resolvePres_rfl (fs : FS) (s : PackageInfoCache) : ResolvePres fs s s :=
  ⟨id, fun _ _ _ _ h _ => h, fun _ h => h, fun _ i d h => ⟨d, h, id⟩, le_refl _⟩

theorem freshOk_lt {s : PackageInfoCache} (hwf : CacheWF fs s) {i : EntryId}
    {e : PackageInfoCacheEntry} (hb : alGet s.store i = some e) :
    i < s.nextId := by
  by_contra hcon
  rw [hwf.2.1 i (le_of_not_lt hcon)] at hb
  exact Option.noConfusion hb

theorem wf_setData_bound {fs : FS} {s : PackageInfoCache} {i0 : EntryId}
    {e0 d : PackageInfoCacheEntry} (hwf : CacheWF fs s)
    (hb : alGet s.store i0 = some e0) : CacheWF fs (s.setData i0 d) := by
  refine ⟨hwf.1, ?_, hwf.2.2⟩
  intro i hi
  have hne : i ≠ i0 := by
    intro hcon
    subst hcon
    exact absurd hb (by rw [hwf.2.1 i hi]; exact fun h => Option.noConfusion h)
  show alGet (alSet s.store i0 d) i = none
  rw [alGet_alSet_ne _ _ _ _ hne]
  exact hwf.2.1 i hi

theorem pres_setData_high {fs : FS} {n0 : Nat} {s : PackageInfoCache}
    {i0 : EntryId} {e0 d : PackageInfoCacheEntry} (hm : n0 ≤ i0)
    (hb : alGet s.store i0 = some e0) :
    CachePres fs n0 s (s.setData i0 d) := by
  refine ⟨fun hwf => wf_setData_bound hwf hb, ?_, ?_, ?_, le_refl _⟩
  · intro _ i e hi hbi
    show alGet (alSet s.store i0 d) i = some e
    rw [alGet_alSet_ne _ _ _ _ (Nat.ne_of_lt (lt_of_lt_of_le hi hm))]
    exact hbi
  · intro _ k i e hbind _
    exact hbind
  · intro i hi
    show (alGet (alSet s.store i0 d) i).isSome
    by_cases hii : i = i0
    · subst hii
      rw [alGet_alSet_self]
      rfl
    · rw [alGet_alSet_ne _ _ _ _ hii]
      exact hi

theorem pres_modifyPkg {fs : FS} {n0 : Nat} {i0 : EntryId}
    {f : PackageInfo → PackageInfo} {s : PackageInfoCache} {r : Except JsErr Unit}
    {t : PackageInfoCache} (hm : n0 ≤ i0) (h : modifyPkg i0 f s = (r, t)) :
    CachePres fs n0 s t := by
  unfold modifyPkg at h
  rcases hd : s.pkgData i0 with _ | d
  · rw [hd] at h
    exact CachePres.of_eq fs n0 s t (congrArg Prod.snd h).symm
  · rw [hd] at h
    have ht : t = s.setData i0 (.pkg (f d)) := (congrArg Prod.snd h).symm
    have hb : alGet s.store i0 = some (.pkg d) := by
      unfold PackageInfoCache.pkgData PackageInfoCache.getData at hd
      rcases hg : alGet s.store i0 with _ | e
      · rw [hg] at hd; exact Option.noConfusion hd
      · rw [hg] at hd
        cases e with
        | pkg dp => cases hd; rfl
        | nml l => exact Option.noConfusion hd
    exact ht ▸ pres_setData_high hm hb

theorem pres_addInRepoAddonM {fs : FS} {n0 : Nat} {selfId aid : EntryId}
    {s : PackageInfoCache} {r : Except JsErr Unit} {t : PackageInfoCache}
    (hm : n0 ≤ selfId) (h : addInRepoAddonM selfId aid s = (r, t)) :
    CachePres fs n0 s t := by
  unfold addInRepoAddonM at h
  rcases hd : s.pkgData selfId with _ | d
  · rw [hd] at h
    exact CachePres.of_eq fs n0 s t (congrArg Prod.snd h).symm
  · rw [hd] at h
    have hb : alGet s.store selfId = some (.pkg d) := by
      unfold PackageInfoCache.pkgData PackageInfoCache.getData at hd
      rcases hg : alGet s.store selfId with _ | e
      · rw [hg] at hd; exact Option.noConfusion hd
      · rw [hg] at hd
        cases e with
        | pkg dp => cases hd; rfl
        | nml l => exact Option.noConfusion hd
    cases hk : d.kind <;> simp only [hk] at h <;>
      first
        | (injection h with h1 h2; exact h2 ▸ pres_setData_high hm hb)
        | (injection h with h1 h2; exact CachePres.of_eq fs n0 s t h2.symm)

theorem pres_allocate (fs : FS) (n0 : Nat) (s : PackageInfoCache)
    (d : PackageInfoCacheEntry) : CachePres fs n0 s (s.allocate d).2 := by
  refine ⟨?_, ?_, ?_, ?_, Nat.le_succ _⟩
  · intro hwf
    refine ⟨hwf.1, ?_, hwf.2.2⟩
    intro i hi
    show alGet (alSet s.store s.nextId d) i = none
    have hne : i ≠ s.nextId := fun hcon => by
      rw [hcon] at hi
      exact absurd hi (by simp [PackageInfoCache.allocate])
    rw [alGet_alSet_ne _ _ _ _ hne]
    exact hwf.2.1 i (le_trans (Nat.le_succ _) hi)
  · intro hwf i e _ hb
    show alGet (alSet s.store s.nextId d) i = some e
    rw [alGet_alSet_ne _ _ _ _ (Nat.ne_of_lt (freshOk_lt hwf hb))]
    exact hb
  · intro _ k i e hbind _
    exact hbind
  · intro i hi
    show (alGet (alSet s.store s.nextId d) i).isSome
    by_cases hii : i = s.nextId
    · subst hii
      rw [alGet_alSet_self]
      rfl
    · rw [alGet_alSet_ne _ _ _ _ hii]
      exact hi

theorem wf_addEntry {fs : FS} {s : PackageInfoCache} {k : FsPath} {i : EntryId}
    (hwf : CacheWF fs s) (hkey : fs.realDir k = some k ∨ fs.realDir k = none) :
    CacheWF fs (s.addEntry k i) := by
  refine ⟨?_, hwf.2.1, alSet_keys_nodup _ _ _ hwf.2.2⟩
  intro k2 i2 hb
  by_cases hkk : k2 = k
  · exact hkk ▸ hkey
  · rw [show alGet (s.addEntry k i).entries k2 = alGet (alSet s.entries k i) k2 from rfl,
      alGet_alSet_ne _ _ _ _ hkk] at hb
    exact hwf.1 k2 i2 hb

theorem pres_addEntry {fs : FS} {n0 : Nat} {s : PackageInfoCache} {k : FsPath}
    {i : EntryId} (hkey : fs.realDir k = some k ∨ fs.realDir k = none)
    (hnd : ∀ j, alGet s.entries k = some j → alGet s.store j = none) :
    CachePres fs n0 s (s.addEntry k i) := by
  refine ⟨fun hwf => wf_addEntry hwf hkey, fun _ _ _ _ h => h, ?_,
    fun _ h => h, le_refl _⟩
  intro _ k2 i2 e hbind hst
  by_cases hkk : k2 = k
  · rw [hnd i2 (hkk ▸ hbind)] at hst
    exact Option.noConfusion hst
  · show alGet (alSet s.entries k i) k2 = some i2
    rw [alGet_alSet_ne _ _ _ _ hkk]
    exact hbind

theorem pres_foldlM {β γ : Type} (fs : FS) (n0 : Nat) (f : γ → β → M γ)
    (hf : ∀ c b s r t, f c b s = (r, t) → CachePres fs n0 s t) :
    ∀ (l : List β) (c : γ) (s : PackageInfoCache) (r : Except JsErr γ)
      (t : PackageInfoCache), List.foldlM f c l s = (r, t) → CachePres fs n0 s t := by
  intro l
  induction l with
  | nil =>
    intro c s r t h
    simp only [List.foldlM, M_pure_eq, M_pure_apply] at h
    exact CachePres.of_eq fs n0 s t (congrArg Prod.snd h).symm
  | cons b bs ih =>
    intro c s r t h
    simp only [List.foldlM, M_bind_eq, M_bind_apply] at h
    rcases hx : f c b s with ⟨rx, sx⟩
    rw [hx] at h
    cases rx with
    | error e =>
      simp only at h
      injection h with h1 h2
      exact h2 ▸ hf c b s _ _ hx
    | ok c2 =>
      simp only at h
      exact (hf c b s _ _ hx).trans (ih c2 sx r t h)

theorem pres_forM {β : Type} (fs : FS) (n0 : Nat) (f : β → M Unit)
    (hf : ∀ b s r t, f b s = (r, t) → CachePres fs n0 s t) :
    ∀ (l : List β) (s : PackageInfoCache) (r : Except JsErr Unit)
      (t : PackageInfoCache), List.forM l f s = (r, t) → CachePres fs n0 s t := by
  intro l
  induction l with
  | nil =>
    intro s r t h
    simp only [List.forM, M_pure_eq, M_pure_apply] at h
    exact CachePres.of_eq fs n0 s t (congrArg Prod.snd h).symm
  | cons b bs ih =>
    intro s r t h
    simp only [List.forM, M_bind_eq, M_bind_apply] at h
    rcases hx : f b s with ⟨rx, sx⟩
    rw [hx] at h
    cases rx with
    | error e =>
      simp only at h
      injection h with h1 h2
      exact h2 ▸ hf b s _ _ hx
    | ok u =>
      simp only at h
      exact (hf b s _ _ hx).trans (ih sx r t h)

theorem CachePres.chain_lower {fs : FS} {n0 : Nat} {s t : PackageInfoCache}
    (h : CachePres fs s.nextId s t) : CachePres fs n0 s t := by
  refine ⟨h.wf, ?_, h.sbind, h.dom, h.mono⟩
  intro hwf i e _ hb
  exact h.store hwf i e (freshOk_lt hwf hb) hb

theorem pres_inRepoStep {fs : FS} {n0 : Nat} {rp : FsPath → Bool → M EntryId}
    {selfId : EntryId} {realPath : FsPath}
    (hrp : ∀ m p b s1 r1 t1, rp p b s1 = (r1, t1) → CachePres fs m s1 t1)
    (hm : n0 ≤ selfId) :
    ∀ p s r t, PackageInfoCache.inRepoStep fs rp selfId realPath p s = (r, t) →
      CachePres fs n0 s t := by
  intro p s r t h
  unfold PackageInfoCache.inRepoStep at h
  simp only [M_bind_eq, M_bind_apply, getC_apply] at h
  rcases hx : rp (joinRel realPath p) false s with ⟨rx, sx⟩
  rw [hx] at h
  cases rx with
  | error e =>
    simp only at h
    injection h with h1 h2
    exact h2 ▸ hrp n0 _ _ _ _ _ hx
  | ok a =>
    simp only at h
    rcases hpd : sx.pkgData a with _ | ad
    · rw [hpd] at h
      simp only [M_pure_apply] at h
      injection h with h1 h2
      exact h2 ▸ hrp n0 _ _ _ _ _ hx
    · rw [hpd] at h
      by_cases hcond : ad.kind = .emberAddon ∨ ad.kind = .emberEngine
      · simp only [if_pos hcond] at h
        exact (hrp n0 _ _ _ _ _ hx).trans (pres_addInRepoAddonM hm h)
      · simp only [if_neg hcond] at h
        exact (hrp n0 _ _ _ _ _ hx).trans (pres_modifyPkg hm h)

theorem pres_inRepoPhase {fs : FS} {n0 : Nat} {rp : FsPath → Bool → M EntryId}
    {selfId : EntryId} {realPath : FsPath} {np : PackageInfo}
    (hrp : ∀ m p b s1 r1 t1, rp p b s1 = (r1, t1) → CachePres fs m s1 t1)
    (hm : n0 ≤ selfId) :
    ∀ s r t, PackageInfoCache.inRepoPhase fs rp selfId realPath np s = (r, t) →
      CachePres fs n0 s t := by
  intro s r t h
  unfold PackageInfoCache.inRepoPhase at h
  by_cases hc : isStringArray
      (getObjectProperty (some np.packageJson) (strOf "ember-addon.paths")) = true
  · simp only [if_pos hc] at h
    rcases hp : getObjectProperty (some np.packageJson) (strOf "ember-addon.paths")
        with _ | pj
    · rw [hp] at h
      simp only [M_pure_apply] at h
      exact CachePres.of_eq fs n0 s t (congrArg Prod.snd h).symm
    · rw [hp] at h
      exact pres_forM fs n0 _ (pres_inRepoStep hrp hm) _ _ _ _ h
  · simp only [if_neg hc] at h
    simp only [M_pure_apply] at h
    exact CachePres.of_eq fs n0 s t (congrArg Prod.snd h).symm

theorem pres_nmPhase {fs : FS} {n0 : Nat} {rnml : FsPath → M (Option EntryId)}
    {selfId : EntryId} {realPath : FsPath} {np : PackageInfo}
    (hrnml : ∀ m p s1 r1 t1, rnml p s1 = (r1, t1) → CachePres fs m s1 t1)
    (hm : n0 ≤ selfId) :
    ∀ s r t, PackageInfoCache.nmPhase fs rnml selfId realPath np s = (r, t) →
      CachePres fs n0 s t := by
  intro s r t h
  unfold PackageInfoCache.nmPhase at h
  by_cases hc : np.kind = .emberAddon ∨ np.kind = .emberEngine ∨ np.kind = .emberApp
  · simp only [if_pos hc, M_bind_eq, M_bind_apply] at h
    rcases hx : rnml (realPath ++ [nmSeg]) s with ⟨rx, sx⟩
    rw [hx] at h
    cases rx with
    | error e =>
      simp only at h
      injection h with h1 h2
      exact h2 ▸ hrnml n0 _ _ _ _ hx
    | ok nm =>
      simp only at h
      cases nm with
      | none =>
        simp only [M_pure_apply] at h
        injection h with h1 h2
        exact h2 ▸ hrnml n0 _ _ _ _ hx
      | some listId =>
        simp only at h
        exact (hrnml n0 _ _ _ _ hx).trans (pres_modifyPkg hm h)
  · simp only [if_neg hc] at h
    exact pres_modifyPkg hm h

theorem pres_nmlStep {fs : FS} {n0 : Nat} {rp : FsPath → Bool → M EntryId}
    {rnml : FsPath → M (Option EntryId)} {realPath : FsPath}
    (hrp : ∀ m p b s1 r1 t1, rp p b s1 = (r1, t1) → CachePres fs m s1 t1)
    (hrnml : ∀ m p s1 r1 t1, rnml p s1 = (r1, t1) → CachePres fs m s1 t1) :
    ∀ acc b s r t, PackageInfoCache.nmlStep fs rp rnml realPath acc b s = (r, t) →
      CachePres fs n0 s t := by
  intro acc b s r t h
  unfold PackageInfoCache.nmlStep at h
  by_cases hf : (fs.realFile (joinRel realPath b)).isSome = true
  · simp only [if_pos hf, M_pure_apply] at h
    exact CachePres.of_eq fs n0 s t (congrArg Prod.snd h).symm
  · simp only [if_neg hf] at h
    by_cases hat : startsWithChar '@' b = true
    · simp only [if_pos hat, M_bind_eq, M_bind_apply] at h
      rcases hx : rnml (joinRel realPath b) s with ⟨rx, sx⟩
      rw [hx] at h
      cases rx with
      | error e =>
        simp only at h
        injection h with h1 h2
        exact h2 ▸ hrnml n0 _ _ _ _ hx
      | ok nm =>
        simp only at h
        cases nm <;> simp only [M_pure_apply] at h <;>
          (injection h with h1 h2; exact h2 ▸ hrnml n0 _ _ _ _ hx)
    · simp only [if_neg hat, M_bind_eq, M_bind_apply] at h
      rcases hx : rp (joinRel realPath b) false s with ⟨rx, sx⟩
      rw [hx] at h
      cases rx with
      | error e =>
        simp only at h
        injection h with h1 h2
        exact h2 ▸ hrp n0 _ _ _ _ _ hx
      | ok a =>
        simp only [M_pure_apply] at h
        injection h with h1 h2
        exact h2 ▸ hrp n0 _ _ _ _ _ hx

theorem pres_readPackageTail {fs : FS} {n0 : Nat} {rp : FsPath → Bool → M EntryId}
    {rnml : FsPath → M (Option EntryId)} {realPath : FsPath} {np : PackageInfo}
    {s : PackageInfoCache} {r : Except JsErr EntryId} {t : PackageInfoCache}
    (hrp : ∀ m p b s1 r1 t1, rp p b s1 = (r1, t1) → CachePres fs m s1 t1)
    (hrnml : ∀ m p s1 r1 t1, rnml p s1 = (r1, t1) → CachePres fs m s1 t1)
    (hkey : fs.realDir realPath = some realPath ∨ fs.realDir realPath = none)
    (hunb : alGet s.entries realPath = none)
    (h : PackageInfoCache.readPackageTail fs rp rnml realPath np s = (r, t)) :
    CachePres fs n0 s t := by
  apply CachePres.chain_lower
  have h2 : (M.bind
      (PackageInfoCache.inRepoPhase fs rp (s.allocate (.pkg np)).1 realPath np)
      (fun _ => M.bind
        (PackageInfoCache.nmPhase fs rnml (s.allocate (.pkg np)).1 realPath np)
        (fun _ => M.pure (s.allocate (.pkg np)).1)))
      ((s.allocate (.pkg np)).2.addEntry realPath (s.allocate (.pkg np)).1) =
      (r, t) := h
  have hA : CachePres fs s.nextId s
      ((s.allocate (.pkg np)).2.addEntry realPath (s.allocate (.pkg np)).1) := by
    refine (pres_allocate fs s.nextId s _).trans (pres_addEntry hkey ?_)
    intro j hb
    have hb2 : alGet s.entries realPath = some j := hb
    rw [hunb] at hb2
    exact Option.noConfusion hb2
  have hm1 : s.nextId ≤ (s.allocate (.pkg np)).1 := Nat.le.refl
  rw [M_bind_apply] at h2
  rcases hx : PackageInfoCache.inRepoPhase fs rp (s.allocate (.pkg np)).1 realPath np
      ((s.allocate (.pkg np)).2.addEntry realPath (s.allocate (.pkg np)).1)
      with ⟨rx, sx⟩
  rw [hx] at h2
  have hB : CachePres fs s.nextId
      ((s.allocate (.pkg np)).2.addEntry realPath (s.allocate (.pkg np)).1) sx :=
    pres_inRepoPhase hrp hm1 _ _ _ hx
  cases rx with
  | error e =>
    simp only at h2
    injection h2 with h21 h22
    exact h22 ▸ hA.trans hB
  | ok u =>
    simp only [M_bind_apply] at h2
    rcases hy : PackageInfoCache.nmPhase fs rnml (s.allocate (.pkg np)).1 realPath np sx
        with ⟨ry, sy⟩
    rw [hy] at h2
    have hC : CachePres fs s.nextId sx sy := pres_nmPhase hrnml hm1 _ _ _ hy
    cases ry with
    | error e =>
      simp only at h2
      injection h2 with h21 h22
      exact h22 ▸ hA.trans (hB.trans hC)
    | ok u2 =>
      simp only [M_pure_apply] at h2
      injection h2 with h21 h22
      exact h22 ▸ hA.trans (hB.trans hC)

theorem pres_readNodeModulesListNew {fs : FS} {n0 : Nat}
    {rp : FsPath → Bool → M EntryId} {rnml : FsPath → M (Option EntryId)}
    {realPath : FsPath} {s : PackageInfoCache} {r : Except JsErr (Option EntryId)}
    {t : PackageInfoCache}
    (hrp : ∀ m p b s1 r1 t1, rp p b s1 = (r1, t1) → CachePres fs m s1 t1)
    (hrnml : ∀ m p s1 r1 t1, rnml p s1 = (r1, t1) → CachePres fs m s1 t1)
    (hkey : fs.realDir realPath = some realPath ∨ fs.realDir realPath = none)
    (hnd : ∀ j, alGet s.entries realPath = some j → alGet s.store j = none)
    (h : PackageInfoCache.readNodeModulesListNew fs rp rnml realPath s = (r, t)) :
    CachePres fs n0 s t := by
  have h2 : (M.bind
      (List.foldlM (PackageInfoCache.nmlStep fs rp rnml realPath)
        { realPath := realPath, hasEntries := false, entries := [], errors := [] }
        ((fs.readdir realPath).filter (fun fileName =>
          if startsWithChar '.' fileName || startsWithChar '_' fileName then false
          else if startsWithChar '@' fileName then true
          else fs.fsExists (realPath ++ [fileName, packageJsonSeg]))))
      (fun l => fun s1 =>
        (.ok (some (s1.allocate (.nml l)).1),
         ((s1.allocate (.nml l)).2.addEntry realPath (s1.allocate (.nml l)).1))))
      s = (r, t) := h
  rw [M_bind_apply] at h2
  rcases hfold : List.foldlM (PackageInfoCache.nmlStep fs rp rnml realPath)
      { realPath := realPath, hasEntries := false, entries := [], errors := [] }
      ((fs.readdir realPath).filter (fun fileName =>
        if startsWithChar '.' fileName || startsWithChar '_' fileName then false
        else if startsWithChar '@' fileName then true
        else fs.fsExists (realPath ++ [fileName, packageJsonSeg]))) s
      with ⟨rf, sf⟩
  rw [hfold] at h2
  have hfoldP : ∀ m, CachePres fs m s sf := fun m =>
    pres_foldlM fs m _ (pres_nmlStep hrp hrnml) _ _ _ _ _ hfold
  cases rf with
  | error e =>
    simp only at h2
    injection h2 with h21 h22
    exact h22 ▸ hfoldP n0
  | ok l =>
    simp only at h2
    injection h2 with h21 h22
    subst h22
    have hallocP : ∀ m, CachePres fs m sf (sf.allocate (.nml l)).2 :=
      fun m => pres_allocate fs m sf _
    refine ⟨?_, ?_, ?_, ?_, ?_⟩
    · intro hwf
      exact wf_addEntry ((hallocP n0).wf ((hfoldP n0).wf hwf)) hkey
    · intro hwf i e hi hb
      have hb1 := (hfoldP n0).store hwf i e hi hb
      exact (hallocP n0).store ((hfoldP n0).wf hwf) i e hi hb1
    · intro hwf k i e hbind hst
      by_cases hkk : k = realPath
      · rw [hnd i (hkk ▸ hbind)] at hst
        exact Option.noConfusion hst
      · have hb1 := (hfoldP n0).sbind hwf k i e hbind hst
        have hd1 : (alGet sf.store i).isSome := (hfoldP n0).dom i (by rw [hst]; rfl)
        rcases hsf : alGet sf.store i with _ | e2
        · rw [hsf] at hd1; exact absurd hd1 (by simp)
        · have hb2 := (hallocP n0).sbind ((hfoldP n0).wf hwf) k i e2 hb1 hsf
          have hb3 : alGet (sf.allocate (.nml l)).2.entries k = some i := hb2
          show alGet (alSet (sf.allocate (.nml l)).2.entries realPath
            (sf.allocate (.nml l)).1) k = some i
          rw [alGet_alSet_ne _ _ _ _ hkk]
          exact hb3
    · intro i hi
      exact (hallocP n0).dom i ((hfoldP n0).dom i hi)
    · exact le_trans (hfoldP n0).mono (le_trans (hallocP n0).mono (le_refl _))

theorem enginePres (fs : FS) (hIdem : fs.RealIdem) :
    ∀ fuel : Nat,
      (∀ n0 p b s r t, PackageInfoCache.readPackage fs fuel p b s = (r, t) →
        CachePres fs n0 s t) ∧
      (∀ n0 p s r t, PackageInfoCache.readNodeModulesList fs fuel p s = (r, t) →
        CachePres fs n0 s t) := by
  intro fuel
  induction fuel with
  | zero =>
    constructor
    · intro n0 p b s r t h
      have h2 : ((.error .outOfFuel : Except JsErr EntryId), s) = (r, t) := h
      injection h2 with h21 h22
      exact CachePres.of_eq fs n0 s t h22.symm
    · intro n0 p s r t h
      have h2 : ((.error .outOfFuel : Except JsErr (Option EntryId)), s) = (r, t) := h
      injection h2 with h21 h22
      exact CachePres.of_eq fs n0 s t h22.symm
  | succ fuel ih =>
    obtain ⟨ihp, ihn⟩ := ih
    have hrp : ∀ m p1 b1 s1 r1 t1,
        PackageInfoCache.readPackage fs fuel p1 b1 s1 = (r1, t1) →
        CachePres fs m s1 t1 := fun m p1 b1 s1 r1 t1 hh => ihp m p1 b1 s1 r1 t1 hh
    have hrnml : ∀ m p1 s1 r1 t1,
        PackageInfoCache.readNodeModulesList fs fuel p1 s1 = (r1, t1) →
        CachePres fs m s1 t1 := fun m p1 s1 r1 t1 hh => ihn m p1 s1 r1 t1 hh
    constructor
    · intro n0 p b s r t h
      unfold PackageInfoCache.readPackage at h
      simp only [M_bind_eq, M_bind_apply, getC_apply] at h
      rcases he : s.getEntry p with _ | i
      · rw [he] at h
        simp only at h
        rcases hrd : fs.realDir p with _ | realPath
        · rw [hrd] at h
          simp only at h
          unfold PackageInfoCache.readPackageNew at h
          exact pres_readPackageTail hrp hrnml (Or.inr hrd) he h
        · rw [hrd] at h
          simp only at h
          by_cases hrp2 : realPath = p
          · rw [if_pos hrp2] at h
            unfold PackageInfoCache.readPackageNew at h
            refine pres_readPackageTail hrp hrnml (Or.inl ?_) ?_ h
            · rw [hrp2] at hrd ⊢; exact hrd
            · rw [hrp2]; exact he
          · rw [if_neg hrp2] at h
            rcases he2 : s.getEntry realPath with _ | i2
            · rw [he2] at h
              simp only at h
              unfold PackageInfoCache.readPackageNew at h
              exact pres_readPackageTail hrp hrnml (Or.inl (hIdem p realPath hrd)) he2 h
            · rw [he2] at h
              simp only at h
              rcases hgd : s.getData i2 with _ | e2
              · rw [hgd] at h
                simp only at h
                injection h with h1 h2
                exact CachePres.of_eq fs n0 s t h2.symm
              · rw [hgd] at h
                cases e2 with
                | pkg d =>
                  simp only [M_pure_apply] at h
                  injection h with h1 h2
                  exact CachePres.of_eq fs n0 s t h2.symm
                | nml l =>
                  simp only at h
                  injection h with h1 h2
                  exact CachePres.of_eq fs n0 s t h2.symm
      · rw [he] at h
        simp only at h
        rcases hgd : s.getData i with _ | e2
        · rw [hgd] at h
          simp only at h
          injection h with h1 h2
          exact CachePres.of_eq fs n0 s t h2.symm
        · rw [hgd] at h
          cases e2 with
          | pkg d =>
            simp only [M_pure_apply] at h
            injection h with h1 h2
            exact CachePres.of_eq fs n0 s t h2.symm
          | nml l =>
            simp only at h
            injection h with h1 h2
            exact CachePres.of_eq fs n0 s t h2.symm
    · intro n0 p s r t h
      unfold PackageInfoCache.readNodeModulesList at h
      simp only [M_bind_eq, M_bind_apply, getC_apply] at h
      rcases he : s.getEntry p with _ | i
      · rw [he] at h
        simp only at h
        rcases hrd : fs.realDir p with _ | realPath
        · rw [hrd] at h
          simp only [M_pure_apply] at h
          injection h with h1 h2
          exact CachePres.of_eq fs n0 s t h2.symm
        · rw [hrd] at h
          simp only at h
          by_cases hrp2 : realPath = p
          · rw [if_pos hrp2] at h
            refine pres_readNodeModulesListNew hrp hrnml (Or.inl ?_) ?_ h
            · rw [hrp2] at hrd ⊢; exact hrd
            · intro j hb
              rw [hrp2, show alGet s.entries p = s.getEntry p from rfl, he] at hb
              exact Option.noConfusion hb
          · rw [if_neg hrp2] at h
            rcases he2 : s.getEntry realPath with _ | i2
            · rw [he2] at h
              simp only at h
              refine pres_readNodeModulesListNew hrp hrnml
                (Or.inl (hIdem p realPath hrd)) ?_ h
              intro j hb
              rw [show alGet s.entries realPath = s.getEntry realPath from rfl, he2] at hb
              exact Option.noConfusion hb
            · rw [he2] at h
              simp only at h
              rcases hgd : s.getData i2 with _ | e2
              · rw [hgd] at h
                simp only at h
                refine pres_readNodeModulesListNew hrp hrnml
                  (Or.inl (hIdem p realPath hrd)) ?_ h
                intro j hb
                have hji : j = i2 := by
                  rw [show alGet s.entries realPath = s.getEntry realPath from rfl,
                    he2] at hb
                  exact ((Option.some.injEq _ _).mp hb).symm
                rw [hji]
                exact hgd
              · rw [hgd] at h
                cases e2 with
                | pkg d =>
                  simp only at h
                  injection h with h1 h2
                  exact CachePres.of_eq fs n0 s t h2.symm
                | nml l =>
                  simp only [M_pure_apply] at h
                  injection h with h1 h2
                  exact CachePres.of_eq fs n0 s t h2.symm
      · rw [he] at h
        simp only at h
        rcases hgd : s.getData i with _ | e2
        · rw [hgd] at h
          simp only at h
          injection h with h1 h2
          exact CachePres.of_eq fs n0 s t h2.symm
        · rw [hgd] at h
          cases e2 with
          | pkg d =>
            simp only at h
            injection h with h1 h2
            exact CachePres.of_eq fs n0 s t h2.symm
          | nml l =>
            simp only [M_pure_apply] at h
            injection h with h1 h2
            exact CachePres.of_eq fs n0 s t h2.symm

theorem pres_findPackageGo (fs : FS) (hIdem : fs.RealIdem) (fuel : Nat)
    (name : Str) :
    ∀ (cnt : Nat) (p : FsPath) (n0 : Nat) (s : PackageInfoCache)
      (r : Except JsErr (Option EntryId)) (t : PackageInfoCache),
      PackageInfoCache.findPackageGo fs fuel name cnt p s = (r, t) →
      CachePres fs n0 s t := by
  intro cnt
  induction cnt with
  | zero =>
    intro p n0 s r t h
    cases p with
    | nil =>
      have h2 : ((.ok none : Except JsErr (Option EntryId)), s) = (r, t) := h
      injection h2 with h21 h22
      exact CachePres.of_eq fs n0 s t h22.symm
    | cons seg rest =>
      have h2 : ((.ok none : Except JsErr (Option EntryId)), s) = (r, t) := h
      injection h2 with h21 h22
      exact CachePres.of_eq fs n0 s t h22.symm
  | succ n ihc =>
    intro p n0 s r t h
    cases p with
    | nil =>
      have h2 : ((.ok none : Except JsErr (Option EntryId)), s) = (r, t) := h
      injection h2 with h21 h22
      exact CachePres.of_eq fs n0 s t h22.symm
    | cons seg rest =>
      unfold PackageInfoCache.findPackageGo at h
      simp only [M_bind_eq, M_bind_apply, getC_apply] at h
      have hRest : ∀ (sx : PackageInfoCache),
          PackageInfoCache.findPackageGo fs fuel name n
            (pathDirname (seg :: rest)) sx = (r, t) →
          CachePres fs n0 sx t := fun sx hh => ihc _ n0 sx r t hh
      by_cases hEnd : pathBasename (seg :: rest) = nmSeg
      case pos =>
        simp only [if_pos hEnd] at h
        rcases hx : PackageInfoCache.readNodeModulesList fs fuel (seg :: rest) s
            with ⟨rx, sx⟩
        rw [hx] at h
        have hE : CachePres fs n0 s sx :=
          (enginePres fs hIdem fuel).2 n0 _ s rx sx hx
        cases rx with
        | error e =>
          simp only at h
          injection h with h1 h2
          exact h2 ▸ hE
        | ok nm =>
          simp only at h
          cases nm with
          | none => exact hE.trans (hRest sx h)
          | some listId =>
            simp only [M_bind_eq, M_bind_apply, getC_apply] at h
            rcases hnd : sx.nmlData listId with _ | l
            · rw [hnd] at h
              exact hE.trans (hRest sx h)
            · rw [hnd] at h
              simp only at h
              rcases hfp : NodeModulesList.findPackage sx.store l (some name)
                  with e | v
              · rw [hfp] at h
                simp only at h
                injection h with h1 h2
                exact h2 ▸ hE
              · rw [hfp] at h
                cases v with
                | none =>
                  simp only at h
                  exact hE.trans (hRest sx h)
                | some pkg =>
                  simp only [M_pure_apply] at h
                  injection h with h1 h2
                  exact h2 ▸ hE
      case neg =>
        simp only [if_neg hEnd] at h
        rcases hx : PackageInfoCache.readNodeModulesList fs fuel
            ((seg :: rest) ++ [nmSeg]) s with ⟨rx, sx⟩
        rw [hx] at h
        have hE : CachePres fs n0 s sx :=
          (enginePres fs hIdem fuel).2 n0 _ s rx sx hx
        cases rx with
        | error e =>
          simp only at h
          injection h with h1 h2
          exact h2 ▸ hE
        | ok nm =>
          simp only at h
          cases nm with
          | none => exact hE.trans (hRest sx h)
          | some listId =>
            simp only [M_bind_eq, M_bind_apply, getC_apply] at h
            rcases hnd : sx.nmlData listId with _ | l
            · rw [hnd] at h
              exact hE.trans (hRest sx h)
            · rw [hnd] at h
              simp only at h
              rcases hfp : NodeModulesList.findPackage sx.store l (some name)
                  with e | v
              · rw [hfp] at h
                simp only at h
                injection h with h1 h2
                exact h2 ▸ hE
              · rw [hfp] at h
                cases v with
                | none =>
                  simp only at h
                  exact hE.trans (hRest sx h)
                | some pkg =>
                  simp only [M_pure_apply] at h
                  injection h with h1 h2
                  exact h2 ▸ hE

theorem pres_findPackage (fs : FS) (hIdem : fs.RealIdem) (fuel : Nat)
    (name : Str) (startPath : FsPath) (n0 : Nat) (s : PackageInfoCache)
    (r : Except JsErr (Option EntryId)) (t : PackageInfoCache)
    (h : PackageInfoCache.findPackage fs fuel name startPath s = (r, t)) :
    CachePres fs n0 s t :=
  pres_findPackageGo fs hIdem fuel name startPath.length startPath n0 s r t h

theorem pres_resolveDependencyName (fs : FS) (hIdem : fs.RealIdem) (fuel : Nat)
    (selfId : EntryId) (name : Str) (n0 : Nat) (s : PackageInfoCache)
    (r : Except JsErr (Option EntryId)) (t : PackageInfoCache)
    (h : PackageInfo.resolveDependencyName fs fuel selfId name s = (r, t)) :
    CachePres fs n0 s t := by
  unfold PackageInfo.resolveDependencyName at h
  simp only [M_bind_eq, M_bind_apply, getC_apply] at h
  rcases hpd : s.pkgData selfId with _ | d
  · rw [hpd] at h
    simp only [M_pure_apply] at h
    injection h with h1 h2
    exact CachePres.of_eq fs n0 s t h2.symm
  · rw [hpd] at h
    simp only at h
    have hTail : ∀ (oh : Option EntryId),
        (match oh with
          | some dependencyPackage => M.pure (some dependencyPackage)
          | none => PackageInfoCache.findPackage fs fuel name
              (pathDirname d.realPath)) s = (r, t) →
        CachePres fs n0 s t := by
      intro oh hh
      cases oh with
      | some dp =>
        simp only [M_pure_apply] at hh
        injection hh with h1 h2
        exact CachePres.of_eq fs n0 s t h2.symm
      | none => exact pres_findPackage fs hIdem fuel name _ n0 s r t hh
    rcases hnm : d.nodeModules with _ | ref
    · rw [hnm] at h
      simp only [M_pure_apply] at h
      exact hTail none h
    · rw [hnm] at h
      simp only at h
      rcases hdn : derefNml s ref with _ | l
      · rw [hdn] at h
        simp only [M_pure_apply] at h
        exact hTail none h
      · rw [hdn] at h
        simp only [M_bind_eq, M_bind_apply] at h
        rcases hfp : NodeModulesList.findPackage s.store l (some name) with e | v
        · rw [hfp] at h
          simp only [liftEx, throwM] at h
          injection h with h1 h2
          exact CachePres.of_eq fs n0 s t h2.symm
        · rw [hfp] at h
          simp only [liftEx, M_pure_apply] at h
          exact hTail v h

theorem pkgData_of_store {s : PackageInfoCache} {i : EntryId} {d : PackageInfo}
    (h : alGet s.store i = some (.pkg d)) : s.pkgData i = some d := by
  unfold PackageInfoCache.pkgData PackageInfoCache.getData
  rw [h]

theorem store_of_pkgData {s : PackageInfoCache} {i : EntryId} {d : PackageInfo}
    (h : s.pkgData i = some d) : alGet s.store i = some (.pkg d) := by
  unfold PackageInfoCache.pkgData PackageInfoCache.getData at h
  rcases hg : alGet s.store i with _ | e
  · rw [hg] at h
    exact Option.noConfusion h
  · rw [hg] at h
    cases e with
    | pkg dp => cases h; rfl
    | nml l => exact Option.noConfusion h

theorem pres_resolveOneDep (fs : FS) (hIdem : fs.RealIdem) (fuel : Nat)
    (selfId : EntryId) (n0 : Nat) :
    ∀ acc b s r t, PackageInfo.resolveOneDep fs fuel selfId acc b s = (r, t) →
      CachePres fs n0 s t := by
  intro acc b s r t h
  unfold PackageInfo.resolveOneDep at h
  simp only [M_bind_eq, M_bind_apply] at h
  rcases hx : PackageInfo.resolveDependencyName fs fuel selfId b s with ⟨rx, sx⟩
  rw [hx] at h
  have hE : CachePres fs n0 s sx :=
    pres_resolveDependencyName fs hIdem fuel selfId b n0 s rx sx hx
  cases rx with
  | error e =>
    simp only at h
    injection h with h1 h2
    exact h2 ▸ hE
  | ok v =>
    cases v with
    | some dp =>
      simp only [M_pure_apply] at h
      injection h with h1 h2
      exact h2 ▸ hE
    | none =>
      simp only [M_pure_apply] at h
      injection h with h1 h2
      exact h2 ▸ hE

theorem resolvePres_of_cachePres {fs : FS} {s t : PackageInfoCache}
    (h : CachePres fs s.nextId s t) : ResolvePres fs s t := by
  refine ⟨h.wf, h.sbind, h.dom, ?_, h.mono⟩
  intro hwf i d hb
  exact ⟨d, h.store hwf i _ (freshOk_lt hwf hb) hb, id⟩

theorem resolvePres_of_eq (fs : FS) (s t : PackageInfoCache) (h : t = s) :
    ResolvePres fs s t := h ▸ resolvePres_rfl fs s

theorem resolvePres_trans {fs : FS} {s t u : PackageInfoCache}
    (h1 : ResolvePres fs s t) (h2 : ResolvePres fs t u) : ResolvePres fs s u := by
  refine ⟨fun hwf => h2.wf (h1.wf hwf), ?_, fun i hi => h2.dom i (h1.dom i hi),
    ?_, le_trans h1.mono h2.mono⟩
  · intro hwf k i e hbind hstore
    have hbt := h1.sbind hwf k i e hbind hstore
    have hdt : (alGet t.store i).isSome := h1.dom i (by rw [hstore]; rfl)
    rcases ht : alGet t.store i with _ | e2
    · rw [ht] at hdt; exact absurd hdt (by simp)
    · exact h2.sbind (h1.wf hwf) k i e2 hbt ht
  · intro hwf i d hb
    obtain ⟨d2, hb2, hp2⟩ := h1.kindP hwf i d hb
    obtain ⟨d3, hb3, hp3⟩ := h2.kindP (h1.wf hwf) i d2 hb2
    exact ⟨d3, hb3, fun hp => hp3 (hp2 hp)⟩

theorem resolvePres_modifyPkg {fs : FS} {i0 : EntryId}
    {f : PackageInfo → PackageInfo} {s : PackageInfoCache}
    {r : Except JsErr Unit} {t : PackageInfoCache}
    (hf : ∀ d, d.processed = true → (f d).processed = true)
    (h : modifyPkg i0 f s = (r, t)) : ResolvePres fs s t := by
  unfold modifyPkg at h
  rcases hd : s.pkgData i0 with _ | d0
  · rw [hd] at h
    exact resolvePres_of_eq fs s t (congrArg Prod.snd h).symm
  · rw [hd] at h
    have ht : t = s.setData i0 (.pkg (f d0)) := (congrArg Prod.snd h).symm
    have hb0 : alGet s.store i0 = some (.pkg d0) := store_of_pkgData hd
    subst ht
    refine ⟨fun hwf => wf_setData_bound hwf hb0, ?_, ?_, ?_, le_refl _⟩
    · intro _ k i e hbind _
      exact hbind
    · intro i hi
      show (alGet (alSet s.store i0 (.pkg (f d0))) i).isSome
      by_cases hii : i = i0
      · subst hii; rw [alGet_alSet_self]; rfl
      · rw [alGet_alSet_ne _ _ _ _ hii]; exact hi
    · intro _ i d hb
      by_cases hii : i = i0
      · rw [hii] at hb
        rw [hb0] at hb
        injection hb with hb
        injection hb with hb
        refine ⟨f d0, ?_, ?_⟩
        · rw [hii]
          show alGet (alSet s.store i0 (.pkg (f d0))) i0 = some (.pkg (f d0))
          exact alGet_alSet_self _ _ _
        · intro hp
          exact hf d0 (hb ▸ hp)
      · refine ⟨d, ?_, id⟩
        show alGet (alSet s.store i0 (.pkg (f d0))) i = some (.pkg d)
        rw [alGet_alSet_ne _ _ _ _ hii]
        exact hb

theorem pres_doAdd (fs : FS) (hIdem : fs.RealIdem) (fuel : Nat)
    (selfId : EntryId) (obj : Option Json) (errT : Str) :
    ∀ s r t, PackageInfo.doAddDependencies fs fuel selfId obj errT s = (r, t) →
      ResolvePres fs s t := by
  intro s r t h
  unfold PackageInfo.doAddDependencies at h
  rcases obj with _ | dj
  · have h2 : ((.ok none : Except JsErr (Option (List (Str × EntryId)))), s) =
        (r, t) := h
    injection h2 with h21 h22
    exact resolvePres_of_eq fs s t h22.symm
  · by_cases htr : truthy dj = true
    · simp only at h
      rw [if_neg (not_not_intro htr)] at h
      by_cases hnn : jsObjectKeys dj = []
      · rw [if_pos hnn] at h
        have h2 : ((.ok none : Except JsErr (Option (List (Str × EntryId)))), s) =
            (r, t) := h
        injection h2 with h21 h22
        exact resolvePres_of_eq fs s t h22.symm
      · rw [if_neg hnn] at h
        simp only [M_bind_eq, M_bind_apply] at h
        rcases hfold : List.foldlM (PackageInfo.resolveOneDep fs fuel selfId)
            ([], []) (jsObjectKeys dj) s with ⟨rf, sf⟩
        rw [hfold] at h
        have hF : ResolvePres fs s sf := resolvePres_of_cachePres
          (pres_foldlM fs s.nextId _ (pres_resolveOneDep fs hIdem fuel selfId s.nextId)
            _ _ _ _ _ hfold)
        cases rf with
        | error e =>
          simp only at h
          injection h with h1 h2
          exact h2 ▸ hF
        | ok acc =>
          simp only at h
          by_cases hmiss : acc.2 ≠ []
          · rw [if_pos hmiss] at h
            rcases hmod : modifyPkg selfId
                (fun d => d.addError errT (.names acc.2)) sf with ⟨rm, sm⟩
            rw [hmod] at h
            have hM : ResolvePres fs sf sm := by
              refine resolvePres_modifyPkg ?_ hmod
              intro d hp
              exact hp
            cases rm with
            | error e =>
              simp only at h
              injection h with h1 h2
              exact h2 ▸ resolvePres_trans hF hM
            | ok u =>
              simp only [M_pure_apply] at h
              injection h with h1 h2
              exact h2 ▸ resolvePres_trans hF hM
          · rw [if_neg hmiss] at h
            simp only [M_pure_apply] at h
            injection h with h1 h2
            exact h2 ▸ hF
    · simp only at h
      rw [if_pos htr] at h
      have h2 : ((.ok none : Except JsErr (Option (List (Str × EntryId)))), s) =
          (r, t) := h
      injection h2 with h21 h22
      exact resolvePres_of_eq fs s t h22.symm

theorem pres_resolveStep (fs : FS) (hIdem : fs.RealIdem) (fuel : Nat)
    (j : EntryId) :
    ∀ s r t, PackageInfoCache.resolveStep fs fuel j s = (r, t) →
      ResolvePres fs s t := by
  intro s r t h
  unfold PackageInfoCache.resolveStep at h
  simp only [M_bind_eq, M_bind_apply, getC_apply] at h
  rcases hpd : s.pkgData j with _ | d
  · rw [hpd] at h
    simp only [M_pure_apply] at h
    injection h with h1 h2
    exact resolvePres_of_eq fs s t h2.symm
  · rw [hpd] at h
    simp only at h
    by_cases hproc : d.processed = true
    · rw [if_pos hproc] at h
      simp only [M_pure_apply] at h
      injection h with h1 h2
      exact resolvePres_of_eq fs s t h2.symm
    · rw [if_neg hproc] at h
      simp only [M_bind_eq, M_bind_apply] at h
      rcases hadd : PackageInfo.addDependencies fs fuel j
          (jsonField d.packageJson (strOf "dependencies")) s with ⟨ra, sa⟩
      rw [hadd] at h
      have hA : ResolvePres fs s sa := pres_doAdd fs hIdem fuel j _ _ s ra sa hadd
      cases ra with
      | error e =>
        simp only at h
        injection h with h1 h2
        exact h2 ▸ hA
      | ok pkgs =>
        simp only at h
        rcases hm1 : modifyPkg j (fun d2 => { d2 with dependenciesPackages := pkgs }) sa
            with ⟨rm1, sm1⟩
        rw [hm1] at h
        have hM1 : ResolvePres fs sa sm1 := by
          refine resolvePres_modifyPkg ?_ hm1
          intro d2 hp
          exact hp
        cases rm1 with
        | error e =>
          simp only at h
          injection h with h1 h2
          exact h2 ▸ resolvePres_trans hA hM1
        | ok u1 =>
          simp only at h
          by_cases hroot : d.isRoot = true
          · rw [if_pos hroot] at h
            simp only [M_bind_eq, M_bind_apply] at h
            rcases hdev : PackageInfo.addDevDependencies fs fuel j
                (jsonField d.packageJson (strOf "devDependencies")) sm1 with ⟨rd, sd⟩
            rw [hdev] at h
            have hD : ResolvePres fs sm1 sd :=
              pres_doAdd fs hIdem fuel j _ _ sm1 rd sd hdev
            cases rd with
            | error e =>
              simp only at h
              injection h with h1 h2
              exact h2 ▸ resolvePres_trans hA (resolvePres_trans hM1 hD)
            | ok devPkgs =>
              simp only at h
              rcases hm2 : modifyPkg j
                  (fun d2 => { d2 with devDependenciesPackages := devPkgs }) sd
                  with ⟨rm2, sm2⟩
              rw [hm2] at h
              have hM2 : ResolvePres fs sd sm2 := by
                refine resolvePres_modifyPkg ?_ hm2
                intro d2 hp
                exact hp
              cases rm2 with
              | error e =>
                simp only at h
                injection h with h1 h2
                exact h2 ▸ resolvePres_trans hA (resolvePres_trans hM1 (resolvePres_trans hD hM2))
              | ok u2 =>
                simp only at h
                rcases hm3 : modifyPkg j (fun d2 => { d2 with processed := true }) sm2
                    with ⟨rm3, sm3⟩
                rw [hm3] at h
                have hM3 : ResolvePres fs sm2 sm3 := by
                  refine resolvePres_modifyPkg ?_ hm3
                  intro d2 hp
                  rfl
                cases rm3 with
                | error e =>
                  injection h with h1 h2
                  exact h2 ▸ resolvePres_trans hA (resolvePres_trans hM1 (resolvePres_trans hD (resolvePres_trans hM2 hM3)))
                | ok u3 =>
                  injection h with h1 h2
                  exact h2 ▸ resolvePres_trans hA (resolvePres_trans hM1 (resolvePres_trans hD (resolvePres_trans hM2 hM3)))
          · rw [if_neg hroot] at h
            simp only [M_bind_eq, M_bind_apply, M_pure_apply] at h
            rcases hm3 : modifyPkg j (fun d2 => { d2 with processed := true }) sm1
                with ⟨rm3, sm3⟩
            rw [hm3] at h
            have hM3 : ResolvePres fs sm1 sm3 := by
              refine resolvePres_modifyPkg ?_ hm3
              intro d2 hp
              rfl
            cases rm3 with
            | error e =>
              injection h with h1 h2
              exact h2 ▸ resolvePres_trans hA (resolvePres_trans hM1 hM3)
            | ok u3 =>
              injection h with h1 h2
              exact h2 ▸ resolvePres_trans hA (resolvePres_trans hM1 hM3)

theorem resolvePres_forM {β : Type} {fs : FS} (f : β → M Unit)
    (hf : ∀ b s r t, f b s = (r, t) → ResolvePres fs s t) :
    ∀ (l : List β) (s : PackageInfoCache) (r : Except JsErr Unit)
      (t : PackageInfoCache), List.forM l f s = (r, t) → ResolvePres fs s t := by
  intro l
  induction l with
  | nil =>
    intro s r t h
    simp only [List.forM, M_pure_eq, M_pure_apply] at h
    injection h with h1 h2
    exact resolvePres_of_eq fs s t h2.symm
  | cons b bs ih =>
    intro s r t h
    simp only [List.forM, M_bind_eq, M_bind_apply] at h
    rcases hx : f b s with ⟨rx, sx⟩
    rw [hx] at h
    cases rx with
    | error e =>
      simp only at h
      injection h with h1 h2
      exact h2 ▸ hf b s _ _ hx
    | ok u =>
      simp only at h
      exact resolvePres_trans (hf b s _ _ hx) (ih sx r t h)

theorem pres_resolveDependencies (fs : FS) (hIdem : fs.RealIdem) (fuel : Nat) :
    ∀ s r t, PackageInfoCache.resolveDependencies fs fuel s = (r, t) →
      ResolvePres fs s t := by
  intro s r t h
  unfold PackageInfoCache.resolveDependencies at h
  simp only [M_bind_eq, M_bind_apply, getC_apply] at h
  exact resolvePres_forM _ (pres_resolveStep fs hIdem fuel) _ s r t h

theorem modifyPkg_node_effect {j : EntryId} {f : PackageInfo → PackageInfo}
    {s : PackageInfoCache} {r : Except JsErr Unit} {t : PackageInfoCache}
    {i : EntryId} {di : PackageInfo} (h : modifyPkg j f s = (r, t))
    (hb : alGet s.store i = some (.pkg di)) :
    alGet t.store i = some (.pkg (if i = j then f di else di)) := by
  unfold modifyPkg at h
  rcases hpd : s.pkgData j with _ | dj
  · rw [hpd] at h
    have ht : t = s := (congrArg Prod.snd h).symm
    subst ht
    by_cases hij : i = j
    · exfalso
      rw [← hij] at hpd
      rw [pkgData_of_store hb] at hpd
      exact Option.noConfusion hpd
    · rw [if_neg hij]
      exact hb
  · rw [hpd] at h
    have ht : t = s.setData j (.pkg (f dj)) := (congrArg Prod.snd h).symm
    subst ht
    by_cases hij : i = j
    · have hdd : dj = di := by
        have h1 := store_of_pkgData hpd
        rw [← hij, hb] at h1
        injection h1 with h1
        injection h1 with h1
        exact h1.symm
      subst hdd
      rw [if_pos hij, hij]
      show alGet (alSet s.store j (.pkg (f dj))) j = some (.pkg (f dj))
      exact alGet_alSet_self _ _ _
    · rw [if_neg hij]
      show alGet (alSet s.store j (.pkg (f dj))) i = some (.pkg di)
      rw [alGet_alSet_ne _ _ _ _ hij]
      exact hb

theorem doAdd_node_effect (fs : FS) (hIdem : fs.RealIdem) (fuel : Nat)
    (selfId : EntryId) (obj : Option Json) (errT : Str) :
    ∀ s res t, PackageInfo.doAddDependencies fs fuel selfId obj errT s = (res, t) →
      CacheWF fs s → ∀ i di, alGet s.store i = some (.pkg di) →
      alGet t.store i = some (.pkg di) ∨
      (i = selfId ∧ ∃ miss, miss ≠ [] ∧
        alGet t.store i = some (.pkg (di.addError errT (.names miss)))) := by
  intro s res t h hwf i di hb
  unfold PackageInfo.doAddDependencies at h
  rcases obj with _ | dj
  · have h2 : ((.ok none : Except JsErr (Option (List (Str × EntryId)))), s) =
        (res, t) := h
    injection h2 with h21 h22
    exact Or.inl (h22 ▸ hb)
  · by_cases htr : truthy dj = true
    · simp only at h
      rw [if_neg (not_not_intro htr)] at h
      by_cases hnn : jsObjectKeys dj = []
      · rw [if_pos hnn] at h
        have h2 : ((.ok none : Except JsErr (Option (List (Str × EntryId)))), s) =
            (res, t) := h
        injection h2 with h21 h22
        exact Or.inl (h22 ▸ hb)
      · rw [if_neg hnn] at h
        simp only [M_bind_eq, M_bind_apply] at h
        rcases hfold : List.foldlM (PackageInfo.resolveOneDep fs fuel selfId)
            ([], []) (jsObjectKeys dj) s with ⟨rf, sf⟩
        rw [hfold] at h
        have hFp : CachePres fs s.nextId s sf :=
          pres_foldlM fs s.nextId _ (pres_resolveOneDep fs hIdem fuel selfId s.nextId)
            _ _ _ _ _ hfold
        have hkeep : alGet sf.store i = some (.pkg di) :=
          hFp.store hwf i _ (freshOk_lt hwf hb) hb
        cases rf with
        | error e =>
          simp only at h
          injection h with h1 h2
          exact Or.inl (h2 ▸ hkeep)
        | ok acc =>
          simp only at h
          by_cases hmiss : acc.2 ≠ []
          · rw [if_pos hmiss] at h
            rcases hmod : modifyPkg selfId
                (fun d => d.addError errT (.names acc.2)) sf with ⟨rm, sm⟩
            rw [hmod] at h
            have heff := modifyPkg_node_effect hmod hkeep
            cases rm with
            | error e =>
              simp only at h
              injection h with h1 h2
              subst h2
              by_cases hij : i = selfId
              · rw [if_pos hij] at heff
                exact Or.inr ⟨hij, acc.2, hmiss, heff⟩
              · rw [if_neg hij] at heff
                exact Or.inl heff
            | ok u =>
              simp only [M_pure_apply] at h
              injection h with h1 h2
              subst h2
              by_cases hij : i = selfId
              · rw [if_pos hij] at heff
                exact Or.inr ⟨hij, acc.2, hmiss, heff⟩
              · rw [if_neg hij] at heff
                exact Or.inl heff
          · rw [if_neg hmiss] at h
            simp only [M_pure_apply] at h
            injection h with h1 h2
            exact Or.inl (h2 ▸ hkeep)
    · simp only at h
      rw [if_pos htr] at h
      have h2 : ((.ok none : Except JsErr (Option (List (Str × EntryId)))), s) =
          (res, t) := h
      injection h2 with h21 h22
      exact Or.inl (h22 ▸ hb)

theorem resolveStep_node_effect (fs : FS) (hIdem : fs.RealIdem) (fuel : Nat)
    (j : EntryId) :
    ∀ s res t, PackageInfoCache.resolveStep fs fuel j s = (res, t) →
      CacheWF fs s → ∀ i di, alGet s.store i = some (.pkg di) →
      di.isRoot = false →
      ∃ d2, alGet t.store i = some (.pkg d2) ∧
        d2.devDependenciesPackages = di.devDependenciesPackages ∧
        d2.isRoot = false ∧
        ∃ extra, d2.errors = di.errors ++ extra ∧
          ∀ e, e ∈ extra → ErrorEntry.type e = ERROR_DEPENDENCIES_MISSING := by
  intro s res t h hwf i di hb hroot0
  unfold PackageInfoCache.resolveStep at h
  simp only [M_bind_eq, M_bind_apply, getC_apply] at h
  rcases hpd : s.pkgData j with _ | d
  · rw [hpd] at h
    simp only [M_pure_apply] at h
    injection h with h1 h2
    exact ⟨di, h2 ▸ hb, rfl, hroot0, [], (List.append_nil _).symm,
      fun e he => absurd he (List.not_mem_nil e)⟩
  · rw [hpd] at h
    simp only at h
    by_cases hproc : d.processed = true
    · rw [if_pos hproc] at h
      simp only [M_pure_apply] at h
      injection h with h1 h2
      exact ⟨di, h2 ▸ hb, rfl, hroot0, [], (List.append_nil _).symm,
        fun e he => absurd he (List.not_mem_nil e)⟩
    · rw [if_neg hproc] at h
      simp only [M_bind_eq, M_bind_apply] at h
      rcases hadd : PackageInfo.addDependencies fs fuel j
          (jsonField d.packageJson (strOf "dependencies")) s with ⟨ra, sa⟩
      rw [hadd] at h
      have hA : ResolvePres fs s sa := pres_doAdd fs hIdem fuel j _ _ s ra sa hadd
      have heffA := doAdd_node_effect fs hIdem fuel j _ _ s ra sa hadd hwf i di hb
      -- the data of node i after the dependencies resolution
      have hstageA : ∃ da, alGet sa.store i = some (.pkg da) ∧
          da.devDependenciesPackages = di.devDependenciesPackages ∧
          da.isRoot = false ∧
          ∃ extra, da.errors = di.errors ++ extra ∧
            ∀ e, e ∈ extra → ErrorEntry.type e = ERROR_DEPENDENCIES_MISSING := by
        rcases heffA with hL | ⟨hij, miss, hmne, hR⟩
        · exact ⟨di, hL, rfl, hroot0, [], (List.append_nil _).symm,
            fun e he => absurd he (List.not_mem_nil e)⟩
        · refine ⟨di.addError ERROR_DEPENDENCIES_MISSING (.names miss), hR, rfl,
            hroot0, [⟨ERROR_DEPENDENCIES_MISSING, .names miss⟩], rfl, ?_⟩
          intro e he
          rcases List.mem_singleton.mp he with rfl
          rfl
      obtain ⟨da, hba, hdeva, hroota, extraA, herrA, htyA⟩ := hstageA
      cases ra with
      | error e =>
        simp only at h
        injection h with h1 h2
        exact ⟨da, h2 ▸ hba, hdeva, hroota, extraA, herrA, htyA⟩
      | ok pkgs =>
        simp only at h
        rcases hm1 : modifyPkg j (fun d2 => { d2 with dependenciesPackages := pkgs }) sa
            with ⟨rm1, sm1⟩
        rw [hm1] at h
        have hM1 : ResolvePres fs sa sm1 := by
          refine resolvePres_modifyPkg ?_ hm1
          intro d2 hp
          exact hp
        have hbb := modifyPkg_node_effect hm1 hba
        have hstageB : ∃ db, alGet sm1.store i = some (.pkg db) ∧
            db.devDependenciesPackages = di.devDependenciesPackages ∧
            db.isRoot = false ∧
            ∃ extra, db.errors = di.errors ++ extra ∧
              ∀ e, e ∈ extra → ErrorEntry.type e = ERROR_DEPENDENCIES_MISSING := by
          by_cases hij : i = j
          · rw [if_pos hij] at hbb
            exact ⟨_, hbb, hdeva, hroota, extraA, herrA, htyA⟩
          · rw [if_neg hij] at hbb
            exact ⟨da, hbb, hdeva, hroota, extraA, herrA, htyA⟩
        obtain ⟨db, hbB, hdevB, hrootB, extraB, herrB, htyB⟩ := hstageB
        cases rm1 with
        | error e =>
          simp only at h
          injection h with h1 h2
          exact ⟨db, h2 ▸ hbB, hdevB, hrootB, extraB, herrB, htyB⟩
        | ok u1 =>
          simp only at h
          by_cases hrootj : d.isRoot = true
          · rw [if_pos hrootj] at h
            simp only [M_bind_eq, M_bind_apply] at h
            -- the node being stepped is the root, so it is not our non-root node
            have hij : i ≠ j := by
              intro hc
              have h1 := store_of_pkgData hpd
              rw [← hc, hb] at h1
              injection h1 with h1
              injection h1 with h1
              rw [← h1] at hrootj
              rw [hroot0] at hrootj
              exact Bool.noConfusion hrootj
            rcases hdev : PackageInfo.addDevDependencies fs fuel j
                (jsonField d.packageJson (strOf "devDependencies")) sm1 with ⟨rd, sd⟩
            rw [hdev] at h
            have heffD := doAdd_node_effect fs hIdem fuel j _ _ sm1 rd sd hdev
              (hM1.wf (hA.wf hwf)) i db hbB
            have hbD : alGet sd.store i = some (.pkg db) := by
              rcases heffD with hL | ⟨hc, _⟩
              · exact hL
              · exact absurd hc hij
            cases rd with
            | error e =>
              simp only at h
              injection h with h1 h2
              exact ⟨db, h2 ▸ hbD, hdevB, hrootB, extraB, herrB, htyB⟩
            | ok devPkgs =>
              simp only at h
              rcases hm2 : modifyPkg j
                  (fun d2 => { d2 with devDependenciesPackages := devPkgs }) sd
                  with ⟨rm2, sm2⟩
              rw [hm2] at h
              have hbb2 := modifyPkg_node_effect hm2 hbD
              rw [if_neg hij] at hbb2
              cases rm2 with
              | error e =>
                simp only at h
                injection h with h1 h2
                exact ⟨db, h2 ▸ hbb2, hdevB, hrootB, extraB, herrB, htyB⟩
              | ok u2 =>
                simp only at h
                rcases hm3 : modifyPkg j (fun d2 => { d2 with processed := true }) sm2
                    with ⟨rm3, sm3⟩
                rw [hm3] at h
                have hbb3 := modifyPkg_node_effect hm3 hbb2
                rw [if_neg hij] at hbb3
                cases rm3 with
                | error e =>
                  injection h with h1 h2
                  exact ⟨db, h2 ▸ hbb3, hdevB, hrootB, extraB, herrB, htyB⟩
                | ok u3 =>
                  injection h with h1 h2
                  exact ⟨db, h2 ▸ hbb3, hdevB, hrootB, extraB, herrB, htyB⟩
          · rw [if_neg hrootj] at h
            simp only [M_bind_eq, M_bind_apply, M_pure_apply] at h
            rcases hm3 : modifyPkg j (fun d2 => { d2 with processed := true }) sm1
                with ⟨rm3, sm3⟩
            rw [hm3] at h
            have hbb3 := modifyPkg_node_effect hm3 hbB
            have hstageC : ∃ dc, alGet sm3.store i = some (.pkg dc) ∧
                dc.devDependenciesPackages = di.devDependenciesPackages ∧
                dc.isRoot = false ∧
                ∃ extra, dc.errors = di.errors ++ extra ∧
                  ∀ e, e ∈ extra → ErrorEntry.type e = ERROR_DEPENDENCIES_MISSING := by
              by_cases hij : i = j
              · rw [if_pos hij] at hbb3
                exact ⟨_, hbb3, hdevB, hrootB, extraB, herrB, htyB⟩
              · rw [if_neg hij] at hbb3
                exact ⟨db, hbb3, hdevB, hrootB, extraB, herrB, htyB⟩
            obtain ⟨dc, hbC, hdevC, hrootC, extraC, herrC, htyC⟩ := hstageC
            cases rm3 with
            | error e =>
              injection h with h1 h2
              exact ⟨dc, h2 ▸ hbC, hdevC, hrootC, extraC, herrC, htyC⟩
            | ok u3 =>
              injection h with h1 h2
              exact ⟨dc, h2 ▸ hbC, hdevC, hrootC, extraC, herrC, htyC⟩

theorem alGet_singleton {κ ν : Type} [DecidableEq κ] {a k : κ} {v : ν} {i : ν}
    (h : alGet [(a, v)] k = some i) : k = a ∧ i = v := by
  by_cases hak : a = k
  · subst hak
    simp [alGet] at h
    exact ⟨rfl, h.symm⟩
  · simp [alGet, hak] at h

theorem resolveRun_nonroot (fs : FS) (hIdem : fs.RealIdem) (fuel : Nat) :
    ∀ (L : List EntryId) (s : PackageInfoCache) (res : Except JsErr Unit)
      (t : PackageInfoCache),
      List.forM L (PackageInfoCache.resolveStep fs fuel) s = (res, t) →
      CacheWF fs s → ∀ i di, alGet s.store i = some (.pkg di) →
      di.isRoot = false →
      ∃ d2, alGet t.store i = some (.pkg d2) ∧
        d2.devDependenciesPackages = di.devDependenciesPackages ∧
        d2.isRoot = false ∧
        ∃ extra, d2.errors = di.errors ++ extra ∧
          ∀ e, e ∈ extra → ErrorEntry.type e = ERROR_DEPENDENCIES_MISSING := by
  intro L
  induction L with
  | nil =>
    intro s res t h hwf i di hb hroot
    simp only [List.forM, M_pure_eq, M_pure_apply] at h
    injection h with h1 h2
    exact ⟨di, h2 ▸ hb, rfl, hroot, [], (List.append_nil _).symm,
      fun e he => absurd he (List.not_mem_nil e)⟩
  | cons b bs ih =>
    intro s res t h hwf i di hb hroot
    simp only [List.forM, M_bind_eq, M_bind_apply] at h
    rcases hx : PackageInfoCache.resolveStep fs fuel b s with ⟨rx, sx⟩
    rw [hx] at h
    obtain ⟨d2, hb2, hdev2, hroot2, extra1, herr1, hty1⟩ :=
      resolveStep_node_effect fs hIdem fuel b s rx sx hx hwf i di hb hroot
    cases rx with
    | error e =>
      simp only at h
      injection h with h1 h2
      exact ⟨d2, h2 ▸ hb2, hdev2, hroot2, extra1, herr1, hty1⟩
    | ok u =>
      simp only at h
      have hwfx : CacheWF fs sx :=
        (pres_resolveStep fs hIdem fuel b s _ sx hx).wf hwf
      obtain ⟨d3, hb3, hdev3, hroot3, extra2, herr2, hty2⟩ :=
        ih sx res t h hwfx i d2 hb2 hroot2
      refine ⟨d3, hb3, hdev3.trans hdev2, hroot3, extra1 ++ extra2, ?_, ?_⟩
      · rw [herr2, herr1, List.append_assoc]
      · intro e he
        rcases List.mem_append.mp he with he1 | he2
        · exact hty1 e he1
        · exact hty2 e he2

/-- C6: The resolution pass never resolves devDependencies of a non-root
node: for every node whose isRoot flag is false, after resolveDependencies
the node's devDependenciesPackages field is unchanged (no dev-dependency
edges were produced), and every ledger entry the pass added to the node is a
dependencies-missing entry, never a devDependencies-missing one. -/
theorem resolveDependencies_nonroot_dev (fs : FS) (hIdem : fs.RealIdem)
    (fuel : Nat) (s : PackageInfoCache) (res : Except JsErr Unit)
    (t : PackageInfoCache) (i : EntryId) (di : PackageInfo)
    (hwf : CacheWF fs s) (hb : alGet s.store i = some (.pkg di))
    (hroot : di.isRoot = false)
    (h : PackageInfoCache.resolveDependencies fs fuel s = (res, t)) :
    ∃ d2, alGet t.store i = some (.pkg d2) ∧
      d2.devDependenciesPackages = di.devDependenciesPackages ∧
      (∀ e, e ∈ d2.errors →
        e ∈ di.errors ∨ ErrorEntry.type e ≠ ERROR_DEVDEPENDENCIES_MISSING) := by
  unfold PackageInfoCache.resolveDependencies at h
  simp only [M_bind_eq, M_bind_apply, getC_apply] at h
  obtain ⟨d2, hb2, hdev2, hroot2, extra, herr, hty⟩ :=
    resolveRun_nonroot fs hIdem fuel s.getPackageInfos s res t h hwf i di hb hroot
  refine ⟨d2, hb2, hdev2, ?_⟩
  intro e he
  rw [herr] at he
  rcases List.mem_append.mp he with he1 | he2
  · exact Or.inl he1
  · right
    rw [hty e he2]
    decide

theorem resolveDependencies_nonroot_dev_witness :
    ∃ d2, alGet c6done.store 0 = some (.pkg d2) ∧
      d2.devDependenciesPackages = c6pkg.devDependenciesPackages ∧
      (∀ e, e ∈ d2.errors →
        e ∈ c6pkg.errors ∨ ErrorEntry.type e ≠ ERROR_DEVDEPENDENCIES_MISSING) := by
  refine resolveDependencies_nonroot_dev fsBare ?_ 1 c6cache (.ok ()) c6done 0
    c6pkg ?_ rfl rfl rfl
  · intro p r h
    by_cases hp : p = [strOf "proj"]
    · subst hp
      simp [fsBare] at h
      subst h
      simp [fsBare]
    · simp [fsBare, hp] at h
  · refine ⟨?_, ?_, ?_⟩
    · intro k i hbk
      obtain ⟨hk, hi⟩ := alGet_singleton hbk
      subst hk
      left
      rfl
    · intro i hi
      show alGet c6cache.store i = none
      have h0 : (0 : Nat) ≠ i := by
        intro hc
        rw [← hc] at hi
        exact absurd hi (by decide)
      simp [c6cache, alGet, h0]
    · show (c6cache.entries.map Prod.fst).Nodup
      decide

theorem resolveOneDep_cases {fs : FS} {fuel : Nat} {selfId : EntryId}
    {acc : List (Str × EntryId) × List Str} {nm : Str} {s : PackageInfoCache}
    {acc2 : List (Str × EntryId) × List Str} {s2 : PackageInfoCache}
    (h : PackageInfo.resolveOneDep fs fuel selfId acc nm s = (.ok acc2, s2)) :
    (∃ pid, acc2 = (alSet acc.1 nm pid, acc.2)) ∨ acc2 = (acc.1, acc.2 ++ [nm]) := by
  unfold PackageInfo.resolveOneDep at h
  simp only [M_bind_eq, M_bind_apply] at h
  rcases hx : PackageInfo.resolveDependencyName fs fuel selfId nm s with ⟨rx, sx⟩
  rw [hx] at h
  cases rx with
  | error e =>
    simp only at h
    exact absurd (congrArg Prod.fst h) (by simp)
  | ok v =>
    cases v with
    | some pid =>
      simp only [M_pure_apply] at h
      injection h with h1 h2
      injection h1 with h1
      exact Or.inl ⟨pid, h1.symm⟩
    | none =>
      simp only [M_pure_apply] at h
      injection h with h1 h2
      injection h1 with h1
      exact Or.inr h1.symm

theorem doAddFold_partition (fs : FS) (fuel : Nat) (selfId : EntryId) :
    ∀ (names : List Str) (acc : List (Str × EntryId) × List Str)
      (s : PackageInfoCache) (res : List (Str × EntryId) × List Str)
      (t : PackageInfoCache),
      List.foldlM (PackageInfo.resolveOneDep fs fuel selfId) acc names s =
        (.ok res, t) →
      names.Nodup → (∀ n, n ∈ names → n ∉ acc.1.map Prod.fst) →
      (res.1.map Prod.fst ++ res.2).Perm
        (acc.1.map Prod.fst ++ acc.2 ++ names) := by
  intro names
  induction names with
  | nil =>
    intro acc s res t h hnd hdis
    simp only [List.foldlM, M_pure_eq, M_pure_apply] at h
    injection h with h1 h2
    injection h1 with h1
    subst h1
    rw [List.append_nil]
  | cons nm names ih =>
    intro acc s res t h hnd hdis
    simp only [List.foldlM, M_bind_eq, M_bind_apply] at h
    rcases hx : PackageInfo.resolveOneDep fs fuel selfId acc nm s with ⟨rx, sx⟩
    rw [hx] at h
    cases rx with
    | error e =>
      simp only at h
      exact absurd (congrArg Prod.fst h) (by simp)
    | ok acc2 =>
      simp only at h
      have hnm : nm ∉ acc.1.map Prod.fst := hdis nm (List.mem_cons_self nm names)
      have hnd2 : names.Nodup := (List.nodup_cons.mp hnd).2
      have hnmn : nm ∉ names := (List.nodup_cons.mp hnd).1
      rcases resolveOneDep_cases hx with ⟨pid, hacc⟩ | hacc
      · have hfresh : alGet acc.1 nm = none := (alGet_none_iff acc.1 nm).mpr hnm
        have hkeys : acc2.1 = acc.1 ++ [(nm, pid)] := by
          rw [hacc]
          exact alSet_fresh acc.1 nm pid hfresh
        have hmiss2 : acc2.2 = acc.2 := by rw [hacc]
        have hdis2 : ∀ n, n ∈ names → n ∉ acc2.1.map Prod.fst := by
          intro n hn hmem
          rw [hkeys, List.map_append, List.mem_append] at hmem
          rcases hmem with hm | hm
          · exact hdis n (List.mem_cons_of_mem nm hn) hm
          · simp only [List.map_cons, List.map_nil, List.mem_singleton] at hm
            rw [hm] at hn
            exact hnmn hn
        have hIH := ih acc2 sx res t h hnd2 hdis2
        rw [hkeys, hmiss2, List.map_append] at hIH
        simp only [List.map_cons, List.map_nil] at hIH
        refine hIH.trans ?_
        have e1 : ((acc.1.map Prod.fst ++ [nm]) ++ acc.2) ++ names =
            acc.1.map Prod.fst ++ (nm :: (acc.2 ++ names)) := by
          simp [List.append_assoc]
        have e2 : (acc.1.map Prod.fst ++ acc.2) ++ (nm :: names) =
            acc.1.map Prod.fst ++ (acc.2 ++ (nm :: names)) := by
          rw [List.append_assoc]
        rw [e1, e2]
        exact List.Perm.append_left (acc.1.map Prod.fst) List.perm_middle.symm
      · have hkeys : acc2.1 = acc.1 := by rw [hacc]
        have hmiss2 : acc2.2 = acc.2 ++ [nm] := by rw [hacc]
        have hdis2 : ∀ n, n ∈ names → n ∉ acc2.1.map Prod.fst := by
          intro n hn
          rw [hkeys]
          exact hdis n (List.mem_cons_of_mem nm hn)
        have hIH := ih acc2 sx res t h hnd2 hdis2
        rw [hkeys, hmiss2] at hIH
        refine hIH.trans ?_
        have e : (acc.1.map Prod.fst ++ (acc.2 ++ [nm])) ++ names =
            (acc.1.map Prod.fst ++ acc.2) ++ (nm :: names) := by
          simp [List.append_assoc]
        rw [e]

/-- C2: The declared dependency names of a node are exactly partitioned by
doAddDependencies: when it completes (declared object truthy with at least
one name, names pairwise distinct, node stored in the cache), it returns the
hit map, the declared names are a permutation of the hit-map keys plus the
missing list (no name lost or duplicated), and the node's ledger gains
exactly one combined entry of the given error type holding the missing
names, only when at least one name failed to resolve. -/
theorem doAddDependencies_partition (fs : FS) (hIdem : fs.RealIdem)
    (fuel : Nat) (selfId : EntryId) (dj : Json) (errorType : Str)
    (s t : PackageInfoCache) (res : Option (List (Str × EntryId)))
    (d : PackageInfo) (hwf : CacheWF fs s)
    (hself : alGet s.store selfId = some (.pkg d))
    (hnd : (jsObjectKeys dj).Nodup) (htr : truthy dj = true)
    (hne : jsObjectKeys dj ≠ [])
    (h : PackageInfo.doAddDependencies fs fuel selfId (some dj) errorType s =
      (.ok res, t)) :
    ∃ pkgs missing, res = some pkgs ∧
      (jsObjectKeys dj).Perm (pkgs.map Prod.fst ++ missing) ∧
      (pkgs.map Prod.fst ++ missing).Nodup ∧
      alGet t.store selfId = some (.pkg
        (if missing = [] then d
         else d.addError errorType (.names missing))) := by
  unfold PackageInfo.doAddDependencies at h
  simp only at h
  rw [if_neg (not_not_intro htr), if_neg hne] at h
  simp only [M_bind_eq, M_bind_apply] at h
  rcases hfold : List.foldlM (PackageInfo.resolveOneDep fs fuel selfId)
      ([], []) (jsObjectKeys dj) s with ⟨rf, sf⟩
  rw [hfold] at h
  cases rf with
  | error e =>
    simp only at h
    exact absurd (congrArg Prod.fst h) (by simp)
  | ok acc =>
    simp only at h
    have hperm0 := doAddFold_partition fs fuel selfId (jsObjectKeys dj)
      ([], []) s acc sf hfold hnd (fun n _ hm => absurd hm (List.not_mem_nil n))
    simp only [List.map_nil, List.nil_append] at hperm0
    have hperm : (jsObjectKeys dj).Perm (acc.1.map Prod.fst ++ acc.2) :=
      hperm0.symm
    have hnodup : (acc.1.map Prod.fst ++ acc.2).Nodup := hperm.nodup_iff.mp hnd
    have hFp : CachePres fs s.nextId s sf :=
      pres_foldlM fs s.nextId _ (pres_resolveOneDep fs hIdem fuel selfId s.nextId)
        _ _ _ _ _ hfold
    have hkeep : alGet sf.store selfId = some (.pkg d) :=
      hFp.store hwf selfId _ (freshOk_lt hwf hself) hself
    by_cases hmiss : acc.2 ≠ []
    · rw [if_pos hmiss] at h
      rcases hmod : modifyPkg selfId
          (fun d2 => d2.addError errorType (.names acc.2)) sf with ⟨rm, sm⟩
      rw [hmod] at h
      have heff := modifyPkg_node_effect hmod hkeep
      rw [if_pos rfl] at heff
      cases rm with
      | error e =>
        simp only at h
        exact absurd (congrArg Prod.fst h) (by simp)
      | ok u =>
        simp only [M_pure_apply] at h
        injection h with h1 h2
        injection h1 with h1
        refine ⟨acc.1, acc.2, h1.symm, hperm, hnodup, ?_⟩
        rw [if_neg hmiss]
        exact h2 ▸ heff
    · rw [if_neg hmiss] at h
      simp only [M_pure_apply] at h
      injection h with h1 h2
      injection h1 with h1
      simp only [ne_eq, not_not] at hmiss
      refine ⟨acc.1, acc.2, h1.symm, hperm, hnodup, ?_⟩
      rw [if_pos hmiss]
      exact h2 ▸ hkeep

theorem fsBare_idem : fsBare.RealIdem := by
  intro p r h
  by_cases hp : p = [strOf "proj"]
  · subst hp
    simp [fsBare] at h
    subst h
    simp [fsBare]
  · simp [fsBare, hp] at h

theorem c2cache_wf : CacheWF fsBare c2cache := by
  refine ⟨?_, ?_, ?_⟩
  · intro k i hbk
    obtain ⟨hk, hi⟩ := alGet_singleton hbk
    subst hk
    left
    rfl
  · intro i hi
    have hi3 : 3 ≤ i := hi
    show alGet c2cache.store i = none
    have h0 : ¬((0 : EntryId) = i) := fun hc => by
      rw [← hc] at hi3
      exact absurd hi3 (by decide)
    have h1 : ¬((1 : EntryId) = i) := fun hc => by
      rw [← hc] at hi3
      exact absurd hi3 (by decide)
    have h2 : ¬((2 : EntryId) = i) := fun hc => by
      rw [← hc] at hi3
      exact absurd hi3 (by decide)
    simp [c2cache, alGet, h0, h1, h2]
  · show (c2cache.entries.map Prod.fst).Nodup
    decide

theorem doAddDependencies_partition_witness :
    ∃ pkgs missing, (some [(strOf "x", (2 : EntryId))] :
        Option (List (Str × EntryId))) = some pkgs ∧
      (jsObjectKeys c2depJson).Perm (pkgs.map Prod.fst ++ missing) ∧
      (pkgs.map Prod.fst ++ missing).Nodup ∧
      alGet c2done.store 0 = some (.pkg
        (if missing = [] then c2self
         else c2self.addError ERROR_DEPENDENCIES_MISSING (.names missing))) :=
  doAddDependencies_partition fsBare fsBare_idem 1 0 c2depJson
    ERROR_DEPENDENCIES_MISSING c2cache c2done (some [(strOf "x", 2)]) c2self
    c2cache_wf rfl (by decide) (by decide) (by decide) rfl

theorem resolvePres_setData_pkg {fs : FS} {s : PackageInfoCache} {i0 : EntryId}
    {d0 d1 : PackageInfo} (hb0 : alGet s.store i0 = some (.pkg d0))
    (hp : d0.processed = true → d1.processed = true) :
    ResolvePres fs s (s.setData i0 (.pkg d1)) := by
  refine ⟨fun hwf => wf_setData_bound hwf hb0, ?_, ?_, ?_, le_refl _⟩
  · intro _ k i e hbind _
    exact hbind
  · intro i hi
    show (alGet (alSet s.store i0 (.pkg d1)) i).isSome
    by_cases hii : i = i0
    · subst hii; rw [alGet_alSet_self]; rfl
    · rw [alGet_alSet_ne _ _ _ _ hii]; exact hi
  · intro _ i d hb
    by_cases hii : i = i0
    · refine ⟨d1, ?_, ?_⟩
      · rw [hii]
        show alGet (alSet s.store i0 (.pkg d1)) i0 = some (.pkg d1)
        exact alGet_alSet_self _ _ _
      · intro hpd
        refine hp ?_
        rw [hii, hb0] at hb
        injection hb with hb
        injection hb with hb
        rw [hb]
        exact hpd
    · refine ⟨d, ?_, id⟩
      show alGet (alSet s.store i0 (.pkg d1)) i = some (.pkg d)
      rw [alGet_alSet_ne _ _ _ _ hii]
      exact hb

theorem resolvePres_addInRepoAddonM {fs : FS} {selfId aid : EntryId}
    {s : PackageInfoCache} {r : Except JsErr Unit} {t : PackageInfoCache}
    (h : addInRepoAddonM selfId aid s = (r, t)) : ResolvePres fs s t := by
  unfold addInRepoAddonM at h
  rcases hd : s.pkgData selfId with _ | d
  · rw [hd] at h
    exact resolvePres_of_eq fs s t (congrArg Prod.snd h).symm
  · rw [hd] at h
    have hb : alGet s.store selfId = some (.pkg d) := store_of_pkgData hd
    cases hk : d.kind <;> simp only [hk] at h <;>
      first
        | (injection h with h1 h2
           exact h2 ▸ resolvePres_setData_pkg hb (fun hp => hp))
        | exact resolvePres_of_eq fs s t (congrArg Prod.snd h).symm

theorem resolvePres_inRepoStep {fs : FS} (hIdem : fs.RealIdem) {fuel : Nat}
    {selfId : EntryId} {realPath : FsPath} :
    ∀ p s r t, PackageInfoCache.inRepoStep fs
        (PackageInfoCache.readPackage fs fuel) selfId realPath p s = (r, t) →
      ResolvePres fs s t := by
  intro p s r t h
  unfold PackageInfoCache.inRepoStep at h
  simp only [M_bind_eq, M_bind_apply, getC_apply] at h
  rcases hx : PackageInfoCache.readPackage fs fuel (joinRel realPath p) false s
      with ⟨rx, sx⟩
  rw [hx] at h
  have hE : ResolvePres fs s sx := resolvePres_of_cachePres
    ((enginePres fs hIdem fuel).1 s.nextId _ _ s rx sx hx)
  cases rx with
  | error e =>
    simp only at h
    injection h with h1 h2
    exact h2 ▸ hE
  | ok a =>
    simp only at h
    rcases hpd : sx.pkgData a with _ | ad
    · rw [hpd] at h
      simp only [M_pure_apply] at h
      injection h with h1 h2
      exact h2 ▸ hE
    · rw [hpd] at h
      by_cases hcond : ad.kind = .emberAddon ∨ ad.kind = .emberEngine
      · simp only [if_pos hcond] at h
        exact resolvePres_trans hE (resolvePres_addInRepoAddonM h)
      · simp only [if_neg hcond] at h
        refine resolvePres_trans hE (resolvePres_modifyPkg ?_ h)
        intro d hp
        exact hp

theorem resolvePres_inRepoPhase {fs : FS} (hIdem : fs.RealIdem) {fuel : Nat}
    {selfId : EntryId} {realPath : FsPath} {np : PackageInfo} :
    ∀ s r t, PackageInfoCache.inRepoPhase fs
        (PackageInfoCache.readPackage fs fuel) selfId realPath np s = (r, t) →
      ResolvePres fs s t := by
  intro s r t h
  unfold PackageInfoCache.inRepoPhase at h
  by_cases hc : isStringArray
      (getObjectProperty (some np.packageJson) (strOf "ember-addon.paths")) = true
  · simp only [if_pos hc] at h
    rcases hp : getObjectProperty (some np.packageJson) (strOf "ember-addon.paths")
        with _ | pj
    · rw [hp] at h
      simp only [M_pure_apply] at h
      exact resolvePres_of_eq fs s t (congrArg Prod.snd h).symm
    · rw [hp] at h
      exact resolvePres_forM _ (resolvePres_inRepoStep hIdem) _ _ _ _ h
  · simp only [if_neg hc] at h
    simp only [M_pure_apply] at h
    exact resolvePres_of_eq fs s t (congrArg Prod.snd h).symm

theorem resolvePres_nmPhase {fs : FS} (hIdem : fs.RealIdem) {fuel : Nat}
    {selfId : EntryId} {realPath : FsPath} {np : PackageInfo} :
    ∀ s r t, PackageInfoCache.nmPhase fs
        (PackageInfoCache.readNodeModulesList fs fuel) selfId realPath np s =
        (r, t) →
      ResolvePres fs s t := by
  intro s r t h
  unfold PackageInfoCache.nmPhase at h
  by_cases hc : np.kind = .emberAddon ∨ np.kind = .emberEngine ∨ np.kind = .emberApp
  · simp only [if_pos hc, M_bind_eq, M_bind_apply] at h
    rcases hx : PackageInfoCache.readNodeModulesList fs fuel (realPath ++ [nmSeg]) s
        with ⟨rx, sx⟩
    rw [hx] at h
    have hE : ResolvePres fs s sx := resolvePres_of_cachePres
      ((enginePres fs hIdem fuel).2 s.nextId _ s rx sx hx)
    cases rx with
    | error e =>
      simp only at h
      injection h with h1 h2
      exact h2 ▸ hE
    | ok nm =>
      simp only at h
      cases nm with
      | none =>
        simp only [M_pure_apply] at h
        injection h with h1 h2
        exact h2 ▸ hE
      | some listId =>
        simp only at h
        refine resolvePres_trans hE (resolvePres_modifyPkg ?_ h)
        intro d hp
        exact hp
  · simp only [if_neg hc] at h
    refine resolvePres_modifyPkg ?_ h
    intro d hp
    exact hp

theorem readPackageTail_binding (fs : FS) (hIdem : fs.RealIdem) (fuel : Nat)
    (realPath : FsPath) (np : PackageInfo) (s : PackageInfoCache)
    (n : EntryId) (sa : PackageInfoCache) (hwf : CacheWF fs s)
    (hkey : fs.realDir realPath = some realPath ∨ fs.realDir realPath = none)
    (hunb : alGet s.entries realPath = none)
    (h : PackageInfoCache.readPackageTail fs
      (PackageInfoCache.readPackage fs fuel)
      (PackageInfoCache.readNodeModulesList fs fuel) realPath np s = (.ok n, sa)) :
    n = s.nextId ∧ alGet sa.entries realPath = some n ∧
      ∃ dd, alGet sa.store n = some (.pkg dd) := by
  have h2 : (M.bind
      (PackageInfoCache.inRepoPhase fs (PackageInfoCache.readPackage fs fuel)
        (s.allocate (.pkg np)).1 realPath np)
      (fun _ => M.bind
        (PackageInfoCache.nmPhase fs (PackageInfoCache.readNodeModulesList fs fuel)
          (s.allocate (.pkg np)).1 realPath np)
        (fun _ => M.pure (s.allocate (.pkg np)).1)))
      ((s.allocate (.pkg np)).2.addEntry realPath (s.allocate (.pkg np)).1) =
      (.ok n, sa) := h
  have hwf1 : CacheWF fs
      ((s.allocate (.pkg np)).2.addEntry realPath (s.allocate (.pkg np)).1) :=
    wf_addEntry ((pres_allocate fs s.nextId s (.pkg np)).wf hwf) hkey
  have hbind1 : alGet
      ((s.allocate (.pkg np)).2.addEntry realPath (s.allocate (.pkg np)).1).entries
      realPath = some s.nextId := by
    show alGet (alSet s.entries realPath s.nextId) realPath = some s.nextId
    exact alGet_alSet_self _ _ _
  have hstore1 : alGet
      ((s.allocate (.pkg np)).2.addEntry realPath (s.allocate (.pkg np)).1).store
      s.nextId = some (.pkg np) := by
    show alGet (alSet s.store s.nextId (.pkg np)) s.nextId = some (.pkg np)
    exact alGet_alSet_self _ _ _
  rw [M_bind_apply] at h2
  rcases hx : PackageInfoCache.inRepoPhase fs (PackageInfoCache.readPackage fs fuel)
      (s.allocate (.pkg np)).1 realPath np
      ((s.allocate (.pkg np)).2.addEntry realPath (s.allocate (.pkg np)).1)
      with ⟨rx, sx⟩
  rw [hx] at h2
  cases rx with
  | error e =>
    simp only at h2
    exact absurd (congrArg Prod.fst h2) (by simp)
  | ok u =>
    simp only [M_bind_apply] at h2
    have hPh1 : ResolvePres fs
        ((s.allocate (.pkg np)).2.addEntry realPath (s.allocate (.pkg np)).1) sx :=
      resolvePres_inRepoPhase hIdem _ _ _ hx
    rcases hy : PackageInfoCache.nmPhase fs
        (PackageInfoCache.readNodeModulesList fs fuel)
        (s.allocate (.pkg np)).1 realPath np sx with ⟨ry, sy⟩
    rw [hy] at h2
    have hPh2 : ResolvePres fs sx sy := resolvePres_nmPhase hIdem _ _ _ hy
    cases ry with
    | error e =>
      simp only at h2
      exact absurd (congrArg Prod.fst h2) (by simp)
    | ok u2 =>
      simp only [M_pure_apply] at h2
      injection h2 with h21 h22
      injection h21 with h21
      have hn : n = s.nextId := h21.symm
      subst h22
      have hPh := resolvePres_trans hPh1 hPh2
      refine ⟨hn, ?_, ?_⟩
      · rw [hn]
        exact hPh.sbind hwf1 realPath s.nextId _ hbind1 hstore1
      · obtain ⟨dd, hdd, _⟩ := hPh.kindP hwf1 s.nextId np hstore1
        exact ⟨dd, hn ▸ hdd⟩

theorem readPackage_ok_binding (fs : FS) (hIdem : fs.RealIdem) (fuel : Nat)
    (p : FsPath) (b : Bool) (s sa : PackageInfoCache) (n : EntryId)
    (hwf : CacheWF fs s)
    (h : PackageInfoCache.readPackage fs fuel p b s = (.ok n, sa)) :
    (∃ dd, alGet sa.store n = some (.pkg dd)) ∧
      ((fs.realDir p = some p ∨ fs.realDir p = none) ∧
        alGet sa.entries p = some n ∨
       ∃ rp2, fs.realDir p = some rp2 ∧ rp2 ≠ p ∧
        alGet sa.entries rp2 = some n) := by
  cases fuel with
  | zero =>
    have h2 : ((.error .outOfFuel : Except JsErr EntryId), s) = (.ok n, sa) := h
    exact absurd (congrArg Prod.fst h2) (by simp)
  | succ fuel =>
    unfold PackageInfoCache.readPackage at h
    simp only [M_bind_eq, M_bind_apply, getC_apply] at h
    rcases he : s.getEntry p with _ | i
    · rw [he] at h
      simp only at h
      rcases hrd : fs.realDir p with _ | realPath
      · rw [hrd] at h
        simp only at h
        unfold PackageInfoCache.readPackageNew at h
        obtain ⟨hn, hbind, hdd⟩ := readPackageTail_binding fs hIdem fuel p _ s n sa
          hwf (Or.inr hrd) he h
        exact ⟨hdd, Or.inl ⟨Or.inr rfl, hbind⟩⟩
      · rw [hrd] at h
        simp only at h
        by_cases hrp2 : realPath = p
        · rw [if_pos hrp2] at h
          unfold PackageInfoCache.readPackageNew at h
          subst hrp2
          obtain ⟨hn, hbind, hdd⟩ := readPackageTail_binding fs hIdem fuel realPath
            _ s n sa hwf (Or.inl hrd) he h
          exact ⟨hdd, Or.inl ⟨Or.inl rfl, hbind⟩⟩
        · rw [if_neg hrp2] at h
          rcases he2 : s.getEntry realPath with _ | i2
          · rw [he2] at h
            simp only at h
            unfold PackageInfoCache.readPackageNew at h
            obtain ⟨hn, hbind, hdd⟩ := readPackageTail_binding fs hIdem fuel realPath
              _ s n sa hwf (Or.inl (hIdem p realPath hrd)) he2 h
            exact ⟨hdd, Or.inr ⟨realPath, rfl, hrp2, hbind⟩⟩
          · rw [he2] at h
            simp only at h
            rcases hgd : s.getData i2 with _ | e2
            · rw [hgd] at h
              simp only at h
              exact absurd (congrArg Prod.fst h) (by simp [throwM])
            · rw [hgd] at h
              cases e2 with
              | pkg d =>
                simp only [M_pure_apply] at h
                injection h with h1 h2
                injection h1 with h1
                subst h2
                refine ⟨⟨d, ?_⟩, Or.inr ⟨realPath, rfl, hrp2, h1 ▸ he2⟩⟩
                rw [← h1]
                exact hgd
              | nml l =>
                simp only at h
                exact absurd (congrArg Prod.fst h) (by simp [throwM])
    · rw [he] at h
      simp only at h
      rcases hgd : s.getData i with _ | e2
      · rw [hgd] at h
        simp only at h
        exact absurd (congrArg Prod.fst h) (by simp [throwM])
      · rw [hgd] at h
        cases e2 with
        | pkg d =>
          simp only [M_pure_apply] at h
          injection h with h1 h2
          injection h1 with h1
          subst h2
          refine ⟨⟨d, ?_⟩, Or.inl ⟨hwf.1 p n (h1 ▸ he), h1 ▸ he⟩⟩
          rw [← h1]
          exact hgd
        | nml l =>
          simp only at h
          exact absurd (congrArg Prod.fst h) (by simp [throwM])

theorem readPackage_second (fs : FS) (fuel2 : Nat) (p : FsPath) (b : Bool)
    (s : PackageInfoCache) (n : EntryId) (dd : PackageInfo)
    (hwf : CacheWF fs s) (hstore : alGet s.store n = some (.pkg dd))
    (hcase : (fs.realDir p = some p ∨ fs.realDir p = none) ∧
        alGet s.entries p = some n ∨
      ∃ rp2, fs.realDir p = some rp2 ∧ rp2 ≠ p ∧
        alGet s.entries rp2 = some n) :
    PackageInfoCache.readPackage fs (fuel2 + 1) p b s = (.ok n, s) := by
  unfold PackageInfoCache.readPackage
  simp only [M_bind_eq, M_bind_apply, getC_apply]
  rcases hcase with ⟨hkey, hbind⟩ | ⟨rp2, hrd, hne, hbind⟩
  · rw [show s.getEntry p = some n from hbind]
    simp only
    rw [show s.getData n = some (.pkg dd) from hstore]
    rfl
  · have hunb : s.getEntry p = none := by
      rcases he : s.getEntry p with _ | i
      · rfl
      · rcases hwf.1 p i he with hk | hk
        · rw [hrd] at hk
          injection hk with hk
          exact absurd hk hne
        · rw [hrd] at hk
          exact Option.noConfusion hk
    rw [hunb]
    simp only
    rw [hrd]
    simp only
    rw [if_neg hne, show s.getEntry rp2 = some n from hbind]
    simp only
    rw [show s.getData n = some (.pkg dd) from hstore]
    rfl

theorem alGet_mem_snd {κ ν : Type} [DecidableEq κ] :
    ∀ (m : List (κ × ν)) (k : κ) (v : ν), alGet m k = some v →
      v ∈ m.map Prod.snd := by
  intro m
  induction m with
  | nil =>
    intro k v h
    exact absurd h (by simp [alGet])
  | cons hd tl ih =>
    intro k v h
    obtain ⟨hk, hv⟩ := hd
    by_cases hkk : hk = k
    · simp only [alGet, if_pos hkk] at h
      injection h with h
      simp [h]
    · simp only [alGet, if_neg hkk] at h
      simp only [List.map_cons, List.mem_cons]
      exact Or.inr (ih k v h)

theorem mem_getPackageInfos {s : PackageInfoCache} (k : FsPath) {n : EntryId}
    {d : PackageInfo} (hbind : alGet s.entries k = some n)
    (hstore : alGet s.store n = some (.pkg d)) :
    n ∈ s.getPackageInfos := by
  unfold PackageInfoCache.getPackageInfos
  rw [List.mem_filter]
  refine ⟨alGet_mem_snd s.entries k n hbind, ?_⟩
  rw [pkgData_of_store hstore]
  rfl

theorem resolveStep_processes (fs : FS) (hIdem : fs.RealIdem) (fuel : Nat)
    (j : EntryId) :
    ∀ s u t, PackageInfoCache.resolveStep fs fuel j s = (.ok u, t) →
      CacheWF fs s → ∀ dj, alGet s.store j = some (.pkg dj) →
      ∃ d2, alGet t.store j = some (.pkg d2) ∧ d2.processed = true := by
  intro s u t h hwf dj hb
  unfold PackageInfoCache.resolveStep at h
  simp only [M_bind_eq, M_bind_apply, getC_apply] at h
  rw [pkgData_of_store hb] at h
  simp only at h
  by_cases hproc : dj.processed = true
  · rw [if_pos hproc] at h
    simp only [M_pure_apply] at h
    injection h with h1 h2
    exact ⟨dj, h2 ▸ hb, hproc⟩
  · rw [if_neg hproc] at h
    simp only [M_bind_eq, M_bind_apply] at h
    rcases hadd : PackageInfo.addDependencies fs fuel j
        (jsonField dj.packageJson (strOf "dependencies")) s with ⟨ra, sa⟩
    rw [hadd] at h
    have hA : ResolvePres fs s sa := pres_doAdd fs hIdem fuel j _ _ s ra sa hadd
    cases ra with
    | error e =>
      simp only at h
      exact absurd (congrArg Prod.fst h) (by simp)
    | ok pkgs =>
      simp only at h
      obtain ⟨da, hba, _⟩ := hA.kindP hwf j dj hb
      rcases hm1 : modifyPkg j (fun d2 => { d2 with dependenciesPackages := pkgs }) sa
          with ⟨rm1, sm1⟩
      rw [hm1] at h
      have hbb := modifyPkg_node_effect hm1 hba
      rw [if_pos rfl] at hbb
      have hM1 : ResolvePres fs sa sm1 := by
        refine resolvePres_modifyPkg ?_ hm1
        intro d2 hp
        exact hp
      cases rm1 with
      | error e =>
        simp only at h
        exact absurd (congrArg Prod.fst h) (by simp)
      | ok u1 =>
        simp only at h
        by_cases hroot : dj.isRoot = true
        · rw [if_pos hroot] at h
          simp only [M_bind_eq, M_bind_apply] at h
          rcases hdev : PackageInfo.addDevDependencies fs fuel j
              (jsonField dj.packageJson (strOf "devDependencies")) sm1 with ⟨rd, sd⟩
          rw [hdev] at h
          have hD : ResolvePres fs sm1 sd :=
            pres_doAdd fs hIdem fuel j _ _ sm1 rd sd hdev
          cases rd with
          | error e =>
            simp only at h
            exact absurd (congrArg Prod.fst h) (by simp)
          | ok devPkgs =>
            simp only at h
            obtain ⟨dc, hbc, _⟩ := hD.kindP (hM1.wf (hA.wf hwf)) j _ hbb
            rcases hm2 : modifyPkg j
                (fun d2 => { d2 with devDependenciesPackages := devPkgs }) sd
                with ⟨rm2, sm2⟩
            rw [hm2] at h
            have hbb2 := modifyPkg_node_effect hm2 hbc
            rw [if_pos rfl] at hbb2
            cases rm2 with
            | error e =>
              simp only at h
              exact absurd (congrArg Prod.fst h) (by simp)
            | ok u2 =>
              simp only at h
              rcases hm3 : modifyPkg j (fun d2 => { d2 with processed := true }) sm2
                  with ⟨rm3, sm3⟩
              rw [hm3] at h
              have hbb3 := modifyPkg_node_effect hm3 hbb2
              rw [if_pos rfl] at hbb3
              cases rm3 with
              | error e =>
                exact absurd (congrArg Prod.fst h) (by simp)
              | ok u3 =>
                injection h with h1 h2
                exact ⟨_, h2 ▸ hbb3, rfl⟩
        · rw [if_neg hroot] at h
          simp only [M_bind_eq, M_bind_apply, M_pure_apply] at h
          rcases hm3 : modifyPkg j (fun d2 => { d2 with processed := true }) sm1
              with ⟨rm3, sm3⟩
          rw [hm3] at h
          have hbb3 := modifyPkg_node_effect hm3 hbb
          rw [if_pos rfl] at hbb3
          cases rm3 with
          | error e =>
            exact absurd (congrArg Prod.fst h) (by simp)
          | ok u3 =>
            injection h with h1 h2
            exact ⟨_, h2 ▸ hbb3, rfl⟩

theorem resolveRun_processes (fs : FS) (hIdem : fs.RealIdem) (fuel : Nat) :
    ∀ (L : List EntryId) (s : PackageInfoCache) (u : Unit) (t : PackageInfoCache),
      List.forM L (PackageInfoCache.resolveStep fs fuel) s = (.ok u, t) →
      CacheWF fs s → ∀ n dn, n ∈ L → alGet s.store n = some (.pkg dn) →
      ∃ d2, alGet t.store n = some (.pkg d2) ∧ d2.processed = true := by
  intro L
  induction L with
  | nil =>
    intro s u t h hwf n dn hmem hb
    exact absurd hmem (List.not_mem_nil n)
  | cons b bs ih =>
    intro s u t h hwf n dn hmem hb
    simp only [List.forM, M_bind_eq, M_bind_apply] at h
    rcases hx : PackageInfoCache.resolveStep fs fuel b s with ⟨rx, sx⟩
    rw [hx] at h
    cases rx with
    | error e =>
      simp only at h
      exact absurd (congrArg Prod.fst h) (by simp)
    | ok ux =>
      simp only at h
      have hP : ResolvePres fs s sx := pres_resolveStep fs hIdem fuel b s _ sx hx
      have hwfx : CacheWF fs sx := hP.wf hwf
      rcases List.mem_cons.mp hmem with hnb | hnbs
      · subst hnb
        obtain ⟨d2, hb2, hp2⟩ := resolveStep_processes fs hIdem fuel n s ux sx hx hwf dn hb
        have hR : ResolvePres fs sx t :=
          resolvePres_forM _ (pres_resolveStep fs hIdem fuel) bs sx _ t h
        obtain ⟨d3, hb3, hp3⟩ := hR.kindP hwfx n d2 hb2
        exact ⟨d3, hb3, hp3 hp2⟩
      · obtain ⟨d2, hb2, _⟩ := hP.kindP hwf n dn hb
        exact ih sx u t h hwfx n d2 hnbs hb2

/-- C1: Loading is idempotent and path-keyed: starting from a well-formed
cache, after a successful loadApp of a root directory returning node n in
state s1, running loadApp again on the same path returns the very same node
id n (object identity in the store model) and leaves the state exactly s1;
moreover the resulting table holds at most one entry per path. -/
theorem loadApp_idempotent (fs : FS) (hIdem : fs.RealIdem) (fuel fuel2 : Nat)
    (p : FsPath) (s0 : PackageInfoCache) (n : EntryId) (s1 : PackageInfoCache)
    (hwf : CacheWF fs s0)
    (h1 : PackageInfoCache.loadApp fs fuel p true s0 = (.ok n, s1)) :
    PackageInfoCache.loadApp fs (fuel2 + 1) p true s1 = (.ok n, s1) ∧
    (s1.entries.map Prod.fst).Nodup := by
  unfold PackageInfoCache.loadApp at h1
  simp only [M_bind_eq, M_bind_apply, getC_apply] at h1
  rcases hrp1 : PackageInfoCache.readPackage fs fuel p true s0 with ⟨rr, sa⟩
  rw [hrp1] at h1
  cases rr with
  | error e =>
    simp only at h1
    exact absurd (congrArg Prod.fst h1) (by simp)
  | ok m =>
    simp only at h1
    have hwfa : CacheWF fs sa :=
      ((enginePres fs hIdem fuel).1 s0.nextId p true s0 _ sa hrp1).wf hwf
    obtain ⟨⟨dd, hdd⟩, hcase⟩ :=
      readPackage_ok_binding fs hIdem fuel p true s0 sa m hwf hrp1
    rw [pkgData_of_store hdd] at h1
    simp only at h1
    by_cases hproc : dd.processed = true
    · rw [if_pos hproc] at h1
      simp only [M_pure_apply] at h1
      injection h1 with h11 h12
      injection h11 with h11
      subst h11
      subst h12
      constructor
      · unfold PackageInfoCache.loadApp
        simp only [M_bind_eq, M_bind_apply, getC_apply]
        rw [readPackage_second fs fuel2 p true sa m dd hwfa hdd hcase]
        simp only
        rw [pkgData_of_store hdd]
        simp only [if_pos hproc, M_pure_apply]
      · exact hwfa.2.2
    · rw [if_neg hproc] at h1
      simp only [M_bind_eq, M_bind_apply, modifyC_apply, if_pos] at h1
      rcases hres : PackageInfoCache.resolveDependencies fs fuel
          { sa with rootPackage := some m } with ⟨rv, sb⟩
      rw [hres] at h1
      cases rv with
      | error e =>
        simp only at h1
        exact absurd (congrArg Prod.fst h1) (by simp)
      | ok uv =>
        simp only [M_pure_apply] at h1
        injection h1 with h11 h12
        injection h11 with h11
        subst h11
        subst h12
        have hwfr : CacheWF fs { sa with rootPackage := some m } := hwfa
        have hRes : ResolvePres fs { sa with rootPackage := some m } sb :=
          pres_resolveDependencies fs hIdem fuel _ _ sb hres
        have hwfb : CacheWF fs sb := hRes.wf hwfr
        have hres2 : List.forM
            ({ sa with rootPackage := some m } : PackageInfoCache).getPackageInfos
            (PackageInfoCache.resolveStep fs fuel)
            { sa with rootPackage := some m } = (.ok uv, sb) := by
          have h3 := hres
          unfold PackageInfoCache.resolveDependencies at h3
          simp only [M_bind_eq, M_bind_apply, getC_apply] at h3
          exact h3
        have hmem : m ∈
            ({ sa with rootPackage := some m } : PackageInfoCache).getPackageInfos := by
          rcases hcase with ⟨_, hbind⟩ | ⟨rp2, _, _, hbind⟩
          · exact mem_getPackageInfos p hbind hdd
          · exact mem_getPackageInfos rp2 hbind hdd
        obtain ⟨d2, hb2, hp2⟩ := resolveRun_processes fs hIdem fuel _ _ uv sb hres2
          hwfr m dd hmem hdd
        have hcase2 : (fs.realDir p = some p ∨ fs.realDir p = none) ∧
            alGet sb.entries p = some m ∨
            ∃ rp2, fs.realDir p = some rp2 ∧ rp2 ≠ p ∧
              alGet sb.entries rp2 = some m := by
          rcases hcase with ⟨hk, hbind⟩ | ⟨rp2, hk, hne, hbind⟩
          · exact Or.inl ⟨hk, hRes.sbind hwfr p m _ hbind hdd⟩
          · exact Or.inr ⟨rp2, hk, hne, hRes.sbind hwfr rp2 m _ hbind hdd⟩
        constructor
        · unfold PackageInfoCache.loadApp
          simp only [M_bind_eq, M_bind_apply, getC_apply]
          rw [readPackage_second fs fuel2 p true sb m d2 hwfb hb2 hcase2]
          simp only
          rw [pkgData_of_store hb2]
          simp only [if_pos hp2, M_pure_apply]
        · exact hwfb.2.2

theorem loadApp_idempotent_witness :
    PackageInfoCache.loadApp fsBare (2 + 1) [strOf "proj"] true c1state =
        (.ok 0, c1state) ∧
      (c1state.entries.map Prod.fst).Nodup :=
  loadApp_idempotent fsBare fsBare_idem 3 2 [strOf "proj"]
    PackageInfoCache.empty 0 c1state
    (by
      refine ⟨?_, ?_, ?_⟩
      · intro k i hb
        exact absurd hb (by simp [PackageInfoCache.empty, alGet])
      · intro i hi
        rfl
      · exact List.nodup_nil)
    rfl
